import Mathlib

/-! Spreadsheet engine: cells, dependency graph, cycle detection, caches, printable size.

A shallow embedding of `cell.cpp`, `sheet.cpp` and `formula.cpp`.

* The sheet is the C++ `unordered_map<Position, unique_ptr<CellInterface>>`, kept as an
  association list that is only read by `mapFind` (the first entry of a position counts).
* A `const Cell*` stored in `reverse_ref_` is represented by the position of the cell it
  points to: every `Cell` has an immutable `pos_` and the sheet owns one cell per position.
* The formula language (`FormulaAST`, `ParseFormulaAST`) is not part of the sources; the
  parser is a parameter of every operation that parses.
* An operation returns the state it leaves behind together with the exception it throws, if
  any.
* Recursive walks carry a recursion budget. The budgets that `FindCircularDependency` and
  `InvalidateCache` are given are shown to suffice; results on `GetValue` are stated for
  every sufficient depth.

The definitions come first; the proofs start at the section "The depth-first cycle search".
-/

/-! ## Primitives -/

/-- Modelled from the spec: `common.h` is not among the sources. A position is a pair
`(row, col)` of non-negative integers. -/
structure Position where
  row : Nat
  col : Nat
deriving DecidableEq, Repr

/-- Modelled from the spec: the bound on rows (`common.h` is absent; the spec names 16384). -/
def Position.MAX_ROWS : Nat := 16384

/-- Modelled from the spec: the bound on columns (`common.h` is absent; the spec names 16384). -/
def Position.MAX_COLS : Nat := 16384

/-- Modelled from the spec: a position is valid when both coordinates are below the bounds. -/
def Position.IsValid (p : Position) : Bool :=
  decide (p.row < Position.MAX_ROWS) && decide (p.col < Position.MAX_COLS)

/-- Modelled from the spec: the row-major order on positions (`operator<` of `common.h`). -/
def Position.less (a b : Position) : Bool :=
  decide (a.row < b.row) || (decide (a.row = b.row) && decide (a.col < b.col))

/-- Letters of a column index, most significant first (bijective base 26). -/
def Position.colLetters : Nat → Nat → List Char
  | 0, _ => []
  | fuel + 1, c =>
    (if c / 26 = 0 then [] else Position.colLetters fuel (c / 26 - 1)) ++ [Char.ofNat (65 + c % 26)]

/-- Modelled from the spec: `Position::ToString` of `common.h`, the `A1` style rendering
(column letters, then the one-based row number); an invalid position renders as the empty
string. -/
def Position.ToString (p : Position) : String :=
  if p.IsValid then String.mk (Position.colLetters 4 p.col) ++ toString (p.row + 1) else ""

/-- Modelled from the spec: the opaque error value of the formula module. -/
structure FormulaError where
  category : Nat
deriving DecidableEq, Repr

/-- The variant `std::variant<std::string, double, FormulaError>`. The engine never computes
with numbers: it produces the constant zero and hands on what the formula module returned,
so numbers are carried as integers. -/
inductive Value where
  | text (s : String)
  | number (d : Int)
  | error (e : FormulaError)
deriving DecidableEq, Repr

/-- The escape character, an apostrophe. -/
def ESCAPE_SIGN : Char := Char.ofNat 39

/-- The formula character, an equals sign. -/
def FORMULA_SIGN : Char := Char.ofNat 61

/-! ## Formula module boundary -/

/-- Modelled from the spec: what executing a parsed formula against the sheet view does.
The view returns a cell's current value given a position, so an execution is a tree:
it either finishes with a value, or asks the sheet for the cell at a position
(`GetCell(p)`, then `GetValue()` on it when it is not null) and continues with the answer. -/
inductive Exec where
  | ret (v : Value)
  | ask (p : Position) (k : Option Value → Exec)

/-- Modelled from the spec: `FormulaAST` is not among the sources. A parsed formula exposes
the cells it mentions (`GetCells`), its canonical text (`PrintFormula`) and its execution
(`Execute`). -/
structure FormulaAST where
  cells : List Position
  printed : String
  exec : Exec

/-- The class `Formula` of `formula.cpp`: a wrapper of the syntax tree. -/
structure Formula where
  ast_ : FormulaAST

/-- The function `Formula::GetExpression`. -/
def Formula.GetExpression (f : Formula) : String := f.ast_.printed

/-- The algorithm `std::unique`: drops every element equal to its predecessor. -/
def stdUnique : List Position → List Position
  | [] => []
  | [a] => [a]
  | a :: b :: rest => if a = b then stdUnique (b :: rest) else a :: stdUnique (b :: rest)

/-- The function `Formula::GetReferencedCells`: sort, then erase adjacent duplicates. -/
def Formula.GetReferencedCells (f : Formula) : List Position :=
  stdUnique (List.insertionSort (fun a b => Position.less a b = true ∨ a = b) f.ast_.cells)

/-- The function `ParseFormula`: `none` stands for `FormulaException`. -/
def ParseFormula (ParseFormulaAST : String → Option FormulaAST) (expression : String) :
    Option Formula :=
  (ParseFormulaAST expression).map Formula.mk

/-! ## Cells -/

/-- The three implementations of `Cell::Impl`. -/
inductive Impl where
  | EmptyImpl
  | TextImpl (text_ : String)
  | FormulaImpl (formula_ : Formula) (cache_ : Option Value)

/-- The virtual function `Impl::GetText`. -/
def Impl.GetText : Impl → String
  | .EmptyImpl => ""
  | .TextImpl text_ => text_
  | .FormulaImpl formula_ _ => "=" ++ formula_.GetExpression

/-- The virtual function `Impl::GetReferencedCells`. -/
def Impl.GetReferencedCells : Impl → List Position
  | .FormulaImpl formula_ _ => formula_.GetReferencedCells
  | _ => []

/-- The virtual function `Impl::InvalidateCache`. -/
def Impl.InvalidateCache : Impl → Impl
  | .FormulaImpl formula_ _ => .FormulaImpl formula_ none
  | i => i

/-- The cached value of a formula cell, `none` for the other kinds. -/
def Impl.cache : Impl → Option Value
  | .FormulaImpl _ cache_ => cache_
  | _ => none

/-- Whether the implementation is `FormulaImpl`. -/
def Impl.isFormula : Impl → Bool
  | .FormulaImpl _ _ => true
  | _ => false

/-- The function `TextImpl::GetValue`. -/
def TextImpl_GetValue (text_ : String) : Value :=
  match text_.data with
  | [] => .text text_
  | c :: rest => if c = ESCAPE_SIGN then .text (String.mk rest) else .text text_

/-- A `Cell`: its implementation and the set of cells that depend on it. The field `pos_`
is the key under which the sheet stores the cell. -/
structure Cell where
  impl_ : Impl
  reverse_ref_ : List Position

/-- The constructor `Cell::Cell`. -/
def Cell.new : Cell := ⟨.EmptyImpl, []⟩

/-- The function `Cell::GetText`. -/
def Cell.GetText (c : Cell) : String := c.impl_.GetText

/-- The function `Cell::GetReferencedCells`. -/
def Cell.GetReferencedCells (c : Cell) : List Position := c.impl_.GetReferencedCells

/-- The function `Cell::IsReferenced`. -/
def Cell.IsReferenced (c : Cell) : Bool := !c.reverse_ref_.isEmpty

/-! ## The sheet -/

/-- The class `Sheet`. -/
structure Sheet where
  sheet_ : List (Position × Cell)
  counter_in_row_ : List Int
  counter_in_col_ : List Int

/-- The freshly constructed sheet. -/
def Sheet.empty : Sheet := ⟨[], [], []⟩

/-- The exceptions of the engine. `Diverged` is not a C++ exception: it marks a recursive
walk that used up its recursion budget, which the budget theorems exclude. -/
inductive Exception where
  | InvalidPositionException
  | FormulaException
  | CircularDependencyException (what : String)
  | Diverged
deriving DecidableEq, Repr

/-- Lookup in the map: `sheet_.find(pos)`. -/
def mapFind : List (Position × Cell) → Position → Option Cell
  | [], _ => none
  | e :: rest, pos => if e.1 = pos then some e.2 else mapFind rest pos

/-- The cell stored at `pos`, `none` when there is none (the null pointer of
`Sheet::GetCell`); the validity check of `GetCell` is made by the callers. -/
def Sheet.cellAt (s : Sheet) (pos : Position) : Option Cell := mapFind s.sheet_ pos

/-- The function `Sheet::GetCell`: throws on an invalid position. -/
def Sheet.GetCell (s : Sheet) (pos : Position) : Except Exception (Option Cell) :=
  if pos.IsValid then .ok (s.cellAt pos) else .error .InvalidPositionException

/-- Apply `f` to the cell stored at `pos` (a mutation through a `Cell*`). -/
def Sheet.modifyCell (s : Sheet) (pos : Position) (f : Cell → Cell) : Sheet :=
  { s with sheet_ := s.sheet_.map (fun e => if e.1 = pos then (e.1, f e.2) else e) }

/-- The stored positions. -/
def Sheet.keys (s : Sheet) : List Position := s.sheet_.map Prod.fst

/-- The method `vector::resize` (new entries are zero). -/
def vecResize (v : List Int) (n : Nat) : List Int :=
  v.take n ++ List.replicate (n - v.length) 0

/-- The statement `v[i] += delta`. -/
def vecAdd (v : List Int) (i : Nat) (delta : Int) : List Int :=
  v.set i (v.getD i 0 + delta)

/-- The value `std::distance(std::find_if(v.rbegin(), v.rend(), x > 0), v.rend())`: one more
than the index of the last positive entry, zero when there is none. -/
def lastPositive : List Int → Nat
  | [] => 0
  | x :: rest =>
    if lastPositive rest > 0 then lastPositive rest + 1 else if x > 0 then 1 else 0

/-- One counter vector through `Sheet::UpdateSizeSheet`. -/
def updateCounter (v : List Int) (i : Nat) (delta : Int) : List Int :=
  let v1 := if i ≥ v.length then vecResize v (i + 1) else v
  let v2 := vecAdd v1 i delta
  if delta < 0 then vecResize v2 (lastPositive v2) else v2

/-- The function `Sheet::UpdateSizeSheet`. -/
def Sheet.UpdateSizeSheet (s : Sheet) (pos : Position) (delta : Int) : Sheet :=
  { s with
    counter_in_row_ := updateCounter s.counter_in_row_ pos.row delta
    counter_in_col_ := updateCounter s.counter_in_col_ pos.col delta }

/-- The function `Sheet::GetPrintableSize`. -/
def Sheet.GetPrintableSize (s : Sheet) : Nat × Nat :=
  (s.counter_in_row_.length, s.counter_in_col_.length)

/-- The first statements of `Sheet::SetCell` for a valid position: when no cell is stored at
`pos`, store a fresh one and count it. -/
def Sheet.materialize (s : Sheet) (pos : Position) : Sheet :=
  match s.cellAt pos with
  | none => Sheet.UpdateSizeSheet { s with sheet_ := (pos, Cell.new) :: s.sheet_ } pos 1
  | some _ => s

/-! ## Cycle detection -/

/-- The marker colours of the depth-first walk. -/
inductive Color where
  | WHITE
  | GRAY
  | BLACK
deriving DecidableEq, Repr

/-- The map `unordered_map<Position, Color>`, read by `find` and written by `operator[]`. -/
abbrev Marker := Position → Option Color

/-- The statement `marker[pos] = color`. -/
def Marker.set (marker : Marker) (pos : Position) (color : Color) : Marker :=
  fun q => if q = pos then some color else marker q

/-- How the recursive `Cell::FindCircularDependency` leaves: by returning (with the marker
and the trace it leaves behind), by throwing `CircularDependencyException` (with the trace as
it stands at the throw), by the `InvalidPositionException` of `Sheet::GetCell`, or with the
recursion budget used up. -/
inductive DfsResult where
  | returned (marker : Marker) (trace : List Position)
  | cycle (trace : List Position)
  | invalid
  | fuelOut

/-- The loop `for (auto pos : vec) FindCircularDependency(marker, trace, pos)`. -/
def dfsLoop (visit : Marker → List Position → Position → DfsResult) :
    Marker → List Position → List Position → DfsResult
  | marker, trace, [] => .returned marker trace
  | marker, trace, pos :: rest =>
    match visit marker trace pos with
    | .returned marker1 trace1 => dfsLoop visit marker1 trace1 rest
    | r => r

/-- The recursive `Cell::FindCircularDependency(marker, trace, cur_pos)`. -/
def Cell.FindCircularDependencyRec (s : Sheet) :
    Nat → Marker → List Position → Position → DfsResult
  | 0, _, _, _ => .fuelOut
  | fuel + 1, marker, trace, cur_pos =>
    let trace1 := trace ++ [cur_pos]
    if marker cur_pos = some Color.GRAY then .cycle trace1
    else
      let marker1 := marker.set cur_pos Color.GRAY
      match s.GetCell cur_pos with
      | .error _ => .invalid
      | .ok none => .returned (marker1.set cur_pos Color.BLACK) trace1.dropLast
      | .ok (some cell) =>
        match dfsLoop (Cell.FindCircularDependencyRec s fuel) marker1 trace1
            cell.GetReferencedCells with
        | .returned marker2 trace2 =>
          .returned (marker2.set cur_pos Color.BLACK) trace2.dropLast
        | r => r

/-- The function `Cell::StackToString`: the trace from the first occurrence of its last entry,
joined by arrows. -/
def Cell.StackToString (trace : List Position) : String :=
  match trace.getLast? with
  | none => ""
  | some top => "->".intercalate ((trace.dropWhile (fun p => decide (p ≠ top))).map Position.ToString)

/-- The function `Cell::FindCircularDependency()` of the cell at `self`; `none` is a normal
return. -/
def Cell.FindCircularDependency (s : Sheet) (self : Position) : Option Exception :=
  match Cell.FindCircularDependencyRec s (s.sheet_.length + 1) (fun _ => none) [] self with
  | .returned _ _ => none
  | .cycle trace => some (.CircularDependencyException ("Find cycle: " ++ Cell.StackToString trace))
  | .invalid => some .InvalidPositionException
  | .fuelOut => some .Diverged

/-! ## Reverse references and cache invalidation -/

/-- The statement `reverse_ref_.erase(self)` on a cell. -/
def Cell.eraseReverse (self : Position) (c : Cell) : Cell :=
  { c with reverse_ref_ := c.reverse_ref_.filter (fun q => decide (q ≠ self)) }

/-- The statement `reverse_ref_.insert(self)` on a cell. -/
def Cell.insertReverse (self : Position) (c : Cell) : Cell :=
  { c with reverse_ref_ := c.reverse_ref_.insert self }

/-- The statement `impl_->InvalidateCache()` on a cell. -/
def Cell.resetCache (c : Cell) : Cell :=
  { c with impl_ := c.impl_.InvalidateCache }

/-- The function `Cell::RemoveReverseRef` of the cell at `self`. -/
def Cell.RemoveReverseRef (self : Position) : Sheet → List Position → Sheet × Option Exception
  | s, [] => (s, none)
  | s, pos :: rest =>
    match s.GetCell pos with
    | .error e => (s, some e)
    | .ok _ =>
      Cell.RemoveReverseRef self
        (s.modifyCell pos (Cell.eraseReverse self)) rest

/-- The loop of `Cell::AddReverseRef` of the cell at `self` over its referenced cells. A
missing referent is created by `Sheet::SetCell(pos, "")`: the position is valid, a fresh
cell is stored and counted, and `Cell::Set("")` returns at once on the fresh cell. -/
def Cell.AddReverseRefLoop (self : Position) : Sheet → List Position → Sheet × Option Exception
  | s, [] => (s, none)
  | s, pos :: rest =>
    match s.GetCell pos with
    | .error e => (s, some e)
    | .ok _ =>
      Cell.AddReverseRefLoop self
        ((s.materialize pos).modifyCell pos (Cell.insertReverse self)) rest

/-- The references of the cell stored at `pos` (none when no cell is stored). -/
def Sheet.refsAt (s : Sheet) (pos : Position) : List Position :=
  match s.cellAt pos with
  | some c => c.GetReferencedCells
  | none => []

/-- The reverse references of the cell stored at `pos` (none when no cell is stored). -/
def Sheet.reverseAt (s : Sheet) (pos : Position) : List Position :=
  match s.cellAt pos with
  | some c => c.reverse_ref_
  | none => []

/-- The function `Cell::AddReverseRef` of the cell at `self`. -/
def Cell.AddReverseRef (s : Sheet) (self : Position) : Sheet × Option Exception :=
  Cell.AddReverseRefLoop self s (s.refsAt self)

/-- The loop of the recursive `Cell::InvalidateCache` over `reverse_ref_`. -/
def invalidateLoop (visit : Sheet → List Position → Position → Option (Sheet × List Position)) :
    Sheet → List Position → List Position → Option (Sheet × List Position)
  | s, proccesed_cells, [] => some (s, proccesed_cells)
  | s, proccesed_cells, cell :: rest =>
    if cell ∈ proccesed_cells then invalidateLoop visit s proccesed_cells rest
    else
      match visit s proccesed_cells cell with
      | none => none
      | some (s1, proccesed1) => invalidateLoop visit s1 proccesed1 rest

/-- The recursive `Cell::InvalidateCache(proccesed_cells)` of the cell at `self`; `none` when
the recursion budget is used up. A member of `reverse_ref_` at which no cell is stored has
nothing to reset and nothing to visit. -/
def Cell.InvalidateCacheRec : Nat → Sheet → List Position → Position → Option (Sheet × List Position)
  | 0, _, _, _ => none
  | fuel + 1, s, proccesed_cells, self =>
    invalidateLoop (Cell.InvalidateCacheRec fuel) (s.modifyCell self Cell.resetCache)
      (self :: proccesed_cells) (s.reverseAt self)

/-- The function `Cell::InvalidateCache()` of the cell at `self`. -/
def Cell.InvalidateCache (s : Sheet) (self : Position) : Sheet × Option Exception :=
  match Cell.InvalidateCacheRec (s.sheet_.length + 1) s [] self with
  | some (s1, _) => (s1, none)
  | none => (s, some .Diverged)

/-! ## Editing -/

/-- The assignment `impl_ = ...` in the cell at `self`. -/
def Sheet.setImpl (s : Sheet) (self : Position) (impl : Impl) : Sheet :=
  s.modifyCell self (fun c => { c with impl_ := impl })

/-- The function `Cell::SetFormulaImpl` of the cell at `self`: the parsed formula is installed,
the cycle search runs on it, and any exception restores the old implementation. -/
def Cell.SetFormulaImpl (parse : String → Option FormulaAST) (s : Sheet) (self : Position)
    (text : String) : Sheet × Option Exception :=
  match ParseFormula parse text with
  | none => (s, some .FormulaException)
  | some formula =>
    match Cell.FindCircularDependency (s.setImpl self (.FormulaImpl formula none)) self with
    | none => (s.setImpl self (.FormulaImpl formula none), none)
    | some e => (s, some e)

/-- The first part of `Cell::Set`: the choice of the new implementation. -/
def Cell.SetImpl (parse : String → Option FormulaAST) (s : Sheet) (self : Position)
    (text : String) : Sheet × Option Exception :=
  match text.data with
  | [] => (s.setImpl self .EmptyImpl, none)
  | c :: rest =>
    if c = FORMULA_SIGN ∧ rest ≠ [] then Cell.SetFormulaImpl parse s self (String.mk rest)
    else (s.setImpl self (.TextImpl text), none)

/-- The function `Cell::Set` of the cell stored at `self`. The result is the state left behind
and the exception thrown, if any. -/
def Cell.Set (parse : String → Option FormulaAST) (s : Sheet) (self : Position)
    (text : String) : Sheet × Option Exception :=
  match s.cellAt self with
  | none => (s, none)
  | some cell =>
    if text = cell.GetText then (s, none)
    else
      match Cell.SetImpl parse s self text with
      | (s1, some e) => (s1, some e)
      | (s1, none) =>
        match Cell.RemoveReverseRef self s1 cell.GetReferencedCells with
        | (s2, some e) => (s2, some e)
        | (s2, none) =>
          match Cell.AddReverseRef s2 self with
          | (s3, some e) => (s3, some e)
          | (s3, none) => Cell.InvalidateCache s3 self

/-- The function `Sheet::SetCell`. -/
def Sheet.SetCell (parse : String → Option FormulaAST) (s : Sheet) (pos : Position)
    (text : String) : Sheet × Option Exception :=
  if pos.IsValid then Cell.Set parse (s.materialize pos) pos text
  else (s, some .InvalidPositionException)

/-- The call `sheet_.erase(pos)`. -/
def Sheet.erase (s : Sheet) (pos : Position) : Sheet :=
  { s with sheet_ := s.sheet_.filter (fun e => decide (e.1 ≠ pos)) }

/-- The function `Sheet::ClearCell`. The parser is only passed on: `Cell::Clear` sets the
empty text, which is never parsed. -/
def Sheet.ClearCell (parse : String → Option FormulaAST) (s : Sheet) (pos : Position) :
    Sheet × Option Exception :=
  if pos.IsValid then
    match s.cellAt pos with
    | none => (s, none)
    | some _ =>
      match Cell.Set parse s pos "" with
      | (s1, some e) => (s1, some e)
      | (s1, none) =>
        match s1.cellAt pos with
        | none => (s1, none)
        | some cell =>
          if cell.IsReferenced then (s1, none)
          else (Sheet.UpdateSizeSheet (s1.erase pos) pos (-1), none)
  else (s, some .InvalidPositionException)

/-! ## Values -/

/-- Running an execution tree against the sheet: an `ask` is `Sheet::GetCell` (which throws
on an invalid position) followed, when a cell is stored, by `GetValue()` on it. -/
def Exec.run (getValue : Sheet → Position → Sheet × Except Exception Value) :
    Exec → Sheet → Sheet × Except Exception Value
  | .ret v, s => (s, .ok v)
  | .ask p k, s =>
    match s.GetCell p with
    | .error e => (s, .error e)
    | .ok none => (k none).run getValue s
    | .ok (some _) =>
      match getValue s p with
      | (s1, .ok v) => (k (some v)).run getValue s1
      | (s1, .error e) => (s1, .error e)

/-- The function `Formula::Evaluate`: a `FormulaError` thrown by the tree is returned as a
value, which the tree already does by finishing with it. -/
def Formula.Evaluate (getValue : Sheet → Position → Sheet × Except Exception Value)
    (f : Formula) (s : Sheet) : Sheet × Except Exception Value :=
  f.ast_.exec.run getValue s

/-- The assignment `cache_ = ...` in the formula cell at `self`. -/
def Sheet.setCache (s : Sheet) (self : Position) (v : Value) : Sheet :=
  s.modifyCell self (fun c =>
    match c.impl_ with
    | .FormulaImpl formula_ _ => { c with impl_ := .FormulaImpl formula_ (some v) }
    | _ => c)

/-- The function `Cell::GetValue` of the cell stored at `self`, with the three
implementations of `Impl::GetValue`. The state returned carries the caches filled on the
way. There is no call on a position without a cell; the model answers it like an empty
cell. -/
def Cell.GetValue : Nat → Sheet → Position → Sheet × Except Exception Value
  | 0, s, _ => (s, .error .Diverged)
  | fuel + 1, s, self =>
    match s.cellAt self with
    | none => (s, .ok (.number 0))
    | some cell =>
      match cell.impl_ with
      | .EmptyImpl => (s, .ok (.number 0))
      | .TextImpl text_ => (s, .ok (TextImpl_GetValue text_))
      | .FormulaImpl _ (some v) => (s, .ok v)
      | .FormulaImpl formula_ none =>
        match formula_.Evaluate (Cell.GetValue fuel) s with
        | (s1, .ok (.number d)) => (s1.setCache self (.number d), .ok (.number d))
        | (s1, .ok (.error e)) => (s1.setCache self (.error e), .ok (.error e))
        | (s1, .ok (.text _)) => (s1, .ok (.text "Not value"))
        | (s1, .error e) => (s1, .error e)

/-- The call `sheet.GetCell(pos)->GetValue()` made by a user of the sheet on a stored cell. -/
def Sheet.GetValue (s : Sheet) (pos : Position) : Sheet × Except Exception Value :=
  Cell.GetValue (s.sheet_.length + 1) s pos

/-! ## Specification vocabulary -/

/-- A forward reference: `b` is among the referenced cells of the cell stored at `a`. -/
def Sheet.Edge (s : Sheet) (a b : Position) : Prop := b ∈ s.refsAt a

/-- A reverse reference: `b` is in the `reverse_ref_` set of the cell stored at `a`. -/
def Sheet.RevEdge (s : Sheet) (a b : Position) : Prop := b ∈ s.reverseAt a

/-- No cell is reachable from itself by one or more forward references. -/
def Sheet.Acyclic (s : Sheet) : Prop := ∀ a, ¬ Relation.TransGen s.Edge a a

/-- Every referenced position of every stored cell is a valid position. -/
def Sheet.RefsValid (s : Sheet) : Prop := ∀ a b, s.Edge a b → b.IsValid = true

/-- For every stored cell and every position it references, a cell is stored at that position
and its `reverse_ref_` contains the referring cell. -/
def Sheet.ForwardBacked (s : Sheet) : Prop :=
  ∀ a ca, s.cellAt a = some ca → ∀ b ∈ ca.GetReferencedCells,
    ∃ cb, s.cellAt b = some cb ∧ a ∈ cb.reverse_ref_

/-- Every member of the `reverse_ref_` of a stored cell is a stored formula cell that
references the owner. -/
def Sheet.ReverseBacked (s : Sheet) : Prop :=
  ∀ a ca, s.cellAt a = some ca → ∀ b ∈ ca.reverse_ref_,
    ∃ cb, s.cellAt b = some cb ∧ cb.impl_.isFormula = true ∧ a ∈ cb.GetReferencedCells

/-- The states reachable from the empty sheet by `SetCell` and `ClearCell` calls, whatever
their arguments and whether they return or throw. -/
inductive Reachable (parse : String → Option FormulaAST) : Sheet → Prop where
  | empty : Reachable parse Sheet.empty
  | setCell (s : Sheet) (pos : Position) (text : String) :
      Reachable parse s → Reachable parse (Sheet.SetCell parse s pos text).1
  | clearCell (s : Sheet) (pos : Position) :
      Reachable parse s → Reachable parse (Sheet.ClearCell parse s pos).1

/-- Two markers have the same gray positions. -/
def GrayEq (m m1 : Marker) : Prop := ∀ p, m1 p = some Color.GRAY ↔ m p = some Color.GRAY

/-- What a returning visit of `cur` guarantees with respect to the marker it started from. -/
def DfsClean (s : Sheet) (m : Marker) (cur : Position) : Prop :=
  (∀ x, Relation.ReflTransGen s.Edge cur x → m x ≠ some Color.GRAY ∧ x.IsValid = true) ∧
    ¬ Relation.TransGen s.Edge cur cur

/-- The number of stored entries whose position is not gray: the recursion budget the cycle
search needs below a marker. -/
def grayFree (s : Sheet) (m : Marker) : Nat :=
  (s.sheet_.filter (fun e => decide (m e.1 ≠ some Color.GRAY))).length

/-- Between two states of a walk of `InvalidateCache`, exactly the cells processed in between
had their cache reset; nothing else differs. -/
def ResetBetween (s : Sheet) (proc : List Position) (s1 : Sheet) (proc1 : List Position) : Prop :=
  ∀ q, s1.cellAt q =
    if q ∈ proc1 ∧ q ∉ proc then (s.cellAt q).map Cell.resetCache else s.cellAt q

/-- The number of stored entries not yet processed: the recursion budget `InvalidateCache`
needs. -/
def unprocessed (s : Sheet) (proc : List Position) : Nat :=
  (s.keys.filter (fun p => decide (p ∉ proc))).length

/-- What a walk of `InvalidateCache` from `self` has done when it returns: the cells processed
on the way are reset, they are closed under reverse references, and each of them is reachable
from `self` by reverse references. -/
def InvalidatePost (s : Sheet) (proc : List Position) (self : Position) (s1 : Sheet)
    (proc1 : List Position) : Prop :=
  ResetBetween s proc s1 proc1 ∧ proc ⊆ proc1 ∧ self ∈ proc1 ∧
  (∀ x ∈ proc1, x ∉ proc → ∀ y, s.RevEdge x y → y ∈ proc1) ∧
  (∀ x ∈ proc1, x ∈ proc ∨ Relation.ReflTransGen s.RevEdge self x) ∧
  (proc.Nodup → proc1.Nodup) ∧
  s1.keys = s.keys ∧ s1.counter_in_row_ = s.counter_in_row_ ∧
  s1.counter_in_col_ = s.counter_in_col_

/-- The invariant of the loop of `InvalidateCache` over the reverse references `L` of a cell,
relative to the state and the processed set at the start of the loop. -/
def InvalidateInv (s0 : Sheet) (p0 : List Position) (L : List Position) (s1 : Sheet)
    (p1 : List Position) : Prop :=
  ResetBetween s0 p0 s1 p1 ∧ p0 ⊆ p1 ∧
  (∀ x ∈ p1, x ∉ p0 → ∀ y, s0.RevEdge x y → y ∈ p1) ∧
  (∀ x ∈ p1, x ∈ p0 ∨ ∃ c ∈ L, Relation.ReflTransGen s0.RevEdge c x) ∧
  (p0.Nodup → p1.Nodup) ∧
  s1.keys = s0.keys ∧ s1.counter_in_row_ = s0.counter_in_row_ ∧
  s1.counter_in_col_ = s0.counter_in_col_

/-- The expression that `Cell::Set` hands to the parser: the text without its first
character, when the text begins with the formula sign and is longer than that sign. -/
def formulaBody (text : String) : Option String :=
  match text.data with
  | [] => none
  | c :: rest => if c = FORMULA_SIGN ∧ rest ≠ [] then some (String.mk rest) else none

/-- The ways `Cell::Set` chooses the new implementation when that choice does not throw. -/
def NewImpl (parse : String → Option FormulaAST) (s : Sheet) (self : Position) (text : String)
    (impl : Impl) : Prop :=
  (impl = .EmptyImpl ∧ text = "") ∨
  (impl = .TextImpl text ∧ text ≠ "" ∧ formulaBody text = none) ∨
  (∃ e f, formulaBody text = some e ∧ ParseFormula parse e = some f ∧
    impl = .FormulaImpl f none ∧
    Cell.FindCircularDependency (s.setImpl self impl) self = none)

/-- The text of the cell stored at `pos`; a position without a cell counts as the empty
text. -/
def Sheet.textAt (s : Sheet) (pos : Position) : String :=
  match s.cellAt pos with
  | some c => c.GetText
  | none => ""

/-- The cached value of the cell stored at `pos`; `none` when the cell holds no cache or no
cell is stored. -/
def Sheet.cacheAt (s : Sheet) (pos : Position) : Option Value :=
  match s.cellAt pos with
  | some c => c.impl_.cache
  | none => none

/-! ## A small formula module for the worked examples

Expressions are sums of cell names (`A1`, `B5`, `A1+A2`); a name is one capital letter and
one digit from 1 to 9. The canonical text of an expression is the expression itself. -/

/-- The position named by a letter and a digit. -/
def exampleCell (name : List Char) : Option Position :=
  match name with
  | [c, d] =>
    if 65 ≤ c.toNat ∧ c.toNat ≤ 90 ∧ 49 ≤ d.toNat ∧ d.toNat ≤ 57 then
      some ⟨d.toNat - 49, c.toNat - 65⟩
    else none
  | _ => none

/-- The summands of an expression: the pieces between plus signs. -/
def exampleSplit : List Char → List (List Char)
  | [] => [[]]
  | c :: rest =>
    if c.toNat = 43 then [] :: exampleSplit rest
    else
      match exampleSplit rest with
      | [] => [[c]]
      | piece :: pieces => (c :: piece) :: pieces

/-- The cells named by the summands, when every summand is a cell name. -/
def exampleCells : List (List Char) → Option (List Position)
  | [] => some []
  | name :: rest =>
    match exampleCell name, exampleCells rest with
    | some p, some ps => some (p :: ps)
    | _, _ => none

/-- The number a text stands for: the empty text is zero, a string of digits its value. -/
def exampleDigits : List Char → Int → Option Int
  | [], acc => some acc
  | c :: rest, acc =>
    if 48 ≤ c.toNat ∧ c.toNat ≤ 57 then exampleDigits rest (10 * acc + (c.toNat - 48 : Nat))
    else none

/-- The number a value read from the sheet stands for; an absent cell is zero. -/
def exampleNumeric : Option Value → Except FormulaError Int
  | none => .ok 0
  | some (.number d) => .ok d
  | some (.error e) => .error e
  | some (.text t) =>
    match exampleDigits t.data 0 with
    | some d => .ok d
    | none => .error ⟨1⟩

/-- The execution of a sum: read the cells in turn, stop at the first error. -/
def exampleExec : List Position → Int → Exec
  | [], acc => .ret (.number acc)
  | p :: rest, acc =>
    .ask p (fun v =>
      match exampleNumeric v with
      | .ok d => exampleExec rest (acc + d)
      | .error e => .ret (.error e))

/-- The parser of the example module. -/
def exampleParse (expression : String) : Option FormulaAST :=
  match exampleCells (exampleSplit expression.data) with
  | some cells => some ⟨cells, expression, exampleExec cells 0⟩
  | none => none

/-- The position `A1`. -/
def A1 : Position := ⟨0, 0⟩

/-- The position `A2`. -/
def A2 : Position := ⟨1, 0⟩

/-- The position `A3`. -/
def A3 : Position := ⟨2, 0⟩

/-- The position `B1`. -/
def B1 : Position := ⟨0, 1⟩

/-- The position `B5`. -/
def B5 : Position := ⟨4, 1⟩

/-- The position `C3`. -/
def C3 : Position := ⟨2, 2⟩

/-- The sheet after `set(A1, "=A2"); set(A2, "=A3")`. -/
def chainSheet : Sheet :=
  (Sheet.SetCell exampleParse (Sheet.SetCell exampleParse Sheet.empty A1 "=A2").1 A2 "=A3").1

/-- The sheet after `set(A1, "2"); set(B1, "=A1"); get_value(B1)`: the cache of `B1` is
filled. -/
def cachedSheet : Sheet :=
  (Sheet.GetValue
    (Sheet.SetCell exampleParse (Sheet.SetCell exampleParse Sheet.empty A1 "2").1 B1 "=A1").1
    B1).1

/-- Forward and reverse references mirror each other. -/
def Sheet.Sym (s : Sheet) : Prop := ∀ a b, s.Edge a b ↔ s.RevEdge b a

/-- The invariant of the dependency graph. -/
def Sheet.GraphInv (s : Sheet) : Prop := s.RefsValid ∧ s.Acyclic ∧ s.Sym

/-- The part of a list from the last occurrence of `top` on; empty when `top` does not
occur. -/
def fromLastOccurrence (top : Position) : List Position → List Position
  | [] => []
  | p :: rest =>
    match fromLastOccurrence top rest with
    | [] => if p = top then p :: rest else []
    | found => found

/-- Modelled from the spec: the cycle reported when a position already gray is entered is
"the suffix of the trace from the last occurrence of the current position to the top"; the
trace has the current position on top, so the occurrence meant is the last one below it. -/
def specCycle (trace : List Position) : List Position :=
  match trace.getLast? with
  | none => []
  | some top => fromLastOccurrence top trace.dropLast ++ [top]

/-- What `Cell::StackToString` prints, as a list: the trace from the first occurrence of its
top entry. -/
def codeCycle (trace : List Position) : List Position :=
  match trace.getLast? with
  | none => []
  | some top => trace.dropWhile (fun p => decide (p ≠ top))

/-- The number of stored cells in row `r`. -/
def Sheet.rowCount (s : Sheet) (r : Nat) : Nat :=
  (s.keys.filter (fun p => decide (p.row = r))).length

/-- The number of stored cells in column `c`. -/
def Sheet.colCount (s : Sheet) (c : Nat) : Nat :=
  (s.keys.filter (fun p => decide (p.col = c))).length

/-- A counter vector is tight for a count `n`: entry `i` (zero beyond the end) is `n i`, and
the vector does not end in a zero. -/
def TightCounter (v : List Int) (n : Nat → Nat) : Prop :=
  (∀ i, v.getD i 0 = (n i : Int)) ∧ ∀ x, v.getLast? = some x → x ≠ 0

/-- The size invariant: each position is stored once and both counter vectors are tight. -/
def Sheet.CountersTight (s : Sheet) : Prop :=
  s.keys.Nodup ∧ TightCounter s.counter_in_row_ s.rowCount ∧
    TightCounter s.counter_in_col_ s.colCount

/-- One more than the largest row among the stored cells; zero when nothing is stored. -/
def Sheet.rowBound (s : Sheet) : Nat := (s.keys.map (fun p => p.row + 1)).foldr max 0

/-- One more than the largest column among the stored cells; zero when nothing is stored. -/
def Sheet.colBound (s : Sheet) : Nat := (s.keys.map (fun p => p.col + 1)).foldr max 0

/-! ## The value semantics used to state cache coherence -/

/-- The execution asks the sheet only for positions of the list `R`. -/
def Exec.AsksOnly (R : List Position) : Exec → Prop
  | .ret _ => True
  | .ask p k => p ∈ R ∧ ∀ ov, (k ov).AsksOnly R

/-- What `FormulaImpl::GetValue` returns for a result of `Evaluate`: numbers and errors as
they are, anything else as the text `Not value`. -/
def formulaResult : Value → Value
  | .number d => .number d
  | .error e => .error e
  | .text _ => .text "Not value"

/-- The result of an execution when the sheet answers each question with `val`; `none` when
an answer is missing or a position is invalid. -/
def Exec.den (val : Position → Option (Option Value)) : Exec → Option Value
  | .ret v => some v
  | .ask p k =>
    if p.IsValid then
      match val p with
      | none => none
      | some ov => (k ov).den val
    else none

/-- The value a formula is answered when it asks for `pos`, computed from the implementations
alone, without looking at any cache: `some none` is the null pointer of a missing cell,
`none` means the depth `fuel` does not suffice. -/
def Sheet.den (s : Sheet) : Nat → Position → Option (Option Value)
  | 0, _ => none
  | fuel + 1, pos =>
    match s.cellAt pos with
    | none => some none
    | some c =>
      match c.impl_ with
      | .EmptyImpl => some (some (.number 0))
      | .TextImpl text_ => some (some (TextImpl_GetValue text_))
      | .FormulaImpl formula_ _ =>
        (formula_.ast_.exec.den (s.den fuel)).map (fun r => some (formulaResult r))

/-- Cache coherence: a cached value is what the formula evaluates to on the sheet, and it is
a value that `FormulaImpl::GetValue` stores. -/
def Sheet.Coherent (s : Sheet) : Prop :=
  ∀ p c f v, s.cellAt p = some c → c.impl_ = .FormulaImpl f (some v) →
    (∃ fuel, f.ast_.exec.den (s.den fuel) = some v) ∧ formulaResult v = v

/-- Every stored formula asks only for its referenced cells. -/
def Sheet.Asks (s : Sheet) : Prop :=
  ∀ p c f cache, s.cellAt p = some c → c.impl_ = .FormulaImpl f cache →
    f.ast_.exec.AsksOnly f.GetReferencedCells

/-- The sheet `s1` is `s` with some empty caches filled by coherent values. -/
def CacheExt (s s1 : Sheet) : Prop :=
  s1.keys = s.keys ∧ s1.counter_in_row_ = s.counter_in_row_ ∧
  s1.counter_in_col_ = s.counter_in_col_ ∧
  ∀ q, s1.cellAt q = s.cellAt q ∨
    ∃ c f v, s.cellAt q = some c ∧ c.impl_ = .FormulaImpl f none ∧
      s1.cellAt q = some { c with impl_ := .FormulaImpl f (some v) } ∧
      (∃ fuel, f.ast_.exec.den (s.den fuel) = some v) ∧ formulaResult v = v

/-- Two optional cells have the same implementation up to the cache. -/
def SameImpl (o1 o2 : Option Cell) : Prop :=
  o1.map (fun c => c.impl_.InvalidateCache) = o2.map (fun c => c.impl_.InvalidateCache)

/-- The states reachable from the empty sheet by `SetCell`, `ClearCell` and `GetValue` calls,
whatever their arguments, whether they return or throw, and whatever depth the evaluation
reaches. -/
inductive ReachableV (parse : String → Option FormulaAST) : Sheet → Prop where
  | empty : ReachableV parse Sheet.empty
  | setCell (s : Sheet) (pos : Position) (text : String) :
      ReachableV parse s → ReachableV parse (Sheet.SetCell parse s pos text).1
  | clearCell (s : Sheet) (pos : Position) :
      ReachableV parse s → ReachableV parse (Sheet.ClearCell parse s pos).1
  | getValue (s : Sheet) (pos : Position) (fuel : Nat) :
      ReachableV parse s → ReachableV parse (Cell.GetValue fuel s pos).1

/-- The property of an implementation that its formula, if any, asks only for its referenced
cells. -/
def Impl.AsksRefs (impl : Impl) : Prop :=
  ∀ f cache, impl = .FormulaImpl f cache → f.ast_.exec.AsksOnly f.GetReferencedCells

/-- The assumption on the formula module: evaluating a parsed formula asks the sheet only for
the cells the formula references. -/
def ModuleLocal (parse : String → Option FormulaAST) : Prop :=
  ∀ e ast, parse e = some ast → ast.exec.AsksOnly (Formula.mk ast).GetReferencedCells

/-- The sheet after `set(A1, "2"); set(A2, "3"); set(A3, "=A1+A2")`. -/
def sumSheet : Sheet :=
  (Sheet.SetCell exampleParse
    (Sheet.SetCell exampleParse (Sheet.SetCell exampleParse Sheet.empty A1 "2").1 A2 "3").1
    A3 "=A1+A2").1

/-- The sheet `sumSheet` after `get_value(A3); set(A1, "10"); get_value(A3)`. -/
def sumSheetAgain : Sheet :=
  (Sheet.GetValue (Sheet.SetCell exampleParse (Sheet.GetValue sumSheet A3).1 A1 "10").1 A3).1

/-! ## Printing -/

/-- The inner loop of `Sheet::PrintTexts` over the columns of one row, on the text written so
far: `GetCell` is called first, then the separator is written, then the text of the cell, if
there is one. -/
def Sheet.printTextsCols (s : Sheet) (row : Nat) : List Nat → String → String × Option Exception
  | [], output => (output, none)
  | col :: rest, output =>
    match s.GetCell ⟨row, col⟩ with
    | .error e => (output, some e)
    | .ok none =>
      Sheet.printTextsCols s row rest (output ++ (if col = 0 then "" else "\t") ++ "")
    | .ok (some cell) =>
      Sheet.printTextsCols s row rest (output ++ (if col = 0 then "" else "\t") ++ cell.GetText)

/-- The outer loop of `Sheet::PrintTexts` over the rows: each row ends with a newline. -/
def Sheet.printTextsRows (s : Sheet) (cols : Nat) : List Nat → String → String × Option Exception
  | [], output => (output, none)
  | row :: rest, output =>
    match s.printTextsCols row (List.range cols) output with
    | (output1, some e) => (output1, some e)
    | (output1, none) => Sheet.printTextsRows s cols rest (output1 ++ "\n")

/-- The function `Sheet::PrintTexts`: the text written to the stream and the exception thrown,
if any. -/
def Sheet.PrintTexts (s : Sheet) : String × Option Exception :=
  s.printTextsRows s.GetPrintableSize.2 (List.range s.GetPrintableSize.1) ""

/-- Modelled from the spec: the print format. For each row of the printable size in order,
the texts of the positions of the row joined by a single tab, followed by a newline; a
position without a cell contributes the empty text. -/
def Sheet.specTexts (s : Sheet) : String :=
  String.join ((List.range s.GetPrintableSize.1).map (fun r =>
    "\t".intercalate ((List.range s.GetPrintableSize.2).map (fun c => s.textAt ⟨r, c⟩))
      ++ "\n"))

/-! ## Reading values -/

/-- The sheet `s1` is `s` with some empty caches filled; nothing else differs. -/
def CacheFill (s s1 : Sheet) : Prop :=
  s1.keys = s.keys ∧ s1.counter_in_row_ = s.counter_in_row_ ∧
  s1.counter_in_col_ = s.counter_in_col_ ∧
  ∀ q, s1.cellAt q = s.cellAt q ∨
    ∃ c f v, s.cellAt q = some c ∧ c.impl_ = .FormulaImpl f none ∧
      s1.cellAt q = some { c with impl_ := .FormulaImpl f (some v) }

/-- The states that follow a state when only values are read: any number of `GetValue`
calls, on any positions and to any depth. -/
inductive Reads : Sheet → Sheet → Prop where
  | refl (s : Sheet) : Reads s s
  | getValue (s s1 : Sheet) (pos : Position) (fuel : Nat) :
      Reads s s1 → Reads s (Cell.GetValue fuel s1 pos).1

/-! ## A second formula module for the worked examples

An expression is one cell name, blanks allowed around it (`A1`, ` A1`); its canonical text is
the name without the blanks, and its value is the value of the named cell as it is, zero for
a missing cell. -/

/-- The parser of the second example module. -/
def echoParse (expression : String) : Option FormulaAST :=
  match exampleCell (expression.data.filter (fun c => decide (c ≠ Char.ofNat 32))) with
  | some p =>
    some ⟨[p], String.mk (expression.data.filter (fun c => decide (c ≠ Char.ofNat 32))),
      .ask p (fun v => .ret (v.getD (.number 0)))⟩
  | none => none

/-- The sheet after `set(B1, "= A1"); get_value(B1)` with the second module: the text of
`B1` is `=A1` and its cache is filled. -/
def echoSheet : Sheet :=
  (Sheet.GetValue (Sheet.SetCell echoParse Sheet.empty B1 "= A1").1 B1).1

/-- The sheet after `set(A1, "hello"); set(B1, "=A1")` with the first example module: the
formula of `B1` evaluates to an error, since `hello` is not a number. -/
def helloSheet : Sheet :=
  (Sheet.SetCell exampleParse (Sheet.SetCell exampleParse Sheet.empty A1 "hello").1 B1 "=A1").1

/-- The position `(16384, 0)`, the first one beyond the last row. -/
def beyondRows : Position := ⟨16384, 0⟩

/-! ## The result type of an evaluation -/

/-- The execution finishes with a number or a `FormulaError`, whatever the sheet answers:
these are the alternatives that `FormulaImpl::GetValue` takes out of the result of
`Formula::Evaluate`, and what `Formula::Evaluate` returns (the outcome of `Execute`, or the
`FormulaError` it caught). -/
def Exec.Typed : Exec → Prop
  | .ret v => ∀ t, v ≠ .text t
  | .ask _ k => ∀ ov, (k ov).Typed

/-- The assumption on the formula module that stands for the result type of
`Formula::Evaluate` (`FormulaInterface::Value`, declared in `formula.h`, which is not among
the sources): evaluating a parsed formula yields a number or a `FormulaError`. -/
def ModuleTyped (parse : String → Option FormulaAST) : Prop :=
  ∀ e ast, parse e = some ast → ast.exec.Typed


/-! ## The depth-first cycle search -/

theorem grayEq_refl (m : Marker) : GrayEq m m := fun _ => Iff.rfl

theorem grayEq_trans {a b c : Marker} (h1 : GrayEq a b) (h2 : GrayEq b c) : GrayEq a c :=
  fun p => (h2 p).trans (h1 p)

theorem marker_set_same (m : Marker) (p : Position) (c : Color) : (m.set p c) p = some c := by
  simp [Marker.set]

theorem marker_set_other (m : Marker) {p q : Position} (c : Color) (h : q ≠ p) :
    (m.set p c) q = m q := by
  simp [Marker.set, h]

theorem grayEq_set_black {m m2 : Marker} {cur : Position} (hcur : m cur ≠ some Color.GRAY)
    (h : GrayEq (m.set cur Color.GRAY) m2) : GrayEq m (m2.set cur Color.BLACK) := by
  intro p
  by_cases hp : p = cur
  · subst hp
    simp [marker_set_same, hcur]
  · rw [marker_set_other _ _ hp, h p, marker_set_other _ _ hp]

theorem Sheet.edge_of_cellAt {s : Sheet} {a b : Position} {cell : Cell}
    (h : s.cellAt a = some cell) : s.Edge a b ↔ b ∈ cell.GetReferencedCells := by
  simp [Sheet.Edge, Sheet.refsAt, h]

theorem Sheet.not_edge_of_cellAt_none {s : Sheet} {a b : Position}
    (h : s.cellAt a = none) : ¬ s.Edge a b := by
  simp [Sheet.Edge, Sheet.refsAt, h]

theorem dfsLoop_nil (visit : Marker → List Position → Position → DfsResult) (m : Marker)
    (t : List Position) : dfsLoop visit m t [] = .returned m t := rfl

theorem dfsLoop_cons_returned {visit : Marker → List Position → Position → DfsResult}
    {m m1 : Marker} {t t1 : List Position} {p : Position} (rest : List Position)
    (h : visit m t p = .returned m1 t1) :
    dfsLoop visit m t (p :: rest) = dfsLoop visit m1 t1 rest := by
  simp [dfsLoop, h]

theorem dfsLoop_cons_stop {visit : Marker → List Position → Position → DfsResult}
    {m : Marker} {t : List Position} {p : Position} (rest : List Position)
    (h : ∀ m1 t1, visit m t p ≠ .returned m1 t1) :
    dfsLoop visit m t (p :: rest) = visit m t p := by
  unfold dfsLoop
  split
  · rename_i m1 t1 heq
    exact absurd heq (h m1 t1)
  · rfl

/-- The loop either runs to its end, or stops at the first visit that does not return. -/
theorem dfsLoop_cases (visit : Marker → List Position → Position → DfsResult)
    (l : List Position) : ∀ (m : Marker) (t : List Position),
    (∃ m1 t1, dfsLoop visit m t l = .returned m1 t1) ∨
    (∃ l1 c l2 m1 t1, l = l1 ++ c :: l2 ∧ dfsLoop visit m t l1 = .returned m1 t1 ∧
      dfsLoop visit m t l = visit m1 t1 c ∧ ∀ m2 t2, visit m1 t1 c ≠ .returned m2 t2) := by
  induction l with
  | nil => intro m t; exact Or.inl ⟨m, t, rfl⟩
  | cons p rest ih =>
    intro m t
    by_cases hp : ∃ m1 t1, visit m t p = .returned m1 t1
    · obtain ⟨m1, t1, h1⟩ := hp
      rw [dfsLoop_cons_returned rest h1]
      rcases ih m1 t1 with h | ⟨l1, c, l2, m2, t2, hl, hpre, hres, hstop⟩
      · exact Or.inl h
      · refine Or.inr ⟨p :: l1, c, l2, m2, t2, by simp [hl], ?_, hres, hstop⟩
        rw [dfsLoop_cons_returned l1 h1]; exact hpre
    · have hstop : ∀ m1 t1, visit m t p ≠ .returned m1 t1 := fun m1 t1 h => hp ⟨m1, t1, h⟩
      exact Or.inr ⟨[], p, rest, m, t, rfl, rfl, dfsLoop_cons_stop rest hstop, hstop⟩

/-- A loop of returning visits keeps the trace and the gray set, and every visited child
satisfies what a returning visit guarantees. -/
theorem dfsLoop_returned {visit : Marker → List Position → Position → DfsResult}
    (Q : Marker → Position → Prop)
    (hQ : ∀ m m1 p, GrayEq m m1 → Q m1 p → Q m p)
    (hv : ∀ m t p m1 t1, visit m t p = .returned m1 t1 → t1 = t ∧ GrayEq m m1 ∧ Q m p)
    (l : List Position) : ∀ (m : Marker) (t : List Position) (m1 : Marker) (t1 : List Position),
    dfsLoop visit m t l = .returned m1 t1 → t1 = t ∧ GrayEq m m1 ∧ ∀ c ∈ l, Q m c := by
  induction l with
  | nil =>
    intro m t m1 t1 h
    simp only [dfsLoop, DfsResult.returned.injEq] at h
    obtain ⟨rfl, rfl⟩ := h
    exact ⟨rfl, grayEq_refl _, by simp⟩
  | cons p rest ih =>
    intro m t m1 t1 h
    by_cases hp : ∃ m2 t2, visit m t p = .returned m2 t2
    · obtain ⟨m2, t2, h2⟩ := hp
      rw [dfsLoop_cons_returned rest h2] at h
      obtain ⟨ht2, hg2, hq2⟩ := hv _ _ _ _ _ h2
      obtain ⟨ht1, hg1, hq1⟩ := ih _ _ _ _ h
      refine ⟨ht1.trans ht2, grayEq_trans hg2 hg1, ?_⟩
      intro c hc
      rcases List.mem_cons.1 hc with rfl | hc
      · exact hq2
      · exact hQ _ _ _ hg2 (hq1 c hc)
    · have hstop : ∀ m1 t1, visit m t p ≠ .returned m1 t1 := fun m1 t1 h => hp ⟨m1, t1, h⟩
      rw [dfsLoop_cons_stop rest hstop] at h
      exact absurd h (hstop _ _)


theorem dfsClean_of_grayEq {s : Sheet} (m m1 : Marker) (p : Position) (h : GrayEq m m1)
    (hq : DfsClean s m1 p) : DfsClean s m p :=
  ⟨fun x hx => ⟨fun hg => (hq.1 x hx).1 ((h x).2 hg), (hq.1 x hx).2⟩, hq.2⟩

theorem FindCircularDependencyRec_succ (s : Sheet) (fuel : Nat) (m : Marker)
    (t : List Position) (cur : Position) :
    Cell.FindCircularDependencyRec s (fuel + 1) m t cur =
      if m cur = some Color.GRAY then .cycle (t ++ [cur])
      else
        match s.GetCell cur with
        | .error _ => .invalid
        | .ok none =>
          .returned ((m.set cur Color.GRAY).set cur Color.BLACK) (t ++ [cur]).dropLast
        | .ok (some cell) =>
          match dfsLoop (Cell.FindCircularDependencyRec s fuel) (m.set cur Color.GRAY)
              (t ++ [cur]) cell.GetReferencedCells with
          | .returned marker2 trace2 =>
            .returned (marker2.set cur Color.BLACK) trace2.dropLast
          | r => r := rfl

/-- A visit that returns leaves the trace and the gray set as it found them; no gray position
was reachable from the visited position, and the position is not on a cycle. -/
theorem FindCircularDependencyRec_returned (s : Sheet) (fuel : Nat) :
    ∀ (m : Marker) (t : List Position) (cur : Position) (m1 : Marker) (t1 : List Position),
    Cell.FindCircularDependencyRec s fuel m t cur = .returned m1 t1 →
      t1 = t ∧ GrayEq m m1 ∧ DfsClean s m cur := by
  induction fuel with
  | zero => intro m t cur m1 t1 h; simp [Cell.FindCircularDependencyRec] at h
  | succ fuel ih =>
    intro m t cur m1 t1 h
    rw [FindCircularDependencyRec_succ] at h
    by_cases hg : m cur = some Color.GRAY
    · simp [hg] at h
    · rw [if_neg hg] at h
      unfold Sheet.GetCell at h
      by_cases hvalid : cur.IsValid = true
      · rw [if_pos hvalid] at h
        cases hcell : s.cellAt cur with
        | none =>
          rw [hcell] at h
          simp only [DfsResult.returned.injEq] at h
          obtain ⟨rfl, rfl⟩ := h
          refine ⟨by simp, grayEq_set_black hg (grayEq_refl _), ?_, ?_⟩
          · intro x hx
            rcases Relation.ReflTransGen.cases_head hx with rfl | ⟨c, hc, _⟩
            · exact ⟨hg, hvalid⟩
            · exact absurd hc (Sheet.not_edge_of_cellAt_none hcell)
          · intro hx
            obtain ⟨c, hc, _⟩ := Relation.TransGen.head'_iff.1 hx
            exact absurd hc (Sheet.not_edge_of_cellAt_none hcell)
        | some cell =>
          rw [hcell] at h
          simp only at h
          rcases dfsLoop_cases (Cell.FindCircularDependencyRec s fuel) cell.GetReferencedCells
              (m.set cur Color.GRAY) (t ++ [cur]) with
            ⟨m2, t2, hloop⟩ | ⟨l1, c, l2, m2, t2, _, _, hres, hstop⟩
          · rw [hloop] at h
            simp only [DfsResult.returned.injEq] at h
            obtain ⟨rfl, rfl⟩ := h
            obtain ⟨ht2, hg2, hq⟩ := dfsLoop_returned (DfsClean s)
              dfsClean_of_grayEq ih _ _ _ _ _ hloop
            subst ht2
            have hchild : ∀ c x, s.Edge cur c → Relation.ReflTransGen s.Edge c x →
                x ≠ cur ∧ m x ≠ some Color.GRAY ∧ x.IsValid = true := by
              intro c x hc hx
              obtain ⟨h1, h2⟩ := (hq c ((Sheet.edge_of_cellAt hcell).1 hc)).1 x hx
              have hne : x ≠ cur := by
                rintro rfl
                exact h1 (marker_set_same _ _ _)
              rw [marker_set_other _ _ hne] at h1
              exact ⟨hne, h1, h2⟩
            refine ⟨by simp, grayEq_set_black hg hg2, ?_, ?_⟩
            · intro x hx
              rcases Relation.ReflTransGen.cases_head hx with rfl | ⟨c, hc, hcx⟩
              · exact ⟨hg, hvalid⟩
              · exact (hchild c x hc hcx).2
            · intro hx
              obtain ⟨c, hc, hcx⟩ := Relation.TransGen.head'_iff.1 hx
              exact (hchild c cur hc hcx).1 rfl
          · rw [hres] at h
            cases hv : Cell.FindCircularDependencyRec s fuel m2 t2 c with
            | returned m3 t3 => exact absurd hv (hstop _ _)
            | cycle t3 => rw [hv] at h; simp at h
            | invalid => rw [hv] at h; simp at h
            | fuelOut => rw [hv] at h; simp at h
      · rw [if_neg hvalid] at h
        simp at h

/-- How a visit that does not return came to its result: at a gray position, at an invalid
position, or inside the visit of a referenced cell. -/
theorem FindCircularDependencyRec_stop (s : Sheet) (fuel : Nat) (m : Marker)
    (t : List Position) (cur : Position)
    (hr : ∀ m1 t1, Cell.FindCircularDependencyRec s (fuel + 1) m t cur ≠ .returned m1 t1) :
    (m cur = some Color.GRAY ∧
        Cell.FindCircularDependencyRec s (fuel + 1) m t cur = .cycle (t ++ [cur])) ∨
    (m cur ≠ some Color.GRAY ∧ cur.IsValid = false ∧
        Cell.FindCircularDependencyRec s (fuel + 1) m t cur = .invalid) ∨
    (m cur ≠ some Color.GRAY ∧ cur.IsValid = true ∧ ∃ c m2, s.Edge cur c ∧
        GrayEq (m.set cur Color.GRAY) m2 ∧
        Cell.FindCircularDependencyRec s (fuel + 1) m t cur =
          Cell.FindCircularDependencyRec s fuel m2 (t ++ [cur]) c ∧
        ∀ m3 t3, Cell.FindCircularDependencyRec s fuel m2 (t ++ [cur]) c ≠ .returned m3 t3) := by
  rw [FindCircularDependencyRec_succ] at hr ⊢
  by_cases hg : m cur = some Color.GRAY
  · exact Or.inl ⟨hg, by rw [if_pos hg]⟩
  · rw [if_neg hg] at hr ⊢
    unfold Sheet.GetCell at hr ⊢
    by_cases hvalid : cur.IsValid = true
    · rw [if_pos hvalid] at hr ⊢
      cases hcell : s.cellAt cur with
      | none => rw [hcell] at hr; exact absurd rfl (hr _ _)
      | some cell =>
        rw [hcell] at hr
        simp only at hr ⊢
        rcases dfsLoop_cases (Cell.FindCircularDependencyRec s fuel) cell.GetReferencedCells
            (m.set cur Color.GRAY) (t ++ [cur]) with
          ⟨m2, t2, hloop⟩ | ⟨l1, c, l2, m2, t2, hl, hpre, hres, hstop⟩
        · rw [hloop] at hr; exact absurd rfl (hr _ _)
        · obtain ⟨ht2, hg2, _⟩ := dfsLoop_returned (DfsClean s) dfsClean_of_grayEq
            (FindCircularDependencyRec_returned s fuel) _ _ _ _ _ hpre
          subst ht2
          refine Or.inr (Or.inr ⟨hg, hvalid, c, m2, ?_, hg2, ?_, hstop⟩)
          · exact (Sheet.edge_of_cellAt hcell).2 (by simp [hl])
          · rw [hres]
            cases hv : Cell.FindCircularDependencyRec s fuel m2 (t ++ [cur]) c with
            | returned m3 t3 => exact absurd hv (hstop _ _)
            | cycle t3 => rfl
            | invalid => rfl
            | fuelOut => rfl
    · rw [if_neg hvalid] at hr ⊢
      exact Or.inr (Or.inl ⟨hg, by simpa using hvalid, rfl⟩)

/-- A visit that meets an invalid position reached it along forward references. -/
theorem FindCircularDependencyRec_invalid (s : Sheet) (fuel : Nat) :
    ∀ (m : Marker) (t : List Position) (cur : Position),
    Cell.FindCircularDependencyRec s fuel m t cur = .invalid →
      ∃ x, Relation.ReflTransGen s.Edge cur x ∧ x.IsValid = false := by
  induction fuel with
  | zero => intro m t cur h; simp [Cell.FindCircularDependencyRec] at h
  | succ fuel ih =>
    intro m t cur h
    rcases FindCircularDependencyRec_stop s fuel m t cur (by rw [h]; simp) with
      ⟨_, h1⟩ | ⟨_, hv, _⟩ | ⟨_, _, c, m2, hc, _, h1, _⟩
    · rw [h] at h1; simp at h1
    · exact ⟨cur, Relation.ReflTransGen.refl, hv⟩
    · rw [h] at h1
      obtain ⟨x, hx, hxv⟩ := ih _ _ _ h1.symm
      exact ⟨x, Relation.ReflTransGen.head hc hx, hxv⟩

theorem grayFree_congr (s : Sheet) {m m1 : Marker} (h : GrayEq m m1) :
    grayFree s m1 = grayFree s m := by
  unfold grayFree
  congr 1
  apply List.filter_congr
  intro e _
  simp [h e.1]

theorem mapFind_some_mem {l : List (Position × Cell)} {p : Position} {c : Cell}
    (h : mapFind l p = some c) : (p, c) ∈ l := by
  induction l with
  | nil => simp [mapFind] at h
  | cons e rest ih =>
    unfold mapFind at h
    by_cases he : e.1 = p
    · rw [if_pos he] at h
      simp only [Option.some.injEq] at h
      subst he; subst h
      simp
    · rw [if_neg he] at h
      exact List.mem_cons_of_mem _ (ih h)

theorem filter_length_lt_of_mem {α : Type} (l : List α) (P Q : α → Bool)
    (hPQ : ∀ x, Q x = true → P x = true) (a : α) (ha : a ∈ l) (hP : P a = true)
    (hQ : Q a = false) : (l.filter Q).length < (l.filter P).length := by
  induction l with
  | nil => simp at ha
  | cons x rest ih =>
    have hle : (rest.filter Q).length ≤ (rest.filter P).length := by
      rw [← List.countP_eq_length_filter, ← List.countP_eq_length_filter]
      exact List.countP_mono_left (fun y _ => hPQ y)
    rcases List.mem_cons.1 ha with rfl | ha
    · simp only [List.filter_cons, hP, hQ, if_true, List.length_cons]
      simp
      omega
    · have := ih ha
      simp only [List.filter_cons]
      by_cases hq : Q x = true
      · simp [hq, hPQ x hq]; omega
      · simp only [hq]
        by_cases hp : P x = true
        · simp [hp]; omega
        · simp [hp]; omega

theorem grayFree_set_gray_lt (s : Sheet) (m : Marker) (cur : Position) (cell : Cell)
    (hcell : s.cellAt cur = some cell) (hg : m cur ≠ some Color.GRAY) :
    grayFree s (m.set cur Color.GRAY) < grayFree s m := by
  unfold grayFree
  apply filter_length_lt_of_mem _ _ _ _ (cur, cell) (mapFind_some_mem hcell)
  · simpa using hg
  · simp [marker_set_same]
  · intro e he
    simp only [decide_eq_true_eq] at he ⊢
    by_cases hp : e.1 = cur
    · rw [hp, marker_set_same] at he; exact absurd rfl he
    · rwa [marker_set_other _ _ hp] at he

/-- The recursion budget is not used up when it exceeds the number of stored cells that are
not gray. -/
theorem FindCircularDependencyRec_fuel (s : Sheet) (fuel : Nat) :
    ∀ (m : Marker) (t : List Position) (cur : Position),
    Cell.FindCircularDependencyRec s fuel m t cur = .fuelOut → fuel ≤ grayFree s m := by
  induction fuel with
  | zero => intro m t cur _; exact Nat.zero_le _
  | succ fuel ih =>
    intro m t cur h
    rcases FindCircularDependencyRec_stop s fuel m t cur (by rw [h]; simp) with
      ⟨_, h1⟩ | ⟨_, _, h1⟩ | ⟨hg, _, c, m2, hc, hg2, h1, _⟩
    · rw [h] at h1; simp at h1
    · rw [h] at h1; simp at h1
    · rw [h] at h1
      have h2 := ih _ _ _ h1.symm
      rw [grayFree_congr s hg2] at h2
      cases hcell : s.cellAt cur with
      | none => exact absurd hc (Sheet.not_edge_of_cellAt_none hcell)
      | some cell =>
        have := grayFree_set_gray_lt s m cur cell hcell hg
        omega

/-- A visit that throws leaves the trace extended by a path of forward references from the
visited position to a position that is gray or occurs earlier on the path; the positions
before the last are pairwise distinct and were not gray. -/
theorem FindCircularDependencyRec_cycle (s : Sheet) (fuel : Nat) :
    ∀ (m : Marker) (t : List Position) (cur : Position) (t1 : List Position),
    Cell.FindCircularDependencyRec s fuel m t cur = .cycle t1 →
      ∃ path : List Position, t1 = t ++ path ∧ path.head? = some cur ∧
        List.Chain' s.Edge path ∧
        (∃ x, path.getLast? = some x ∧ (m x = some Color.GRAY ∨ x ∈ path.dropLast)) ∧
        path.dropLast.Nodup ∧ ∀ y ∈ path.dropLast, m y ≠ some Color.GRAY := by
  induction fuel with
  | zero => intro m t cur t1 h; simp [Cell.FindCircularDependencyRec] at h
  | succ fuel ih =>
    intro m t cur t1 h
    rcases FindCircularDependencyRec_stop s fuel m t cur (by rw [h]; simp) with
      ⟨hg, h1⟩ | ⟨_, _, h1⟩ | ⟨hg, _, c, m2, hc, hg2, h1, _⟩
    · rw [h] at h1
      simp only [DfsResult.cycle.injEq] at h1
      exact ⟨[cur], h1, rfl, List.chain'_singleton _, ⟨cur, rfl, Or.inl hg⟩, by simp, by simp⟩
    · rw [h] at h1; simp at h1
    · rw [h] at h1
      obtain ⟨path, ht1, hhead, hchain, ⟨x, hlast, hx⟩, hnodup, hfree⟩ := ih _ _ _ _ h1.symm
      have hne : path ≠ [] := by
        intro hp; rw [hp] at hhead; simp at hhead
      have hcur2 : m2 cur = some Color.GRAY := (hg2 cur).2 (marker_set_same _ _ _)
      have hdrop : (cur :: path).dropLast = cur :: path.dropLast := by
        cases path with
        | nil => exact absurd rfl hne
        | cons a l => rfl
      refine ⟨cur :: path, ?_, rfl, ?_, ⟨x, ?_, ?_⟩, ?_, ?_⟩
      · rw [ht1]; simp
      · rw [List.chain'_cons']
        refine ⟨?_, hchain⟩
        intro y hy
        rw [hhead] at hy
        simp only [Option.mem_def, Option.some.injEq] at hy
        subst hy
        exact hc
      · cases path with
        | nil => exact absurd rfl hne
        | cons a l => rw [List.getLast?_cons_cons]; exact hlast
      · rw [hdrop]
        rcases hx with hx | hx
        · have hx2 := (hg2 x).1 hx
          by_cases hxc : x = cur
          · right; simp [hxc]
          · left; rwa [marker_set_other _ _ hxc] at hx2
        · right; exact List.mem_cons_of_mem _ hx
      · rw [hdrop]
        refine List.nodup_cons.2 ⟨?_, hnodup⟩
        intro hmem
        exact hfree cur hmem hcur2
      · rw [hdrop]
        intro y hy
        rcases List.mem_cons.1 hy with rfl | hy
        · exact hg
        · have h2 := hfree y hy
          have hyc : y ≠ cur := by rintro rfl; exact h2 hcur2
          intro hmy
          apply h2
          apply (hg2 y).2
          rwa [marker_set_other _ _ hyc]

theorem grayFree_le_length (s : Sheet) (m : Marker) : grayFree s m ≤ s.sheet_.length :=
  List.length_filter_le _ _

/-- The cycle search of `Cell::FindCircularDependency()` never uses up its budget. -/
theorem FindCircularDependency_ne_diverged (s : Sheet) (self : Position) :
    Cell.FindCircularDependency s self ≠ some .Diverged := by
  unfold Cell.FindCircularDependency
  cases h : Cell.FindCircularDependencyRec s (s.sheet_.length + 1) (fun _ => none) [] self with
  | returned m t => simp
  | cycle t => simp
  | invalid => simp
  | fuelOut =>
    have h1 := FindCircularDependencyRec_fuel s _ _ _ _ h
    have h2 := grayFree_le_length s (fun _ => none)
    omega

/-- When the cycle search returns, the cell is not on a cycle of forward references. -/
theorem FindCircularDependency_none {s : Sheet} {self : Position}
    (h : Cell.FindCircularDependency s self = none) :
    ¬ Relation.TransGen s.Edge self self ∧
      ∀ x, Relation.ReflTransGen s.Edge self x → x.IsValid = true := by
  unfold Cell.FindCircularDependency at h
  cases h1 : Cell.FindCircularDependencyRec s (s.sheet_.length + 1) (fun _ => none) [] self with
  | returned m t =>
    have h2 := (FindCircularDependencyRec_returned s _ _ _ _ _ _ h1).2.2
    exact ⟨h2.2, fun x hx => (h2.1 x hx).2⟩
  | cycle t => rw [h1] at h; simp at h
  | invalid => rw [h1] at h; simp at h
  | fuelOut => rw [h1] at h; simp at h

/-- When the cycle search throws `InvalidPositionException`, an invalid position is reachable
from the cell. -/
theorem FindCircularDependency_invalid {s : Sheet} {self : Position}
    (h : Cell.FindCircularDependency s self = some .InvalidPositionException) :
    ∃ x, Relation.ReflTransGen s.Edge self x ∧ x.IsValid = false := by
  unfold Cell.FindCircularDependency at h
  cases h1 : Cell.FindCircularDependencyRec s (s.sheet_.length + 1) (fun _ => none) [] self with
  | returned m t => rw [h1] at h; simp at h
  | cycle t => rw [h1] at h; simp at h
  | invalid => exact FindCircularDependencyRec_invalid s _ _ _ _ h1
  | fuelOut => rw [h1] at h; simp at h

/-- When the cycle search throws `CircularDependencyException`, the message renders a trace
that starts at the cell, follows forward references, and ends at a position that occurs
earlier in it; the positions before the last are pairwise distinct. -/
theorem FindCircularDependency_circular {s : Sheet} {self : Position} {what : String}
    (h : Cell.FindCircularDependency s self = some (.CircularDependencyException what)) :
    ∃ trace : List Position, what = "Find cycle: " ++ Cell.StackToString trace ∧
      trace.head? = some self ∧ List.Chain' s.Edge trace ∧
      (∃ x, trace.getLast? = some x ∧ x ∈ trace.dropLast) ∧ trace.dropLast.Nodup := by
  unfold Cell.FindCircularDependency at h
  cases h1 : Cell.FindCircularDependencyRec s (s.sheet_.length + 1) (fun _ => none) [] self with
  | returned m t => rw [h1] at h; simp at h
  | cycle t =>
    rw [h1] at h
    simp only [Option.some.injEq, Exception.CircularDependencyException.injEq] at h
    obtain ⟨path, ht, hhead, hchain, ⟨x, hlast, hx⟩, hnodup, _⟩ :=
      FindCircularDependencyRec_cycle s _ _ _ _ _ h1
    simp only [List.nil_append] at ht
    subst ht
    refine ⟨t, h.symm, hhead, hchain, ⟨x, hlast, ?_⟩, hnodup⟩
    rcases hx with hx | hx
    · simp at hx
    · exact hx
  | invalid => rw [h1] at h; simp at h
  | fuelOut => rw [h1] at h; simp at h


/-! ## The map and its mutations -/

theorem mapFind_map_modify (l : List (Position × Cell)) (pos q : Position) (f : Cell → Cell) :
    mapFind (l.map (fun e => if e.1 = pos then (e.1, f e.2) else e)) q =
      if q = pos then (mapFind l q).map f else mapFind l q := by
  induction l with
  | nil => simp [mapFind]
  | cons e rest ih =>
    simp only [List.map_cons, mapFind]
    by_cases he : e.1 = pos
    · by_cases hq : q = pos
      · simp [he, hq]
      · have : ¬ pos = q := fun h => hq h.symm
        simp [he, hq, this, ih]
    · by_cases heq : e.1 = q
      · have hq : ¬ q = pos := fun h => he (heq.trans h)
        simp [he, heq, hq]
      · simp [he, heq, ih]

theorem Sheet.cellAt_modifyCell (s : Sheet) (pos q : Position) (f : Cell → Cell) :
    (s.modifyCell pos f).cellAt q = if q = pos then (s.cellAt q).map f else s.cellAt q := by
  simp [Sheet.cellAt, Sheet.modifyCell, mapFind_map_modify]

theorem Sheet.cellAt_UpdateSizeSheet (s : Sheet) (pos q : Position) (delta : Int) :
    (s.UpdateSizeSheet pos delta).cellAt q = s.cellAt q := rfl

theorem Sheet.cellAt_materialize (s : Sheet) (pos q : Position) :
    (s.materialize pos).cellAt q =
      if q = pos then some ((s.cellAt pos).getD Cell.new) else s.cellAt q := by
  unfold Sheet.materialize
  cases h : s.cellAt pos with
  | none =>
    simp only [Sheet.cellAt_UpdateSizeSheet, Option.getD_none]
    simp only [Sheet.cellAt, mapFind]
    by_cases hq : q = pos
    · simp [hq]
    · have : ¬ pos = q := fun h => hq h.symm
      simp [hq, this]
  | some c =>
    by_cases hq : q = pos
    · simp [hq, h]
    · simp [hq]

theorem mapFind_filter_ne (l : List (Position × Cell)) (pos q : Position) :
    mapFind (l.filter (fun e => decide (e.1 ≠ pos))) q =
      if q = pos then none else mapFind l q := by
  induction l with
  | nil => simp [mapFind]
  | cons e rest ih =>
    by_cases he : e.1 = pos
    · have h1 : decide (e.1 ≠ pos) = false := by simp [he]
      rw [List.filter_cons_of_neg (by simp [he]), ih]
      by_cases hq : q = pos
      · rw [if_pos hq, if_pos hq]
      · have : ¬ e.1 = q := fun h => hq (h.symm.trans he)
        rw [if_neg hq, if_neg hq, mapFind, if_neg this]
    · rw [List.filter_cons_of_pos (by simp [he]), mapFind, mapFind, ih]
      by_cases heq : e.1 = q
      · have hq : ¬ q = pos := fun h => he (heq.trans h)
        rw [if_pos heq, if_pos heq, if_neg hq]
      · rw [if_neg heq, if_neg heq]

theorem Sheet.cellAt_erase (s : Sheet) (pos q : Position) :
    (s.erase pos).cellAt q = if q = pos then none else s.cellAt q :=
  mapFind_filter_ne s.sheet_ pos q

theorem Sheet.cellAt_setImpl (s : Sheet) (pos q : Position) (impl : Impl) :
    (s.setImpl pos impl).cellAt q =
      if q = pos then (s.cellAt q).map (fun c => { c with impl_ := impl }) else s.cellAt q :=
  Sheet.cellAt_modifyCell s pos q _


/-! ## Reverse references -/

theorem Sheet.keys_modifyCell (s : Sheet) (pos : Position) (f : Cell → Cell) :
    (s.modifyCell pos f).keys = s.keys := by
  unfold Sheet.keys Sheet.modifyCell
  simp only [List.map_map]
  apply List.map_congr_left
  intro e _
  simp only [Function.comp]
  split <;> rfl

theorem Cell.eraseReverse_idem (self : Position) (c : Cell) :
    Cell.eraseReverse self (Cell.eraseReverse self c) = Cell.eraseReverse self c := by
  simp [Cell.eraseReverse, List.filter_filter]

theorem Cell.insertReverse_idem (self : Position) (c : Cell) :
    Cell.insertReverse self (Cell.insertReverse self c) = Cell.insertReverse self c := by
  simp [Cell.insertReverse]

theorem Cell.resetCache_idem (c : Cell) : Cell.resetCache (Cell.resetCache c) = Cell.resetCache c := by
  cases c with
  | mk impl rev => cases impl <;> rfl

theorem RemoveReverseRef_cons (self : Position) (s : Sheet) (pos : Position)
    (rest : List Position) :
    Cell.RemoveReverseRef self s (pos :: rest) =
      if pos.IsValid then
        Cell.RemoveReverseRef self (s.modifyCell pos (Cell.eraseReverse self)) rest
      else (s, some .InvalidPositionException) := by
  by_cases hv : pos.IsValid = true
  · simp [Cell.RemoveReverseRef, Sheet.GetCell, hv]
  · simp [Cell.RemoveReverseRef, Sheet.GetCell, hv]

/-- The function `RemoveReverseRef` returns normally exactly when all positions are valid. -/
theorem RemoveReverseRef_ok_iff (self : Position) (l : List Position) : ∀ s : Sheet,
    (Cell.RemoveReverseRef self s l).2 = none ↔ ∀ p ∈ l, p.IsValid = true := by
  induction l with
  | nil => intro s; simp [Cell.RemoveReverseRef]
  | cons pos rest ih =>
    intro s
    rw [RemoveReverseRef_cons]
    by_cases hv : pos.IsValid = true
    · rw [if_pos hv, ih]; simp [hv]
    · rw [if_neg hv]; simp [hv]

/-- After a normal return of `RemoveReverseRef`, the listed cells lost `self` from their
reverse references and nothing else changed. -/
theorem RemoveReverseRef_cellAt (self : Position) (l : List Position) : ∀ s : Sheet,
    (Cell.RemoveReverseRef self s l).2 = none → ∀ q,
      (Cell.RemoveReverseRef self s l).1.cellAt q =
        if q ∈ l then (s.cellAt q).map (Cell.eraseReverse self) else s.cellAt q := by
  induction l with
  | nil => intro s _ q; simp [Cell.RemoveReverseRef]
  | cons pos rest ih =>
    intro s h q
    rw [RemoveReverseRef_cons] at h ⊢
    by_cases hv : pos.IsValid = true
    · rw [if_pos hv] at h ⊢
      rw [ih _ h q, Sheet.cellAt_modifyCell]
      by_cases hq : q = pos
      · subst hq
        by_cases hr : q ∈ rest
        · cases hc : s.cellAt q <;> simp [hr, Cell.eraseReverse_idem]
        · simp [hr]
      · simp [hq]
    · rw [if_neg hv] at h; simp at h

theorem RemoveReverseRef_frame (self : Position) (l : List Position) : ∀ s : Sheet,
    (Cell.RemoveReverseRef self s l).1.keys = s.keys ∧
    (Cell.RemoveReverseRef self s l).1.counter_in_row_ = s.counter_in_row_ ∧
    (Cell.RemoveReverseRef self s l).1.counter_in_col_ = s.counter_in_col_ := by
  induction l with
  | nil => intro s; simp [Cell.RemoveReverseRef]
  | cons pos rest ih =>
    intro s
    rw [RemoveReverseRef_cons]
    by_cases hv : pos.IsValid = true
    · rw [if_pos hv]
      obtain ⟨h1, h2, h3⟩ := ih (s.modifyCell pos (Cell.eraseReverse self))
      exact ⟨h1.trans (Sheet.keys_modifyCell _ _ _), h2, h3⟩
    · rw [if_neg hv]; simp

theorem AddReverseRefLoop_cons (self : Position) (s : Sheet) (pos : Position)
    (rest : List Position) :
    Cell.AddReverseRefLoop self s (pos :: rest) =
      if pos.IsValid then
        Cell.AddReverseRefLoop self
          ((s.materialize pos).modifyCell pos (Cell.insertReverse self)) rest
      else (s, some .InvalidPositionException) := by
  by_cases hv : pos.IsValid = true
  · simp [Cell.AddReverseRefLoop, Sheet.GetCell, hv]
  · simp [Cell.AddReverseRefLoop, Sheet.GetCell, hv]

/-- The loop of `AddReverseRef` returns normally exactly when all positions are valid. -/
theorem AddReverseRefLoop_ok_iff (self : Position) (l : List Position) : ∀ s : Sheet,
    (Cell.AddReverseRefLoop self s l).2 = none ↔ ∀ p ∈ l, p.IsValid = true := by
  induction l with
  | nil => intro s; simp [Cell.AddReverseRefLoop]
  | cons pos rest ih =>
    intro s
    rw [AddReverseRefLoop_cons]
    by_cases hv : pos.IsValid = true
    · rw [if_pos hv, ih]; simp [hv]
    · rw [if_neg hv]; simp [hv]

/-- After a normal return of the loop of `AddReverseRef`, each listed position holds a cell
(a fresh one where there was none) with `self` among its reverse references, and nothing
else changed. -/
theorem AddReverseRefLoop_cellAt (self : Position) (l : List Position) : ∀ s : Sheet,
    (Cell.AddReverseRefLoop self s l).2 = none → ∀ q,
      (Cell.AddReverseRefLoop self s l).1.cellAt q =
        if q ∈ l then some (Cell.insertReverse self ((s.cellAt q).getD Cell.new))
        else s.cellAt q := by
  induction l with
  | nil => intro s _ q; simp [Cell.AddReverseRefLoop]
  | cons pos rest ih =>
    intro s h q
    rw [AddReverseRefLoop_cons] at h ⊢
    by_cases hv : pos.IsValid = true
    · rw [if_pos hv] at h ⊢
      rw [ih _ h q, Sheet.cellAt_modifyCell, Sheet.cellAt_materialize]
      by_cases hq : q = pos
      · subst hq
        by_cases hr : q ∈ rest
        · simp [hr, Cell.insertReverse_idem]
        · simp [hr]
      · simp [hq]
    · rw [if_neg hv] at h; simp at h


/-! ## Transitive cache invalidation -/

theorem resetBetween_refl (s : Sheet) (proc : List Position) : ResetBetween s proc s proc := by
  intro q
  by_cases h : q ∈ proc <;> simp [h]

theorem resetBetween_trans {s s1 s2 : Sheet} {p p1 p2 : List Position}
    (h1 : ResetBetween s p s1 p1) (h2 : ResetBetween s1 p1 s2 p2) (hsub1 : p ⊆ p1)
    (hsub2 : p1 ⊆ p2) : ResetBetween s p s2 p2 := by
  intro q
  rw [h2 q, h1 q]
  by_cases hq2 : q ∈ p2
  · by_cases hq1 : q ∈ p1
    · by_cases hq : q ∈ p <;> simp [hq2, hq1, hq]
    · have hq : q ∉ p := fun h => hq1 (hsub1 h)
      simp [hq2, hq1, hq]
  · have hq1 : q ∉ p1 := fun h => hq2 (hsub2 h)
    simp [hq2, hq1]

theorem resetBetween_reverseAt {s s1 : Sheet} {p p1 : List Position}
    (h : ResetBetween s p s1 p1) (q : Position) : s1.reverseAt q = s.reverseAt q := by
  unfold Sheet.reverseAt
  rw [h q]
  split_ifs
  · cases s.cellAt q <;> rfl
  · rfl

theorem Impl.GetReferencedCells_InvalidateCache (i : Impl) :
    i.InvalidateCache.GetReferencedCells = i.GetReferencedCells := by
  cases i <;> rfl

theorem Impl.GetText_InvalidateCache (i : Impl) : i.InvalidateCache.GetText = i.GetText := by
  cases i <;> rfl

theorem Impl.isFormula_InvalidateCache (i : Impl) : i.InvalidateCache.isFormula = i.isFormula := by
  cases i <;> rfl

theorem resetBetween_refsAt {s s1 : Sheet} {p p1 : List Position}
    (h : ResetBetween s p s1 p1) (q : Position) : s1.refsAt q = s.refsAt q := by
  unfold Sheet.refsAt
  rw [h q]
  split_ifs
  · cases s.cellAt q with
    | none => rfl
    | some c => exact Impl.GetReferencedCells_InvalidateCache c.impl_
  · rfl

theorem Sheet.revEdge_congr {s s1 : Sheet} (h : ∀ q, s1.reverseAt q = s.reverseAt q) :
    s1.RevEdge = s.RevEdge := by
  funext a b
  simp [Sheet.RevEdge, h a]

theorem Sheet.edge_congr {s s1 : Sheet} (h : ∀ q, s1.refsAt q = s.refsAt q) :
    s1.Edge = s.Edge := by
  funext a b
  simp [Sheet.Edge, h a]

/-- The loop of `InvalidateCache` keeps an invariant that every visit keeps, lets the
processed set grow, and ends with every listed cell processed. -/
theorem invalidateLoop_spec
    (visit : Sheet → List Position → Position → Option (Sheet × List Position))
    (I : Sheet → List Position → Prop) (L : List Position)
    (hstep : ∀ s p c s1 p1, I s p → c ∈ L → c ∉ p → visit s p c = some (s1, p1) →
      I s1 p1 ∧ p ⊆ p1 ∧ c ∈ p1)
    (l : List Position) : ∀ (s : Sheet) (p : List Position) (s1 : Sheet) (p1 : List Position),
    l ⊆ L → I s p → invalidateLoop visit s p l = some (s1, p1) →
      I s1 p1 ∧ p ⊆ p1 ∧ ∀ c ∈ l, c ∈ p1 := by
  induction l with
  | nil =>
    intro s p s1 p1 _ hI h
    simp only [invalidateLoop, Option.some.injEq, Prod.mk.injEq] at h
    obtain ⟨rfl, rfl⟩ := h
    exact ⟨hI, List.Subset.refl _, by simp⟩
  | cons c rest ih =>
    intro s p s1 p1 hL hI h
    have hcL : c ∈ L := hL (List.mem_cons_self _ _)
    have hrest : rest ⊆ L := fun x hx => hL (List.mem_cons_of_mem _ hx)
    unfold invalidateLoop at h
    by_cases hc : c ∈ p
    · rw [if_pos hc] at h
      obtain ⟨h1, h2, h3⟩ := ih s p s1 p1 hrest hI h
      refine ⟨h1, h2, ?_⟩
      intro x hx
      rcases List.mem_cons.1 hx with rfl | hx
      · exact h2 hc
      · exact h3 x hx
    · rw [if_neg hc] at h
      cases hv : visit s p c with
      | none => rw [hv] at h; simp at h
      | some r =>
        obtain ⟨s2, p2⟩ := r
        rw [hv] at h
        simp only at h
        obtain ⟨hI2, hsub2, hc2⟩ := hstep s p c s2 p2 hI hcL hc hv
        obtain ⟨h1, h2, h3⟩ := ih s2 p2 s1 p1 hrest hI2 h
        refine ⟨h1, hsub2.trans h2, ?_⟩
        intro x hx
        rcases List.mem_cons.1 hx with rfl | hx
        · exact h2 hc2
        · exact h3 x hx

theorem InvalidateCacheRec_succ (fuel : Nat) (s : Sheet) (proc : List Position)
    (self : Position) :
    Cell.InvalidateCacheRec (fuel + 1) s proc self =
      invalidateLoop (Cell.InvalidateCacheRec fuel) (s.modifyCell self Cell.resetCache)
        (self :: proc) (s.reverseAt self) := rfl

theorem invalidateInv_step {s0 si s1 : Sheet} {p0 pi p1 L : List Position} {c : Position}
    (hI : InvalidateInv s0 p0 L si pi) (hcL : c ∈ L)
    (hpost : InvalidatePost si pi c s1 p1) :
    InvalidateInv s0 p0 L s1 p1 ∧ pi ⊆ p1 ∧ c ∈ p1 := by
  obtain ⟨hr, hsub, hclos, hreach, hnd, hk, hrow, hcol⟩ := hI
  obtain ⟨hr1, hsub1, hc1, hclos1, hreach1, hnd1, hk1, hrow1, hcol1⟩ := hpost
  have hrev : si.RevEdge = s0.RevEdge := Sheet.revEdge_congr (fun q => resetBetween_reverseAt hr q)
  rw [hrev] at hclos1 hreach1
  refine ⟨⟨resetBetween_trans hr hr1 hsub hsub1, hsub.trans hsub1, ?_, ?_, fun h => hnd1 (hnd h),
    hk1.trans hk, hrow1.trans hrow, hcol1.trans hcol⟩, hsub1, hc1⟩
  · intro x hx hx0 y hxy
    by_cases hxi : x ∈ pi
    · exact hsub1 (hclos x hxi hx0 y hxy)
    · exact hclos1 x hx hxi y hxy
  · intro x hx
    rcases hreach1 x hx with hxi | hxr
    · exact hreach x hxi
    · exact Or.inr ⟨c, hcL, hxr⟩

/-- The specification of the recursive `InvalidateCache`. -/
theorem InvalidateCacheRec_spec (fuel : Nat) :
    ∀ (s : Sheet) (proc : List Position) (self : Position) (s1 : Sheet) (proc1 : List Position),
    self ∉ proc → Cell.InvalidateCacheRec fuel s proc self = some (s1, proc1) →
      InvalidatePost s proc self s1 proc1 := by
  induction fuel with
  | zero => intro s proc self s1 proc1 _ h; simp [Cell.InvalidateCacheRec] at h
  | succ fuel ih =>
    intro s proc self s1 proc1 hself h
    rw [InvalidateCacheRec_succ] at h
    have hbase : ResetBetween s proc (s.modifyCell self Cell.resetCache) (self :: proc) := by
      intro q
      rw [Sheet.cellAt_modifyCell]
      by_cases hq : q = self
      · subst hq; simp [hself]
      · by_cases hqp : q ∈ proc <;> simp [hq, hqp]
    have hrev0 : (s.modifyCell self Cell.resetCache).RevEdge = s.RevEdge :=
      Sheet.revEdge_congr (fun q => resetBetween_reverseAt hbase q)
    have hI0 : InvalidateInv (s.modifyCell self Cell.resetCache) (self :: proc)
        (s.reverseAt self) (s.modifyCell self Cell.resetCache) (self :: proc) :=
      ⟨resetBetween_refl _ _, List.Subset.refl _, fun x hx hx0 => absurd hx hx0,
        fun x hx => Or.inl hx, fun h => h, rfl, rfl, rfl⟩
    obtain ⟨⟨hr, hsub, hclos, hreach, hnd, hk, hrow, hcol⟩, _, hall⟩ :=
      invalidateLoop_spec (Cell.InvalidateCacheRec fuel)
        (InvalidateInv (s.modifyCell self Cell.resetCache) (self :: proc) (s.reverseAt self))
        (s.reverseAt self)
        (fun si pi c s2 p2 hI hcL hc hv => invalidateInv_step hI hcL (ih si pi c s2 p2 hc hv))
        (s.reverseAt self) _ _ _ _ (List.Subset.refl _) hI0 h
    rw [hrev0] at hclos hreach
    have hsubp : proc ⊆ self :: proc := List.subset_cons_self _ _
    refine ⟨resetBetween_trans hbase hr hsubp hsub, hsubp.trans hsub, hsub (List.mem_cons_self _ _), ?_, ?_,
      ?_, hk.trans (Sheet.keys_modifyCell _ _ _), hrow, hcol⟩
    · intro x hx hxp y hxy
      by_cases hxs : x = self
      · subst hxs; exact hall y hxy
      · exact hclos x hx (by simp [hxs, hxp]) y hxy
    · intro x hx
      rcases hreach x hx with hx0 | ⟨c, hc, hcx⟩
      · rcases List.mem_cons.1 hx0 with rfl | hx0
        · exact Or.inr Relation.ReflTransGen.refl
        · exact Or.inl hx0
      · exact Or.inr (Relation.ReflTransGen.head hc hcx)
    · intro hndp
      exact hnd (List.nodup_cons.2 ⟨hself, hndp⟩)

/-- The loop of `InvalidateCache` can only run out of budget inside a visit. -/
theorem invalidateLoop_none
    (visit : Sheet → List Position → Position → Option (Sheet × List Position))
    (I : Sheet → List Position → Prop) (L : List Position)
    (hstep : ∀ s p c s1 p1, I s p → c ∈ L → c ∉ p → visit s p c = some (s1, p1) →
      I s1 p1 ∧ p ⊆ p1 ∧ c ∈ p1)
    (l : List Position) : ∀ (s : Sheet) (p : List Position),
    l ⊆ L → I s p → invalidateLoop visit s p l = none →
      ∃ si pi c, I si pi ∧ c ∈ L ∧ c ∉ pi ∧ visit si pi c = none := by
  induction l with
  | nil => intro s p _ _ h; simp [invalidateLoop] at h
  | cons c rest ih =>
    intro s p hL hI h
    have hcL : c ∈ L := hL (List.mem_cons_self _ _)
    have hrest : rest ⊆ L := fun x hx => hL (List.mem_cons_of_mem _ hx)
    unfold invalidateLoop at h
    by_cases hc : c ∈ p
    · rw [if_pos hc] at h
      exact ih s p hrest hI h
    · rw [if_neg hc] at h
      cases hv : visit s p c with
      | none => exact ⟨s, p, c, hI, hcL, hc, hv⟩
      | some r =>
        obtain ⟨s2, p2⟩ := r
        rw [hv] at h
        simp only at h
        exact ih s2 p2 hrest (hstep s p c s2 p2 hI hcL hc hv).1 h

theorem unprocessed_anti {s s1 : Sheet} {p p1 : List Position} (hk : s1.keys = s.keys)
    (hsub : p ⊆ p1) : unprocessed s1 p1 ≤ unprocessed s p := by
  unfold unprocessed
  rw [hk, ← List.countP_eq_length_filter, ← List.countP_eq_length_filter]
  apply List.countP_mono_left
  intro x _ hx
  simp only [decide_eq_true_eq] at hx ⊢
  exact fun h => hx (hsub h)

theorem Sheet.mem_keys_of_cellAt {s : Sheet} {p : Position} {c : Cell}
    (h : s.cellAt p = some c) : p ∈ s.keys := by
  unfold Sheet.keys
  exact List.mem_map.2 ⟨(p, c), mapFind_some_mem h, rfl⟩

theorem unprocessed_cons_lt {s : Sheet} {proc : List Position} {self : Position}
    (hmem : self ∈ s.keys) (hself : self ∉ proc) :
    unprocessed s (self :: proc) < unprocessed s proc := by
  unfold unprocessed
  apply filter_length_lt_of_mem _ _ _ _ self hmem
  · simpa using hself
  · simp
  · intro x hx
    simp only [decide_eq_true_eq, List.mem_cons, not_or] at hx ⊢
    exact hx.2

/-- The recursive `InvalidateCache` does not use up a budget that exceeds the number of
unprocessed stored cells. -/
theorem InvalidateCacheRec_fuel (fuel : Nat) :
    ∀ (s : Sheet) (proc : List Position) (self : Position),
    self ∉ proc → Cell.InvalidateCacheRec fuel s proc self = none → fuel ≤ unprocessed s proc := by
  induction fuel with
  | zero => intro s proc self _ _; exact Nat.zero_le _
  | succ fuel ih =>
    intro s proc self hself h
    rw [InvalidateCacheRec_succ] at h
    have hI0 : InvalidateInv (s.modifyCell self Cell.resetCache) (self :: proc)
        (s.reverseAt self) (s.modifyCell self Cell.resetCache) (self :: proc) :=
      ⟨resetBetween_refl _ _, List.Subset.refl _, fun x hx hx0 => absurd hx hx0,
        fun x hx => Or.inl hx, fun h => h, rfl, rfl, rfl⟩
    obtain ⟨si, pi, c, hI, hcL, hc, hv⟩ :=
      invalidateLoop_none (Cell.InvalidateCacheRec fuel)
        (InvalidateInv (s.modifyCell self Cell.resetCache) (self :: proc) (s.reverseAt self))
        (s.reverseAt self)
        (fun si pi c s2 p2 hI hcL hc hv =>
          invalidateInv_step hI hcL (InvalidateCacheRec_spec fuel si pi c s2 p2 hc hv))
        (s.reverseAt self) _ _ (List.Subset.refl _) hI0 h
    have h1 := ih si pi c hc hv
    obtain ⟨_, hsub, _, _, _, hk, _, _⟩ := hI
    have h2 : unprocessed si pi ≤ unprocessed s (self :: proc) :=
      unprocessed_anti (hk.trans (Sheet.keys_modifyCell _ _ _)) hsub
    have hmem : self ∈ s.keys := by
      cases hcell : s.cellAt self with
      | none => simp [Sheet.reverseAt, hcell] at hcL
      | some cell => exact Sheet.mem_keys_of_cellAt hcell
    have h3 := unprocessed_cons_lt hmem hself
    omega

theorem unprocessed_le_length (s : Sheet) (proc : List Position) :
    unprocessed s proc ≤ s.sheet_.length := by
  unfold unprocessed
  calc (s.keys.filter _).length ≤ s.keys.length := List.length_filter_le _ _
    _ = s.sheet_.length := by simp [Sheet.keys]

/-- The function `Cell::InvalidateCache()` always returns, and what it leaves is described
by `InvalidatePost` for the empty processed set. -/
theorem InvalidateCache_spec (s : Sheet) (self : Position) :
    (Cell.InvalidateCache s self).2 = none ∧
      ∃ proc, InvalidatePost s [] self (Cell.InvalidateCache s self).1 proc := by
  unfold Cell.InvalidateCache
  cases h : Cell.InvalidateCacheRec (s.sheet_.length + 1) s [] self with
  | none =>
    have h1 := InvalidateCacheRec_fuel _ s [] self (by simp) h
    have h2 := unprocessed_le_length s []
    omega
  | some r =>
    obtain ⟨s1, proc⟩ := r
    exact ⟨rfl, proc, InvalidateCacheRec_spec _ s [] self s1 proc (by simp) h⟩


/-! ## The stages of `Cell::Set` -/

theorem String.data_eq_nil_iff (t : String) : t.data = [] ↔ t = "" := by
  constructor
  · intro h
    cases t with
    | mk d => simp only at h; subst h; rfl
  · rintro rfl; rfl

theorem formulaBody_eq_some {text e : String} (h : formulaBody text = some e) :
    text = "=" ++ e ∧ e ≠ "" := by
  unfold formulaBody at h
  cases text with
  | mk d =>
    cases d with
    | nil => simp at h
    | cons c rest =>
      simp only at h
      by_cases hc : c = FORMULA_SIGN ∧ rest ≠ []
      · rw [if_pos hc] at h
        simp only [Option.some.injEq] at h
        subst h
        refine ⟨?_, ?_⟩
        · rw [hc.1]; rfl
        · intro h0
          apply hc.2
          exact congrArg String.data h0
      · rw [if_neg hc] at h; simp at h

theorem formulaBody_formula (e : String) (he : e ≠ "") : formulaBody ("=" ++ e) = some e := by
  cases e with
  | mk d =>
    have hd : d ≠ [] := by
      rintro rfl; exact he rfl
    show (if FORMULA_SIGN = FORMULA_SIGN ∧ d ≠ [] then some (String.mk d) else none) = _
    rw [if_pos ⟨rfl, hd⟩]

theorem SetFormulaImpl_cases (parse : String → Option FormulaAST) (s : Sheet) (self : Position)
    (e : String) :
    (ParseFormula parse e = none ∧
        Cell.SetFormulaImpl parse s self e = (s, some .FormulaException)) ∨
    (∃ f, ParseFormula parse e = some f ∧
        Cell.FindCircularDependency (s.setImpl self (.FormulaImpl f none)) self = none ∧
        Cell.SetFormulaImpl parse s self e = (s.setImpl self (.FormulaImpl f none), none)) ∨
    (∃ f ex, ParseFormula parse e = some f ∧
        Cell.FindCircularDependency (s.setImpl self (.FormulaImpl f none)) self = some ex ∧
        Cell.SetFormulaImpl parse s self e = (s, some ex)) := by
  unfold Cell.SetFormulaImpl
  cases hp : ParseFormula parse e with
  | none => exact Or.inl ⟨rfl, rfl⟩
  | some f =>
    cases hd : Cell.FindCircularDependency (s.setImpl self (.FormulaImpl f none)) self with
    | none => exact Or.inr (Or.inl ⟨f, rfl, hd, by simp [hd]⟩)
    | some ex => exact Or.inr (Or.inr ⟨f, ex, rfl, hd, by simp [hd]⟩)

theorem SetImpl_eq (parse : String → Option FormulaAST) (s : Sheet) (self : Position)
    (text : String) :
    Cell.SetImpl parse s self text =
      if text = "" then (s.setImpl self .EmptyImpl, none)
      else
        match formulaBody text with
        | some e => Cell.SetFormulaImpl parse s self e
        | none => (s.setImpl self (.TextImpl text), none) := by
  unfold Cell.SetImpl formulaBody
  cases hd : text.data with
  | nil => rw [if_pos ((String.data_eq_nil_iff text).1 hd)]
  | cons c rest =>
    have hne : text ≠ "" := by
      intro h; rw [(String.data_eq_nil_iff text).2 h] at hd; simp at hd
    rw [if_neg hne]
    simp only
    by_cases hc : c = FORMULA_SIGN ∧ rest ≠ []
    · rw [if_pos hc, if_pos hc]
    · rw [if_neg hc, if_neg hc]

theorem SetImpl_ok {parse : String → Option FormulaAST} {s s1 : Sheet} {self : Position}
    {text : String} (h : Cell.SetImpl parse s self text = (s1, none)) :
    ∃ impl, s1 = s.setImpl self impl ∧ NewImpl parse s self text impl := by
  rw [SetImpl_eq] at h
  by_cases ht : text = ""
  · rw [if_pos ht] at h
    simp only [Prod.mk.injEq, and_true] at h
    exact ⟨_, h.symm, Or.inl ⟨rfl, ht⟩⟩
  · rw [if_neg ht] at h
    cases hb : formulaBody text with
    | none =>
      rw [hb] at h
      simp only [Prod.mk.injEq, and_true] at h
      exact ⟨_, h.symm, Or.inr (Or.inl ⟨rfl, ht, hb⟩)⟩
    | some e =>
      rw [hb] at h
      simp only at h
      rcases SetFormulaImpl_cases parse s self e with
        ⟨_, h1⟩ | ⟨f, hp, hd, h1⟩ | ⟨f, ex, _, _, h1⟩
      · rw [h1] at h; simp at h
      · rw [h1] at h
        simp only [Prod.mk.injEq, and_true] at h
        exact ⟨_, h.symm, Or.inr (Or.inr ⟨e, f, hb, hp, rfl, hd⟩)⟩
      · rw [h1] at h; simp at h

theorem SetImpl_err {parse : String → Option FormulaAST} {s s1 : Sheet} {self : Position}
    {text : String} {ex : Exception} (h : Cell.SetImpl parse s self text = (s1, some ex)) :
    s1 = s ∧ ∃ e, formulaBody text = some e ∧
      ((ParseFormula parse e = none ∧ ex = .FormulaException) ∨
       (∃ f, ParseFormula parse e = some f ∧
         Cell.FindCircularDependency (s.setImpl self (.FormulaImpl f none)) self = some ex)) := by
  rw [SetImpl_eq] at h
  by_cases ht : text = ""
  · rw [if_pos ht] at h; simp at h
  · rw [if_neg ht] at h
    cases hb : formulaBody text with
    | none => rw [hb] at h; simp at h
    | some e =>
      rw [hb] at h
      simp only at h
      rcases SetFormulaImpl_cases parse s self e with
        ⟨hp, h1⟩ | ⟨f, _, _, h1⟩ | ⟨f, ex1, hp, hd, h1⟩
      · rw [h1] at h
        simp only [Prod.mk.injEq, Option.some.injEq] at h
        exact ⟨h.1.symm, e, rfl, Or.inl ⟨hp, h.2.symm⟩⟩
      · rw [h1] at h; simp at h
      · rw [h1] at h
        simp only [Prod.mk.injEq, Option.some.injEq] at h
        obtain ⟨rfl, rfl⟩ := h
        exact ⟨rfl, e, rfl, Or.inr ⟨f, hp, hd⟩⟩

theorem Set_same {parse : String → Option FormulaAST} {s : Sheet} {self : Position}
    {text : String} {cell : Cell} (hcell : s.cellAt self = some cell)
    (h : text = cell.GetText) : Cell.Set parse s self text = (s, none) := by
  simp [Cell.Set, hcell, h]

theorem Set_absent {parse : String → Option FormulaAST} {s : Sheet} {self : Position}
    {text : String} (hcell : s.cellAt self = none) : Cell.Set parse s self text = (s, none) := by
  simp [Cell.Set, hcell]

/-- The stages of a `Cell::Set` that changes the text: the choice of the implementation, the
removal of the old reverse references, the insertion of the new ones, the invalidation. The
call stops at the first stage that throws. -/
theorem Set_stages (parse : String → Option FormulaAST) {s : Sheet} {self : Position}
    {text : String} {cell : Cell} (hcell : s.cellAt self = some cell)
    (hne : text ≠ cell.GetText) :
    (∃ ex, Cell.SetImpl parse s self text = (s, some ex) ∧
        Cell.Set parse s self text = (s, some ex)) ∨
    (∃ impl, NewImpl parse s self text impl ∧
      ((∃ s2 ex, Cell.RemoveReverseRef self (s.setImpl self impl) cell.GetReferencedCells
            = (s2, some ex) ∧ Cell.Set parse s self text = (s2, some ex)) ∨
       (∃ s2, Cell.RemoveReverseRef self (s.setImpl self impl) cell.GetReferencedCells
            = (s2, none) ∧
          ((∃ s3 ex, Cell.AddReverseRef s2 self = (s3, some ex) ∧
              Cell.Set parse s self text = (s3, some ex)) ∨
           (∃ s3, Cell.AddReverseRef s2 self = (s3, none) ∧
              Cell.Set parse s self text = Cell.InvalidateCache s3 self))))) := by
  unfold Cell.Set
  simp only [hcell, if_neg hne]
  cases h1 : Cell.SetImpl parse s self text with
  | mk s1 r1 =>
    cases r1 with
    | some ex =>
      obtain ⟨rfl, _⟩ := SetImpl_err h1
      exact Or.inl ⟨ex, rfl, rfl⟩
    | none =>
      obtain ⟨impl, rfl, himpl⟩ := SetImpl_ok h1
      refine Or.inr ⟨impl, himpl, ?_⟩
      simp only
      cases h2 : Cell.RemoveReverseRef self (s.setImpl self impl) cell.GetReferencedCells with
      | mk s2 r2 =>
        cases r2 with
        | some ex => exact Or.inl ⟨s2, ex, rfl, rfl⟩
        | none =>
          refine Or.inr ⟨s2, rfl, ?_⟩
          simp only
          cases h3 : Cell.AddReverseRef s2 self with
          | mk s3 r3 =>
            cases r3 with
            | some ex => exact Or.inl ⟨s3, ex, rfl, rfl⟩
            | none => exact Or.inr ⟨s3, rfl, rfl⟩


/-! ## Forward and reverse references through the stages of `Cell::Set` -/

theorem Sheet.refsAt_setImpl {s : Sheet} {self : Position} {cell : Cell} (impl : Impl)
    (hcell : s.cellAt self = some cell) (q : Position) :
    (s.setImpl self impl).refsAt q =
      if q = self then impl.GetReferencedCells else s.refsAt q := by
  unfold Sheet.refsAt
  rw [Sheet.cellAt_setImpl]
  by_cases hq : q = self
  · subst hq; simp [hcell, Cell.GetReferencedCells]
  · simp [hq]

theorem Sheet.reverseAt_setImpl (s : Sheet) (self : Position) (impl : Impl) (q : Position) :
    (s.setImpl self impl).reverseAt q = s.reverseAt q := by
  unfold Sheet.reverseAt
  rw [Sheet.cellAt_setImpl]
  by_cases hq : q = self
  · subst hq; cases s.cellAt q <;> simp
  · simp [hq]

theorem RemoveReverseRef_refsAt {self : Position} {l : List Position} {s : Sheet}
    (h : (Cell.RemoveReverseRef self s l).2 = none) (q : Position) :
    (Cell.RemoveReverseRef self s l).1.refsAt q = s.refsAt q := by
  unfold Sheet.refsAt
  rw [RemoveReverseRef_cellAt self l s h q]
  split_ifs
  · cases s.cellAt q <;> rfl
  · rfl

theorem RemoveReverseRef_reverseAt {self : Position} {l : List Position} {s : Sheet}
    (h : (Cell.RemoveReverseRef self s l).2 = none) (q : Position) :
    (Cell.RemoveReverseRef self s l).1.reverseAt q =
      if q ∈ l then (s.reverseAt q).filter (fun b => decide (b ≠ self)) else s.reverseAt q := by
  unfold Sheet.reverseAt
  rw [RemoveReverseRef_cellAt self l s h q]
  split_ifs
  · cases s.cellAt q <;> simp [Cell.eraseReverse]
  · rfl

theorem AddReverseRefLoop_refsAt {self : Position} {l : List Position} {s : Sheet}
    (h : (Cell.AddReverseRefLoop self s l).2 = none) (q : Position) :
    (Cell.AddReverseRefLoop self s l).1.refsAt q = s.refsAt q := by
  unfold Sheet.refsAt
  rw [AddReverseRefLoop_cellAt self l s h q]
  split_ifs
  · cases s.cellAt q <;> rfl
  · rfl

theorem AddReverseRefLoop_reverseAt {self : Position} {l : List Position} {s : Sheet}
    (h : (Cell.AddReverseRefLoop self s l).2 = none) (q : Position) :
    (Cell.AddReverseRefLoop self s l).1.reverseAt q =
      if q ∈ l then (s.reverseAt q).insert self else s.reverseAt q := by
  unfold Sheet.reverseAt
  rw [AddReverseRefLoop_cellAt self l s h q]
  split_ifs
  · cases s.cellAt q <;> simp [Cell.insertReverse, Cell.new]
  · rfl

theorem RemoveReverseRef_err {self : Position} {l : List Position} {ex : Exception} :
    ∀ {s : Sheet}, (Cell.RemoveReverseRef self s l).2 = some ex →
      ex = .InvalidPositionException := by
  induction l with
  | nil => intro s h; simp [Cell.RemoveReverseRef] at h
  | cons pos rest ih =>
    intro s h
    rw [RemoveReverseRef_cons] at h
    by_cases hv : pos.IsValid = true
    · rw [if_pos hv] at h; exact ih h
    · rw [if_neg hv] at h; simp at h; exact h.symm

theorem AddReverseRefLoop_err {self : Position} {l : List Position} {ex : Exception} :
    ∀ {s : Sheet}, (Cell.AddReverseRefLoop self s l).2 = some ex →
      ex = .InvalidPositionException := by
  induction l with
  | nil => intro s h; simp [Cell.AddReverseRefLoop] at h
  | cons pos rest ih =>
    intro s h
    rw [AddReverseRefLoop_cons] at h
    by_cases hv : pos.IsValid = true
    · rw [if_pos hv] at h; exact ih h
    · rw [if_neg hv] at h; simp at h; exact h.symm

/-- A `Cell::Set` that throws `FormulaException` or `CircularDependencyException` leaves the
state exactly as it found it. -/
theorem Set_rollback {parse : String → Option FormulaAST} {s : Sheet} {self : Position}
    {text : String} {ex : Exception} (h : (Cell.Set parse s self text).2 = some ex)
    (hex : ex ≠ .InvalidPositionException) : (Cell.Set parse s self text).1 = s := by
  cases hcell : s.cellAt self with
  | none => rw [Set_absent hcell]
  | some cell =>
    by_cases hne : text = cell.GetText
    · rw [Set_same hcell hne]
    · rcases Set_stages parse hcell hne with
        ⟨ex1, _, h1⟩ | ⟨impl, _, ⟨s2, ex1, h2, h1⟩ | ⟨s2, _, ⟨s3, ex1, h3, h1⟩ | ⟨s3, _, h1⟩⟩⟩
      · rw [h1]
      · rw [h1] at h
        simp only [Option.some.injEq] at h
        subst h
        exact absurd (RemoveReverseRef_err (by rw [h2])) hex
      · rw [h1] at h
        simp only [Option.some.injEq] at h
        subst h
        unfold Cell.AddReverseRef at h3
        exact absurd (AddReverseRefLoop_err (by rw [h3])) hex
      · rw [h1, (InvalidateCache_spec s3 self).1] at h
        simp at h

theorem SetCell_valid {parse : String → Option FormulaAST} {s : Sheet} {pos : Position}
    {text : String} (hv : pos.IsValid = true) :
    Sheet.SetCell parse s pos text = Cell.Set parse (s.materialize pos) pos text := by
  simp [Sheet.SetCell, hv]

theorem SetCell_invalid {parse : String → Option FormulaAST} {s : Sheet} {pos : Position}
    {text : String} (hv : ¬ pos.IsValid = true) :
    Sheet.SetCell parse s pos text = (s, some .InvalidPositionException) := by
  simp [Sheet.SetCell, hv]

/-- A `Sheet::SetCell` that throws `FormulaException` or `CircularDependencyException` leaves
the sheet as it was, except that a cell missing at the position has been created. -/
theorem failed_SetCell_state {parse : String → Option FormulaAST} {s : Sheet}
    {pos : Position} {text : String} {ex : Exception}
    (h : (Sheet.SetCell parse s pos text).2 = some ex)
    (hex : ex ≠ .InvalidPositionException) :
    (Sheet.SetCell parse s pos text).1 = s.materialize pos := by
  by_cases hv : pos.IsValid = true
  · rw [SetCell_valid hv] at h ⊢
    exact Set_rollback h hex
  · rw [SetCell_invalid hv] at h
    simp only [Option.some.injEq] at h
    exact absurd h.symm hex

theorem Sheet.textAt_materialize (s : Sheet) (pos q : Position) :
    (s.materialize pos).textAt q = s.textAt q := by
  unfold Sheet.textAt
  rw [Sheet.cellAt_materialize]
  by_cases hq : q = pos
  · subst hq; rw [if_pos rfl]; cases s.cellAt q <;> rfl
  · simp [hq]

theorem Sheet.refsAt_materialize (s : Sheet) (pos q : Position) :
    (s.materialize pos).refsAt q = s.refsAt q := by
  unfold Sheet.refsAt
  rw [Sheet.cellAt_materialize]
  by_cases hq : q = pos
  · subst hq; rw [if_pos rfl]; cases s.cellAt q <;> rfl
  · simp [hq]

theorem Sheet.reverseAt_materialize (s : Sheet) (pos q : Position) :
    (s.materialize pos).reverseAt q = s.reverseAt q := by
  unfold Sheet.reverseAt
  rw [Sheet.cellAt_materialize]
  by_cases hq : q = pos
  · subst hq; rw [if_pos rfl]; cases s.cellAt q <;> rfl
  · simp [hq]

theorem Sheet.cacheAt_materialize (s : Sheet) (pos q : Position) :
    (s.materialize pos).cacheAt q = s.cacheAt q := by
  unfold Sheet.cacheAt
  rw [Sheet.cellAt_materialize]
  by_cases hq : q = pos
  · subst hq; rw [if_pos rfl]; cases s.cellAt q <;> rfl
  · simp [hq]

theorem Sheet.materialize_of_stored {s : Sheet} {pos : Position} {c : Cell}
    (h : s.cellAt pos = some c) : s.materialize pos = s := by
  simp [Sheet.materialize, h]

theorem Sheet.materialize_of_absent {s : Sheet} {pos : Position}
    (h : s.cellAt pos = none) :
    s.materialize pos =
      Sheet.UpdateSizeSheet { s with sheet_ := (pos, Cell.new) :: s.sheet_ } pos 1 := by
  simp [Sheet.materialize, h]


/-! ## The counter vectors -/

theorem length_vecResize (v : List Int) (n : Nat) : (vecResize v n).length = n := by
  simp [vecResize]; omega

theorem getD_vecResize (v : List Int) (n i : Nat) :
    (vecResize v n).getD i 0 = if i < n then v.getD i 0 else 0 := by
  unfold vecResize
  simp only [List.getD_eq_getElem?_getD]
  by_cases hi : i < n
  · rw [if_pos hi]
    by_cases hl : i < v.length
    · rw [List.getElem?_append_left (by simp; omega)]
      simp [List.getElem?_take, hi]
    · rw [List.getElem?_append_right (by simp; omega)]
      have h1 : v[i]? = none := List.getElem?_eq_none (by omega)
      rw [h1]
      simp only [List.length_take, Option.getD_none]
      rw [List.getElem?_replicate]
      split <;> rfl
  · rw [if_neg hi]
    have : (List.take n v ++ List.replicate (n - v.length) 0)[i]? = none := by
      apply List.getElem?_eq_none
      simp; omega
    rw [this]; rfl

theorem length_vecAdd (v : List Int) (i : Nat) (delta : Int) :
    (vecAdd v i delta).length = v.length := by
  simp [vecAdd]

theorem getD_vecAdd (v : List Int) (i j : Nat) (delta : Int) (hi : i < v.length) :
    (vecAdd v i delta).getD j 0 = v.getD j 0 + if j = i then delta else 0 := by
  unfold vecAdd
  simp only [List.getD_eq_getElem?_getD]
  by_cases hj : j = i
  · subst hj
    rw [List.getElem?_set_self hi]
    simp
  · rw [List.getElem?_set_ne (fun h => hj h.symm)]
    simp [hj]

/-- Counting a new cell: the entry of its row (or column) goes up by one, the others stay. -/
theorem getD_updateCounter_one (v : List Int) (i j : Nat) :
    (updateCounter v i 1).getD j 0 = v.getD j 0 + if j = i then 1 else 0 := by
  unfold updateCounter
  simp only [show ¬ ((1 : Int) < 0) by decide, if_false]
  by_cases hi : i ≥ v.length
  · rw [if_pos hi, getD_vecAdd _ _ _ _ (by rw [length_vecResize]; omega), getD_vecResize]
    by_cases hj : j < i + 1
    · rw [if_pos hj]
    · rw [if_neg hj]
      have h1 : v.getD j 0 = 0 := by
        rw [List.getD_eq_getElem?_getD, List.getElem?_eq_none (by omega)]; rfl
      rw [h1]
  · rw [if_neg hi, getD_vecAdd _ _ _ _ (by omega)]

theorem length_updateCounter_one (v : List Int) (i : Nat) :
    (updateCounter v i 1).length = max v.length (i + 1) := by
  unfold updateCounter
  simp only [show ¬ ((1 : Int) < 0) by decide, if_false]
  by_cases hi : i ≥ v.length
  · rw [if_pos hi, length_vecAdd, length_vecResize]; omega
  · rw [if_neg hi, length_vecAdd]; omega

theorem lastPositive_le_length (v : List Int) : lastPositive v ≤ v.length := by
  induction v with
  | nil => simp [lastPositive]
  | cons x rest ih =>
    unfold lastPositive
    split_ifs <;> simp <;> omega

theorem lastPositive_beyond (v : List Int) : ∀ i, lastPositive v ≤ i → v.getD i 0 ≤ 0 := by
  induction v with
  | nil => intro i _; simp
  | cons x rest ih =>
    intro i hi
    unfold lastPositive at hi
    by_cases h1 : lastPositive rest > 0
    · rw [if_pos h1] at hi
      cases i with
      | zero => omega
      | succ k => simpa using ih k (by omega)
    · rw [if_neg h1] at hi
      have h0 : lastPositive rest = 0 := by omega
      cases i with
      | zero =>
        by_cases hx : x > 0
        · rw [if_pos hx] at hi; omega
        · simpa using hx
      | succ k => simpa using ih k (by omega)

theorem lastPositive_last (v : List Int) : ∀ k, lastPositive v = k + 1 → 0 < v.getD k 0 := by
  induction v with
  | nil => intro k h; simp [lastPositive] at h
  | cons x rest ih =>
    intro k h
    unfold lastPositive at h
    by_cases h1 : lastPositive rest > 0
    · rw [if_pos h1] at h
      cases k with
      | zero => omega
      | succ j => simpa using ih j (by omega)
    · rw [if_neg h1] at h
      by_cases hx : x > 0
      · rw [if_pos hx] at h
        have hk : k = 0 := by omega
        subst hk
        simpa using hx
      · rw [if_neg hx] at h; omega


/-! ## The dependency graph through an edit -/

/-- A path in a graph that differs from another only in the edges leaving `p` is a path of
the other graph or passes through `p`. -/
theorem transGen_through {α : Type} {R R1 : α → α → Prop} {p : α}
    (hR : ∀ a b, a ≠ p → R1 a b → R a b) {a b : α} (h : Relation.TransGen R1 a b) :
    Relation.TransGen R a b ∨
      (Relation.ReflTransGen R1 a p ∧ Relation.TransGen R1 p b) := by
  induction h using Relation.TransGen.head_induction_on with
  | @base a hab =>
    by_cases ha : a = p
    · subst ha; exact Or.inr ⟨Relation.ReflTransGen.refl, Relation.TransGen.single hab⟩
    · exact Or.inl (Relation.TransGen.single (hR _ _ ha hab))
  | @ih a c hac hcb ih =>
    by_cases ha : a = p
    · subst ha; exact Or.inr ⟨Relation.ReflTransGen.refl, Relation.TransGen.head hac hcb⟩
    · rcases ih with h1 | ⟨h1, h2⟩
      · exact Or.inl (Relation.TransGen.head (hR _ _ ha hac) h1)
      · exact Or.inr ⟨Relation.ReflTransGen.head hac h1, h2⟩

theorem acyclic_of_agree {α : Type} {R R1 : α → α → Prop} {p : α}
    (hR : ∀ a b, a ≠ p → R1 a b → R a b) (hac : ∀ a, ¬ Relation.TransGen R a a)
    (hp : ¬ Relation.TransGen R1 p p) : ∀ a, ¬ Relation.TransGen R1 a a := by
  intro a h
  rcases transGen_through hR h with h1 | ⟨h1, h2⟩
  · exact hac a h1
  · exact hp (Relation.TransGen.trans_left h2 h1)

/-- A path to `p` can be cut at its first visit of `p`, so it only needs the edges that do
not leave `p`. -/
theorem reflTransGen_cut {α : Type} {R R1 : α → α → Prop} {p : α}
    (hR : ∀ a b, a ≠ p → R1 a b → R a b) {a : α} (h : Relation.ReflTransGen R1 a p) :
    Relation.ReflTransGen R a p := by
  induction h using Relation.ReflTransGen.head_induction_on with
  | refl => exact Relation.ReflTransGen.refl
  | @head x y hxy _ ih =>
    by_cases hx : x = p
    · subst hx; exact Relation.ReflTransGen.refl
    · exact Relation.ReflTransGen.head (hR _ _ hx hxy) ih

theorem Sheet.edge_setImpl {s : Sheet} {self : Position} {cell : Cell} (impl : Impl)
    (hcell : s.cellAt self = some cell) (a b : Position) :
    (s.setImpl self impl).Edge a b ↔
      if a = self then b ∈ impl.GetReferencedCells else s.Edge a b := by
  unfold Sheet.Edge
  rw [Sheet.refsAt_setImpl impl hcell]
  split_ifs <;> rfl

/-- The implementation chosen by `Cell::Set` does not put the cell on a cycle, and its
references are valid positions. -/
theorem newImpl_sound {parse : String → Option FormulaAST} {s : Sheet} {self : Position}
    {text : String} {impl : Impl} {cell : Cell} (hcell : s.cellAt self = some cell)
    (h : NewImpl parse s self text impl) :
    ¬ Relation.TransGen (s.setImpl self impl).Edge self self ∧
      ∀ p ∈ impl.GetReferencedCells, p.IsValid = true := by
  rcases h with ⟨rfl, _⟩ | ⟨rfl, _, _⟩ | ⟨e, f, _, _, rfl, hd⟩
  · refine ⟨?_, by simp [Impl.GetReferencedCells]⟩
    intro h
    obtain ⟨c, hc, _⟩ := Relation.TransGen.head'_iff.1 h
    rw [Sheet.edge_setImpl _ hcell, if_pos rfl] at hc
    simp [Impl.GetReferencedCells] at hc
  · refine ⟨?_, by simp [Impl.GetReferencedCells]⟩
    intro h
    obtain ⟨c, hc, _⟩ := Relation.TransGen.head'_iff.1 h
    rw [Sheet.edge_setImpl _ hcell, if_pos rfl] at hc
    simp [Impl.GetReferencedCells] at hc
  · obtain ⟨h1, h2⟩ := FindCircularDependency_none hd
    refine ⟨h1, ?_⟩
    intro p hp
    apply h2 p
    apply Relation.ReflTransGen.single
    rw [Sheet.edge_setImpl _ hcell, if_pos rfl]
    exact hp

/-- Where the old references of the cell are valid, a `Cell::Set` that changes the text either
returns normally or throws while choosing the implementation, leaving the state as it was. -/
theorem Set_total (parse : String → Option FormulaAST) {s : Sheet} {self : Position}
    {text : String} {cell : Cell} (hcell : s.cellAt self = some cell)
    (hne : text ≠ cell.GetText) (hold : ∀ p ∈ cell.GetReferencedCells, p.IsValid = true) :
    (∃ ex, Cell.SetImpl parse s self text = (s, some ex) ∧
        Cell.Set parse s self text = (s, some ex)) ∨
    (∃ impl s2 s3, NewImpl parse s self text impl ∧
      Cell.RemoveReverseRef self (s.setImpl self impl) cell.GetReferencedCells = (s2, none) ∧
      Cell.AddReverseRefLoop self s2 impl.GetReferencedCells = (s3, none) ∧
      Cell.Set parse s self text = Cell.InvalidateCache s3 self) := by
  rcases Set_stages parse hcell hne with
    h1 | ⟨impl, himpl, ⟨s2, ex1, h2, _⟩ | ⟨s2, h2, h3⟩⟩
  · exact Or.inl h1
  · have := (RemoveReverseRef_ok_iff self cell.GetReferencedCells (s.setImpl self impl)).2 hold
    rw [h2] at this; simp at this
  · have hrefs : s2.refsAt self = impl.GetReferencedCells := by
      have h4 := @RemoveReverseRef_refsAt self cell.GetReferencedCells
        (s.setImpl self impl) (by rw [h2]) self
      rw [h2] at h4
      rw [h4, Sheet.refsAt_setImpl impl hcell, if_pos rfl]
    unfold Cell.AddReverseRef at h3
    rw [hrefs] at h3
    rcases h3 with ⟨s3, ex1, h3, _⟩ | ⟨s3, h3, h5⟩
    · have := (AddReverseRefLoop_ok_iff self impl.GetReferencedCells s2).2
        (newImpl_sound hcell himpl).2
      rw [h3] at this; simp at this
    · exact Or.inr ⟨impl, s2, s3, himpl, h2, h3, h5⟩

/-- The forward and reverse references after a `Cell::Set` that went through all its
stages. -/
theorem Set_success_edges {s s2 s3 : Sheet} {self : Position} {cell : Cell} {impl : Impl}
    (hcell : s.cellAt self = some cell)
    (h2 : Cell.RemoveReverseRef self (s.setImpl self impl) cell.GetReferencedCells = (s2, none))
    (h3 : Cell.AddReverseRefLoop self s2 impl.GetReferencedCells = (s3, none)) :
    (∀ q, (Cell.InvalidateCache s3 self).1.refsAt q =
      if q = self then impl.GetReferencedCells else s.refsAt q) ∧
    (∀ q b, b ∈ (Cell.InvalidateCache s3 self).1.reverseAt q ↔
      (q ∈ impl.GetReferencedCells ∧ b = self) ∨
      (b ∈ s.reverseAt q ∧ ¬ (q ∈ cell.GetReferencedCells ∧ b = self))) := by
  obtain ⟨_, proc, hr, _⟩ := InvalidateCache_spec s3 self
  have e2 : (Cell.RemoveReverseRef self (s.setImpl self impl) cell.GetReferencedCells).2 = none := by
    rw [h2]
  have e3 : (Cell.AddReverseRefLoop self s2 impl.GetReferencedCells).2 = none := by rw [h3]
  constructor
  · intro q
    have a3 := AddReverseRefLoop_refsAt e3 q
    have a2 := RemoveReverseRef_refsAt e2 q
    rw [h3] at a3; rw [h2] at a2
    rw [resetBetween_refsAt hr q, a3, a2, Sheet.refsAt_setImpl impl hcell]
  · intro q b
    have a3 := AddReverseRefLoop_reverseAt e3 q
    have a2 := RemoveReverseRef_reverseAt e2 q
    rw [h3] at a3; rw [h2] at a2
    rw [resetBetween_reverseAt hr q, a3, a2, Sheet.reverseAt_setImpl]
    by_cases hN : q ∈ impl.GetReferencedCells
    · by_cases hO : q ∈ cell.GetReferencedCells
      · simp only [hN, hO, if_true, List.mem_insert_iff, List.mem_filter, decide_eq_true_eq,
          true_and]
      · simp only [hN, hO, if_true, if_false, List.mem_insert_iff, true_and, false_and,
          not_false_eq_true, and_true]
    · by_cases hO : q ∈ cell.GetReferencedCells
      · simp only [hN, hO, if_true, if_false, List.mem_filter, decide_eq_true_eq, false_and,
          true_and, false_or]
      · simp only [hN, hO, if_false, false_and, not_false_eq_true, and_true, false_or]

theorem Sheet.graphInv_congr {s s1 : Sheet} (hf : ∀ q, s1.refsAt q = s.refsAt q)
    (hr : ∀ q, s1.reverseAt q = s.reverseAt q) (h : s.GraphInv) : s1.GraphInv := by
  unfold Sheet.GraphInv Sheet.RefsValid Sheet.Acyclic Sheet.Sym
  rw [Sheet.edge_congr hf, Sheet.revEdge_congr hr]
  exact h

theorem Sheet.graphInv_materialize {s : Sheet} (pos : Position) (h : s.GraphInv) :
    (s.materialize pos).GraphInv :=
  Sheet.graphInv_congr (Sheet.refsAt_materialize s pos) (Sheet.reverseAt_materialize s pos) h

theorem Sheet.graphInv_empty : Sheet.empty.GraphInv := by
  refine ⟨?_, ?_, ?_⟩
  · intro a b h; simp [Sheet.Edge, Sheet.refsAt, Sheet.cellAt, Sheet.empty, mapFind] at h
  · intro a h
    obtain ⟨c, hc, _⟩ := Relation.TransGen.head'_iff.1 h
    simp [Sheet.Edge, Sheet.refsAt, Sheet.cellAt, Sheet.empty, mapFind] at hc
  · intro a b
    simp [Sheet.Edge, Sheet.RevEdge, Sheet.refsAt, Sheet.reverseAt, Sheet.cellAt, Sheet.empty,
      mapFind]

/-- The function `Cell::Set` keeps the invariant of the dependency graph. -/
theorem Set_graphInv (parse : String → Option FormulaAST) {s : Sheet} (self : Position)
    (text : String) (h : s.GraphInv) : (Cell.Set parse s self text).1.GraphInv := by
  cases hcell : s.cellAt self with
  | none => rw [Set_absent hcell]; exact h
  | some cell =>
    by_cases hne : text = cell.GetText
    · rw [Set_same hcell hne]; exact h
    · obtain ⟨hvalid, hacyc, hsym⟩ := h
      have hold : ∀ p ∈ cell.GetReferencedCells, p.IsValid = true := by
        intro p hp
        exact hvalid self p ((Sheet.edge_of_cellAt hcell).2 hp)
      rcases Set_total parse hcell hne hold with
        ⟨ex, _, h1⟩ | ⟨impl, s2, s3, himpl, h2, h3, h1⟩
      · rw [h1]; exact ⟨hvalid, hacyc, hsym⟩
      · rw [h1]
        obtain ⟨hf, hrev⟩ := Set_success_edges hcell h2 h3
        obtain ⟨hnocyc, hnew⟩ := newImpl_sound hcell himpl
        have hE : ∀ a b, (Cell.InvalidateCache s3 self).1.Edge a b ↔
            if a = self then b ∈ impl.GetReferencedCells else s.Edge a b := by
          intro a b
          unfold Sheet.Edge
          rw [hf a]
          split_ifs <;> rfl
        have hE1 : (Cell.InvalidateCache s3 self).1.Edge = (s.setImpl self impl).Edge := by
          funext a b
          rw [hE, Sheet.edge_setImpl impl hcell]
        have hOld : ∀ b, b ∈ cell.GetReferencedCells ↔ s.Edge self b :=
          fun b => (Sheet.edge_of_cellAt hcell).symm
        refine ⟨?_, ?_, ?_⟩
        · intro a b hab
          rw [hE] at hab
          by_cases ha : a = self
          · rw [if_pos ha] at hab; exact hnew b hab
          · rw [if_neg ha] at hab; exact hvalid a b hab
        · unfold Sheet.Acyclic
          rw [hE1]
          apply @acyclic_of_agree _ s.Edge _ self _ hacyc hnocyc
          intro a b ha hab
          rw [Sheet.edge_setImpl impl hcell, if_neg ha] at hab
          exact hab
        · intro a b
          rw [hE]
          unfold Sheet.RevEdge
          rw [hrev b a, hOld]
          by_cases ha : a = self
          · subst ha
            rw [if_pos rfl]
            constructor
            · intro hb; exact Or.inl ⟨hb, rfl⟩
            · rintro (⟨hb, _⟩ | ⟨_, hb⟩)
              · exact hb
              · exfalso
                apply hb
                refine ⟨(hsym a b).2 ?_, rfl⟩
                assumption
          · rw [if_neg ha]
            constructor
            · intro hab
              exact Or.inr ⟨(hsym a b).1 hab, fun hc => ha hc.2⟩
            · rintro (⟨_, hb⟩ | ⟨hb, _⟩)
              · exact absurd hb ha
              · exact (hsym a b).2 hb

theorem SetCell_graphInv (parse : String → Option FormulaAST) {s : Sheet} (pos : Position)
    (text : String) (h : s.GraphInv) : (Sheet.SetCell parse s pos text).1.GraphInv := by
  by_cases hv : pos.IsValid = true
  · rw [SetCell_valid hv]
    exact Set_graphInv parse pos text (Sheet.graphInv_materialize pos h)
  · rw [SetCell_invalid hv]; exact h

theorem Impl.refs_nil_of_text_empty {impl : Impl} (h : "" = impl.GetText) :
    impl.GetReferencedCells = [] := by
  cases impl with
  | EmptyImpl => rfl
  | TextImpl t => rfl
  | FormulaImpl f c =>
    exfalso
    have h1 := congrArg String.data h
    simp [Impl.GetText] at h1

theorem formulaBody_empty : formulaBody "" = none := rfl

/-- After a `Cell::Set("")` that returns normally the cell has no references. -/
theorem Set_empty_refsAt (parse : String → Option FormulaAST) {s : Sheet} {self : Position}
    (hvalid : s.RefsValid) (h : (Cell.Set parse s self "").2 = none) :
    (Cell.Set parse s self "").1.refsAt self = [] := by
  cases hcell : s.cellAt self with
  | none => rw [Set_absent hcell]; simp [Sheet.refsAt, hcell]
  | some cell =>
    by_cases hne : "" = cell.GetText
    · rw [Set_same hcell hne]
      simp only [Sheet.refsAt, hcell]
      exact Impl.refs_nil_of_text_empty hne
    · have hold : ∀ p ∈ cell.GetReferencedCells, p.IsValid = true := by
        intro p hp
        exact hvalid self p ((Sheet.edge_of_cellAt hcell).2 hp)
      rcases Set_total parse hcell hne hold with
        ⟨ex, _, h1⟩ | ⟨impl, s2, s3, himpl, h2, h3, h1⟩
      · rw [h1] at h; simp at h
      · rw [h1, (Set_success_edges hcell h2 h3).1 self, if_pos rfl]
        rcases himpl with ⟨rfl, _⟩ | ⟨_, h4, _⟩ | ⟨e, f, h4, _⟩
        · rfl
        · exact absurd rfl h4
        · rw [formulaBody_empty] at h4; simp at h4

theorem Sheet.refsAt_erase (s : Sheet) (pos q : Position) :
    (s.erase pos).refsAt q = if q = pos then [] else s.refsAt q := by
  unfold Sheet.refsAt
  rw [Sheet.cellAt_erase]
  split_ifs <;> rfl

theorem Sheet.reverseAt_erase (s : Sheet) (pos q : Position) :
    (s.erase pos).reverseAt q = if q = pos then [] else s.reverseAt q := by
  unfold Sheet.reverseAt
  rw [Sheet.cellAt_erase]
  split_ifs <;> rfl

/-- Removing a cell without references and without reverse references keeps the invariant of
the dependency graph. -/
theorem Sheet.graphInv_erase {s : Sheet} {pos : Position} (h : s.GraphInv)
    (hf : s.refsAt pos = []) (hr : s.reverseAt pos = []) (delta : Int) :
    (Sheet.UpdateSizeSheet (s.erase pos) pos delta).GraphInv := by
  have hf1 : ∀ q, (s.erase pos).refsAt q = s.refsAt q := by
    intro q
    rw [Sheet.refsAt_erase]
    by_cases hq : q = pos
    · rw [if_pos hq, hq, hf]
    · rw [if_neg hq]
  have hr1 : ∀ q, (s.erase pos).reverseAt q = s.reverseAt q := by
    intro q
    rw [Sheet.reverseAt_erase]
    by_cases hq : q = pos
    · rw [if_pos hq, hq, hr]
    · rw [if_neg hq]
  exact Sheet.graphInv_congr hf1 hr1 h

theorem ClearCell_eq (parse : String → Option FormulaAST) (s : Sheet) (pos : Position) :
    Sheet.ClearCell parse s pos =
      if pos.IsValid then
        match s.cellAt pos with
        | none => (s, none)
        | some _ =>
          match (Cell.Set parse s pos "").2 with
          | some e => ((Cell.Set parse s pos "").1, some e)
          | none =>
            match (Cell.Set parse s pos "").1.cellAt pos with
            | none => ((Cell.Set parse s pos "").1, none)
            | some cell =>
              if cell.IsReferenced then ((Cell.Set parse s pos "").1, none)
              else (Sheet.UpdateSizeSheet ((Cell.Set parse s pos "").1.erase pos) pos (-1), none)
      else (s, some .InvalidPositionException) := by
  unfold Sheet.ClearCell
  split_ifs
  · cases s.cellAt pos with
    | none => rfl
    | some c =>
      simp only
      cases h : Cell.Set parse s pos "" with
      | mk s1 r => cases r <;> rfl
  · rfl

theorem ClearCell_graphInv (parse : String → Option FormulaAST) {s : Sheet} (pos : Position)
    (h : s.GraphInv) : (Sheet.ClearCell parse s pos).1.GraphInv := by
  rw [ClearCell_eq]
  have h1 := Set_graphInv parse pos "" h
  split_ifs
  · cases hc : s.cellAt pos with
    | none => exact h
    | some c =>
      simp only
      cases hr : (Cell.Set parse s pos "").2 with
      | some e => exact h1
      | none =>
        simp only
        cases hc1 : (Cell.Set parse s pos "").1.cellAt pos with
        | none => exact h1
        | some cell =>
          simp only
          by_cases href : cell.IsReferenced = true
          · rw [if_pos href]; exact h1
          · rw [if_neg href]
            apply Sheet.graphInv_erase h1 (Set_empty_refsAt parse h.1 hr)
            simp only [Sheet.reverseAt, hc1]
            simpa [Cell.IsReferenced] using href
  · exact h

/-- Every state reachable from the empty sheet satisfies the invariant of the dependency
graph. -/
theorem reachable_graphInv {parse : String → Option FormulaAST} {s : Sheet}
    (h : Reachable parse s) : s.GraphInv := by
  induction h with
  | empty => exact Sheet.graphInv_empty
  | setCell s pos text _ ih => exact SetCell_graphInv parse pos text ih
  | clearCell s pos _ ih => exact ClearCell_graphInv parse pos ih


/-! ## The reported cycle -/

/-- A chain of at least two entries relates its first entry to its last one; only the edges
leaving the entries before the last are used. -/
theorem chain_transGen {α : Type} {R1 R : α → α → Prop} (S : α → Prop)
    (hR : ∀ a b, S a → R1 a b → R a b) : ∀ (l : List α) (a b : α),
    List.Chain' R1 (a :: l) → l ≠ [] → (∀ y ∈ (a :: l).dropLast, S y) →
    (a :: l).getLast? = some b → Relation.TransGen R a b := by
  intro l
  induction l with
  | nil => intro a b _ h; exact absurd rfl h
  | cons c rest ih =>
    intro a b hchain _ hS hlast
    rw [List.chain'_cons] at hchain
    have hac : R a c := hR a c (hS a (by simp)) hchain.1
    by_cases hrest : rest = []
    · subst hrest
      simp at hlast
      subst hlast
      exact Relation.TransGen.single hac
    · have hS2 : ∀ y ∈ (c :: rest).dropLast, S y := by
        intro y hy
        apply hS
        rw [List.dropLast_cons_of_ne_nil (by simp)]
        exact List.mem_cons_of_mem _ hy
      have hlast2 : (c :: rest).getLast? = some b := by
        rw [List.getLast?_cons_cons] at hlast; exact hlast
      exact Relation.TransGen.head hac (ih c b hchain.2 hrest hS2 hlast2)

theorem dropWhile_ne_head (a : Position) (l : List Position) :
    (a :: l).dropWhile (fun p => decide (p ≠ a)) = a :: l := by
  simp [List.dropWhile]

theorem fromLastOccurrence_not_mem (top : Position) (l : List Position) (h : top ∉ l) :
    fromLastOccurrence top l = [] := by
  induction l with
  | nil => rfl
  | cons p rest ih =>
    have h1 : top ∉ rest := fun hm => h (List.mem_cons_of_mem _ hm)
    have h2 : ¬ p = top := fun hp => h (by simp [hp])
    simp [fromLastOccurrence, ih h1, h2]

theorem fromLastOccurrence_head (top : Position) (l : List Position) (h : top ∉ l) :
    fromLastOccurrence top (top :: l) = top :: l := by
  simp [fromLastOccurrence, fromLastOccurrence_not_mem top l h]

/-- The shape of a trace that the cycle search reports on a sheet that was acyclic before the
candidate formula was installed at `self`: it starts and ends at `self`, follows forward
references, and repeats no position except the last. -/
theorem circular_trace {s : Sheet} {self : Position} {cell : Cell} {impl : Impl}
    {what : String} (hcell : s.cellAt self = some cell) (hacyc : s.Acyclic)
    (h : Cell.FindCircularDependency (s.setImpl self impl) self =
      some (.CircularDependencyException what)) :
    ∃ mid : List Position, what = "Find cycle: " ++ Cell.StackToString (self :: mid ++ [self]) ∧
      (self :: mid).Nodup ∧ List.Chain' (s.setImpl self impl).Edge (self :: mid ++ [self]) := by
  obtain ⟨trace, hwhat, hhead, hchain, ⟨x, hlast, hx⟩, hnodup⟩ :=
    FindCircularDependency_circular h
  have htrace : trace = trace.dropLast ++ [x] := by
    have := List.dropLast_append_getLast? x hlast
    exact this.symm
  obtain ⟨l1, l2, hsplit⟩ := List.append_of_mem hx
  have hx_self : x = self := by
    by_contra hne
    have hl1 : l1 ≠ [] := by
      rintro rfl
      rw [htrace, hsplit] at hhead
      simp at hhead
      exact hne hhead
    have hself1 : self ∈ l1 := by
      cases l1 with
      | nil => exact absurd rfl hl1
      | cons a l =>
        rw [htrace, hsplit] at hhead
        simp at hhead
        simp [hhead]
    rw [hsplit] at hnodup
    have hdisj := (List.nodup_append.1 hnodup).2.2
    have hseg : List.Chain' (s.setImpl self impl).Edge (x :: (l2 ++ [x])) := by
      have : trace = l1 ++ (x :: (l2 ++ [x])) := by
        rw [htrace, hsplit]; simp
      rw [this] at hchain
      exact hchain.right_of_append
    have hR : ∀ a b, a ≠ self → (s.setImpl self impl).Edge a b → s.Edge a b := by
      intro a b ha hab
      rw [Sheet.edge_setImpl impl hcell, if_neg ha] at hab
      exact hab
    have hdrop : (x :: (l2 ++ [x])).dropLast = x :: l2 := by
      rw [← List.cons_append, List.dropLast_concat]
    have hS : ∀ y ∈ (x :: (l2 ++ [x])).dropLast, y ≠ self := by
      intro y hy
      rw [hdrop] at hy
      intro hys
      subst hys
      exact hdisj hself1 hy
    have hlast2 : (x :: (l2 ++ [x])).getLast? = some x := by
      rw [← List.cons_append, List.getLast?_concat]
    have hcyc : Relation.TransGen s.Edge x x :=
      chain_transGen (fun y => y ≠ self) hR (l2 ++ [x]) x x hseg (by simp) hS hlast2
    exact hacyc x hcyc
  subst hx_self
  have hd : trace.dropLast = x :: trace.dropLast.tail := by
    cases hdl : trace.dropLast with
    | nil => rw [hdl] at hx; simp at hx
    | cons a l =>
      rw [htrace, hdl] at hhead
      simp at hhead
      simp [hhead]
  refine ⟨trace.dropLast.tail, ?_, ?_, ?_⟩
  · rw [← hd, ← htrace]; exact hwhat
  · rw [← hd]; exact hnodup
  · rw [← hd, ← htrace]; exact hchain


/-! ## The verdict of the cycle search on a candidate formula -/

theorem FindCircularDependency_ne_formula (s : Sheet) (self : Position) :
    Cell.FindCircularDependency s self ≠ some .FormulaException := by
  unfold Cell.FindCircularDependency
  split <;> simp

theorem Sheet.edge_materialize (s : Sheet) (pos : Position) :
    (s.materialize pos).Edge = s.Edge :=
  Sheet.edge_congr (Sheet.refsAt_materialize s pos)

theorem StackToString_cycle (self : Position) (mid : List Position) :
    Cell.StackToString (self :: mid ++ [self]) =
      "->".intercalate ((self :: mid ++ [self]).map Position.ToString) := by
  unfold Cell.StackToString
  have h : (self :: mid ++ [self]).getLast? = some self := by
    rw [List.getLast?_concat]
  rw [h]
  simp only
  rw [List.cons_append, dropWhile_ne_head]

theorem codeCycle_cycle (self : Position) (mid : List Position) :
    codeCycle (self :: mid ++ [self]) = self :: mid ++ [self] := by
  unfold codeCycle
  have h : (self :: mid ++ [self]).getLast? = some self := by
    rw [List.getLast?_concat]
  rw [h]
  simp only
  rw [List.cons_append, dropWhile_ne_head]

theorem specCycle_cycle (self : Position) (mid : List Position) (h : self ∉ mid) :
    specCycle (self :: mid ++ [self]) = self :: mid ++ [self] := by
  unfold specCycle
  have h1 : (self :: mid ++ [self]).getLast? = some self := by
    rw [List.getLast?_concat]
  rw [h1]
  simp only
  rw [List.dropLast_concat, fromLastOccurrence_head self mid h]

/-- On a sheet that was acyclic, the cycle search on a candidate installed at `self` throws
`CircularDependencyException` only if the candidate puts `self` on a cycle. -/
theorem circular_cycle {s : Sheet} {self : Position} {cell : Cell} {impl : Impl}
    {what : String} (hcell : s.cellAt self = some cell) (hacyc : s.Acyclic)
    (h : Cell.FindCircularDependency (s.setImpl self impl) self =
      some (.CircularDependencyException what)) :
    Relation.TransGen (s.setImpl self impl).Edge self self := by
  obtain ⟨mid, _, _, hchain⟩ := circular_trace hcell hacyc h
  rw [List.cons_append] at hchain
  exact chain_transGen (fun _ => True) (fun _ _ _ hab => hab) (mid ++ [self]) self self hchain
    (by simp) (fun _ _ => trivial) (by rw [← List.cons_append, List.getLast?_concat])

theorem reachable_valid {s : Sheet} (hrefs : s.RefsValid) {a x : Position}
    (ha : a.IsValid = true) (h : Relation.ReflTransGen s.Edge a x) : x.IsValid = true := by
  induction h with
  | refl => exact ha
  | tail _ hbc _ => exact hrefs _ _ hbc

/-- A `Cell::Set` that throws something other than `InvalidPositionException` threw it while
choosing the implementation. -/
theorem Set_err_early (parse : String → Option FormulaAST) {s : Sheet} {self : Position}
    {text : String} {ex : Exception} (h : (Cell.Set parse s self text).2 = some ex)
    (hex : ex ≠ .InvalidPositionException) :
    ∃ cell, s.cellAt self = some cell ∧ text ≠ cell.GetText ∧
      Cell.SetImpl parse s self text = (s, some ex) := by
  cases hcell : s.cellAt self with
  | none => rw [Set_absent hcell] at h; simp at h
  | some cell =>
    by_cases hne : text = cell.GetText
    · rw [Set_same hcell hne] at h; simp at h
    · refine ⟨cell, rfl, hne, ?_⟩
      rcases Set_stages parse hcell hne with
        ⟨ex1, h0, h1⟩ | ⟨impl, _, ⟨s2, ex1, h2, h1⟩ | ⟨s2, _, ⟨s3, ex1, h3, h1⟩ | ⟨s3, _, h1⟩⟩⟩
      · rw [h1] at h
        simp only [Option.some.injEq] at h
        rw [h0, h]
      · rw [h1] at h
        simp only [Option.some.injEq] at h
        subst h
        exact absurd (RemoveReverseRef_err (by rw [h2])) hex
      · rw [h1] at h
        simp only [Option.some.injEq] at h
        subst h
        unfold Cell.AddReverseRef at h3
        exact absurd (AddReverseRefLoop_err (by rw [h3])) hex
      · rw [h1, (InvalidateCache_spec s3 self).1] at h
        simp at h

theorem Sheet.cellAt_materialize_self (s : Sheet) (pos : Position) :
    (s.materialize pos).cellAt pos = some ((s.cellAt pos).getD Cell.new) := by
  rw [Sheet.cellAt_materialize, if_pos rfl]

theorem Sheet.acyclic_materialize {s : Sheet} (pos : Position) (h : s.Acyclic) :
    (s.materialize pos).Acyclic := by
  unfold Sheet.Acyclic
  rw [Sheet.edge_materialize]
  exact h


/-! ## The size counters -/

theorem getLast?_eq_getD (v : List Int) (x : Int) (h : v.getLast? = some x) :
    v ≠ [] ∧ x = v.getD (v.length - 1) 0 := by
  rw [List.getLast?_eq_getElem?] at h
  refine ⟨?_, ?_⟩
  · rintro rfl; simp at h
  · rw [List.getD_eq_getElem?_getD, h]; rfl

theorem getLast?_of_length (v : List Int) (k : Nat) (h : v.length = k + 1) :
    v.getLast? = some (v.getD k 0) := by
  rw [List.getLast?_eq_getElem?, h, List.getD_eq_getElem?_getD]
  simp only [Nat.add_sub_cancel]
  have hk : k < v.length := by omega
  rw [List.getElem?_eq_getElem hk]
  rfl

theorem tightCounter_lt_length {v : List Int} {n : Nat → Nat} (h : TightCounter v n) {i : Nat}
    (hi : 0 < n i) : i < v.length := by
  by_contra hlt
  have h1 := h.1 i
  rw [List.getD_eq_getElem?_getD, List.getElem?_eq_none (by omega)] at h1
  simp at h1
  omega

/-- Counting one more cell keeps a counter vector tight. -/
theorem tightCounter_inc {v : List Int} {n n1 : Nat → Nat} (h : TightCounter v n) (i : Nat)
    (hn : ∀ j, n1 j = n j + if j = i then 1 else 0) : TightCounter (updateCounter v i 1) n1 := by
  have hcount : ∀ j, (updateCounter v i 1).getD j 0 = (n1 j : Int) := by
    intro j
    rw [getD_updateCounter_one, h.1 j, hn j]
    split_ifs <;> simp
  refine ⟨hcount, ?_⟩
  intro x hx
  obtain ⟨_, hx2⟩ := getLast?_eq_getD _ _ hx
  rw [hx2, hcount, length_updateCounter_one]
  by_cases hi : v.length ≤ i + 1
  · have hmax : max v.length (i + 1) - 1 = i := by omega
    rw [hmax, hn i]
    simp
    omega
  · have hmax : max v.length (i + 1) - 1 = v.length - 1 := by omega
    rw [hmax, hn]
    have hne : v.length - 1 ≠ i := by omega
    rw [if_neg hne]
    have hl : v.getLast? = some (v.getD (v.length - 1) 0) :=
      getLast?_of_length v (v.length - 1) (by omega)
    have := h.2 _ hl
    rw [h.1] at this
    simpa using this

/-- Counting one cell less, and trimming, keeps a counter vector tight. -/
theorem tightCounter_dec {v : List Int} {n n1 : Nat → Nat} (h : TightCounter v n) (i : Nat)
    (hn : ∀ j, n j = n1 j + if j = i then 1 else 0) :
    TightCounter (updateCounter v i (-1)) n1 := by
  have hi : i < v.length := tightCounter_lt_length h (by rw [hn i]; simp)
  have hupd : updateCounter v i (-1) =
      vecResize (vecAdd v i (-1)) (lastPositive (vecAdd v i (-1))) := by
    unfold updateCounter
    simp only [show ((-1 : Int) < 0) by decide, if_true]
    rw [if_neg (by omega)]
  have h2 : ∀ j, (vecAdd v i (-1)).getD j 0 = (n1 j : Int) := by
    intro j
    rw [getD_vecAdd _ _ _ _ hi, h.1 j, hn j]
    split_ifs <;> simp
  have hcount : ∀ j, (updateCounter v i (-1)).getD j 0 = (n1 j : Int) := by
    intro j
    rw [hupd, getD_vecResize]
    by_cases hj : j < lastPositive (vecAdd v i (-1))
    · rw [if_pos hj, h2]
    · rw [if_neg hj]
      have := lastPositive_beyond (vecAdd v i (-1)) j (by omega)
      rw [h2] at this
      omega
  refine ⟨hcount, ?_⟩
  intro x hx
  obtain ⟨hne, hx2⟩ := getLast?_eq_getD _ _ hx
  have hlen : (updateCounter v i (-1)).length = lastPositive (vecAdd v i (-1)) := by
    rw [hupd, length_vecResize]
  cases hk : lastPositive (vecAdd v i (-1)) with
  | zero =>
    rw [hk] at hlen
    exact absurd (List.length_eq_zero.1 hlen) hne
  | succ k =>
    rw [hk] at hlen
    have hpos := lastPositive_last _ k hk
    rw [h2] at hpos
    rw [hx2, hlen, hcount]
    simp only [Nat.add_sub_cancel]
    omega

theorem foldr_max_le {α : Type} (f : α → Nat) (l : List α) (B : Nat)
    (h : ∀ x ∈ l, f x ≤ B) : (l.map f).foldr max 0 ≤ B := by
  induction l with
  | nil => simp
  | cons a rest ih =>
    simp only [List.map_cons, List.foldr_cons]
    exact max_le (h a (by simp)) (ih (fun x hx => h x (List.mem_cons_of_mem _ hx)))

theorem le_foldr_max {α : Type} (f : α → Nat) (l : List α) (a : α) (ha : a ∈ l) :
    f a ≤ (l.map f).foldr max 0 := by
  induction l with
  | nil => simp at ha
  | cons b rest ih =>
    simp only [List.map_cons, List.foldr_cons]
    rcases List.mem_cons.1 ha with rfl | ha
    · exact le_max_left _ _
    · exact le_trans (ih ha) (le_max_right _ _)

/-- The length of a tight counter vector is one more than the largest index counted. -/
theorem tightCounter_length_eq {v : List Int} {ks : List Position} (g : Position → Nat)
    (h : TightCounter v (fun i => (ks.filter (fun p => decide (g p = i))).length)) :
    v.length = (ks.map (fun p => g p + 1)).foldr max 0 := by
  apply le_antisymm
  · cases hlen : v.length with
    | zero => exact Nat.zero_le _
    | succ k =>
      have hl := getLast?_of_length v k hlen
      have hne := h.2 _ hl
      rw [h.1 k] at hne
      have hpos : 0 < (ks.filter (fun p => decide (g p = k))).length := by
        simp only [ne_eq, Nat.cast_eq_zero] at hne
        omega
      obtain ⟨p, hp⟩ := List.exists_mem_of_length_pos hpos
      rw [List.mem_filter] at hp
      have hle : g p + 1 ≤ (ks.map (fun p => g p + 1)).foldr max 0 :=
        le_foldr_max (fun p => g p + 1) ks p hp.1
      simp only [decide_eq_true_eq] at hp
      omega
  · apply foldr_max_le
    intro p hp
    have hpos : 0 < (ks.filter (fun q => decide (g q = g p))).length := by
      apply @List.length_pos_of_mem _ p
      rw [List.mem_filter]
      exact ⟨hp, by simp⟩
    have hlt : g p < v.length := @tightCounter_lt_length v _ h (g p) hpos
    show g p + 1 ≤ v.length
    omega

theorem mapFind_none_not_mem {l : List (Position × Cell)} {p : Position}
    (h : mapFind l p = none) : p ∉ l.map Prod.fst := by
  induction l with
  | nil => simp
  | cons e rest ih =>
    unfold mapFind at h
    by_cases he : e.1 = p
    · rw [if_pos he] at h; simp at h
    · rw [if_neg he] at h
      simp only [List.map_cons, List.mem_cons, not_or]
      exact ⟨fun hp => he hp.symm, ih h⟩

theorem mapFind_some_of_mem {l : List (Position × Cell)} {p : Position}
    (h : p ∈ l.map Prod.fst) : ∃ c, mapFind l p = some c := by
  cases hc : mapFind l p with
  | none => exact absurd h (mapFind_none_not_mem hc)
  | some c => exact ⟨c, rfl⟩

theorem Sheet.countersTight_congr {s s1 : Sheet} (hk : s1.keys = s.keys)
    (hr : s1.counter_in_row_ = s.counter_in_row_) (hc : s1.counter_in_col_ = s.counter_in_col_)
    (h : s.CountersTight) : s1.CountersTight := by
  unfold Sheet.CountersTight Sheet.rowCount Sheet.colCount at *
  rw [hk, hr, hc]
  exact h

theorem Sheet.countersTight_modifyCell {s : Sheet} (pos : Position) (f : Cell → Cell)
    (h : s.CountersTight) : (s.modifyCell pos f).CountersTight :=
  Sheet.countersTight_congr (Sheet.keys_modifyCell s pos f) rfl rfl h

theorem Sheet.countersTight_materialize {s : Sheet} (pos : Position) (h : s.CountersTight) :
    (s.materialize pos).CountersTight := by
  cases hc : s.cellAt pos with
  | some c => rw [Sheet.materialize_of_stored hc]; exact h
  | none =>
    rw [Sheet.materialize_of_absent hc]
    obtain ⟨hnd, hrow, hcol⟩ := h
    refine ⟨?_, ?_, ?_⟩
    · show (pos :: s.keys).Nodup
      exact List.nodup_cons.2 ⟨mapFind_none_not_mem hc, hnd⟩
    · apply tightCounter_inc hrow pos.row
      intro j
      show ((pos :: s.keys).filter (fun p => decide (p.row = j))).length = _
      unfold Sheet.rowCount
      by_cases hj : j = pos.row
      · subst hj; simp
      · have : ¬ pos.row = j := fun h => hj h.symm
        simp [List.filter_cons, this, hj]
    · apply tightCounter_inc hcol pos.col
      intro j
      show ((pos :: s.keys).filter (fun p => decide (p.col = j))).length = _
      unfold Sheet.colCount
      by_cases hj : j = pos.col
      · subst hj; simp
      · have : ¬ pos.col = j := fun h => hj h.symm
        simp [List.filter_cons, this, hj]

theorem AddReverseRefLoop_countersTight (self : Position) (l : List Position) :
    ∀ s : Sheet, s.CountersTight → (Cell.AddReverseRefLoop self s l).1.CountersTight := by
  induction l with
  | nil => intro s h; exact h
  | cons pos rest ih =>
    intro s h
    rw [AddReverseRefLoop_cons]
    split_ifs
    · exact ih _ (Sheet.countersTight_modifyCell _ _ (Sheet.countersTight_materialize pos h))
    · exact h

/-- The function `Cell::Set` keeps the size invariant, however it leaves. -/
theorem Set_countersTight (parse : String → Option FormulaAST) {s : Sheet} (self : Position)
    (text : String) (h : s.CountersTight) : (Cell.Set parse s self text).1.CountersTight := by
  cases hcell : s.cellAt self with
  | none => rw [Set_absent hcell]; exact h
  | some cell =>
    by_cases hne : text = cell.GetText
    · rw [Set_same hcell hne]; exact h
    · have hrem : ∀ impl,
          (Cell.RemoveReverseRef self (s.setImpl self impl) cell.GetReferencedCells).1.CountersTight := by
        intro impl
        obtain ⟨hk, hr, hc⟩ := RemoveReverseRef_frame self cell.GetReferencedCells
          (s.setImpl self impl)
        exact Sheet.countersTight_congr hk hr hc (Sheet.countersTight_modifyCell _ _ h)
      rcases Set_stages parse hcell hne with
        ⟨ex1, _, h1⟩ | ⟨impl, _, ⟨s2, ex1, h2, h1⟩ | ⟨s2, h2, ⟨s3, ex1, h3, h1⟩ | ⟨s3, h3, h1⟩⟩⟩
      · rw [h1]; exact h
      · rw [h1]
        have := hrem impl
        rw [h2] at this
        exact this
      · rw [h1]
        have h4 := hrem impl
        rw [h2] at h4
        have := AddReverseRefLoop_countersTight self (s2.refsAt self) s2 h4
        unfold Cell.AddReverseRef at h3
        rw [h3] at this
        exact this
      · rw [h1]
        have h4 := hrem impl
        rw [h2] at h4
        have h5 := AddReverseRefLoop_countersTight self (s2.refsAt self) s2 h4
        unfold Cell.AddReverseRef at h3
        rw [h3] at h5
        obtain ⟨_, proc, _, _, _, _, _, _, hk, hr, hc⟩ := InvalidateCache_spec s3 self
        exact Sheet.countersTight_congr hk hr hc h5

theorem SetCell_countersTight (parse : String → Option FormulaAST) {s : Sheet} (pos : Position)
    (text : String) (h : s.CountersTight) : (Sheet.SetCell parse s pos text).1.CountersTight := by
  by_cases hv : pos.IsValid = true
  · rw [SetCell_valid hv]
    exact Set_countersTight parse pos text (Sheet.countersTight_materialize pos h)
  · rw [SetCell_invalid hv]; exact h

theorem filter_ne_length {ks : List Position} (hnd : ks.Nodup) {pos : Position}
    (hmem : pos ∈ ks) (P : Position → Bool) :
    (ks.filter P).length =
      ((ks.filter (fun p => decide (p ≠ pos))).filter P).length + if P pos = true then 1 else 0 := by
  induction ks with
  | nil => simp at hmem
  | cons a rest ih =>
    have hnd2 := (List.nodup_cons.1 hnd).2
    have ha := (List.nodup_cons.1 hnd).1
    by_cases hap : a = pos
    · subst hap
      have hrest : rest.filter (fun p => decide (p ≠ a)) = rest := by
        apply List.filter_eq_self.2
        intro x hx
        simp only [ne_eq, decide_not, Bool.not_eq_true', decide_eq_false_iff_not]
        rintro rfl
        exact ha hx
      have e : (a :: rest).filter (fun p => decide (p ≠ a)) = rest := by
        rw [List.filter_cons_of_neg (by simp), hrest]
      rw [e]
      by_cases hP : P a = true
      · rw [List.filter_cons_of_pos hP, if_pos hP]; simp
      · rw [List.filter_cons_of_neg hP, if_neg hP]; simp
    · have hmem2 : pos ∈ rest := by
        rcases List.mem_cons.1 hmem with h | h
        · exact absurd h.symm hap
        · exact h
      have := ih hnd2 hmem2
      have e : (a :: rest).filter (fun p => decide (p ≠ pos)) =
          a :: rest.filter (fun p => decide (p ≠ pos)) :=
        List.filter_cons_of_pos (by simpa using hap)
      rw [e]
      by_cases hP : P a = true
      · rw [List.filter_cons_of_pos hP, List.filter_cons_of_pos hP]
        simp only [List.length_cons]
        omega
      · rw [List.filter_cons_of_neg hP, List.filter_cons_of_neg hP]
        exact this

theorem Sheet.keys_erase (s : Sheet) (pos : Position) :
    (s.erase pos).keys = s.keys.filter (fun p => decide (p ≠ pos)) := by
  unfold Sheet.keys Sheet.erase
  simp only
  induction s.sheet_ with
  | nil => rfl
  | cons e rest ih =>
    by_cases he : e.1 = pos
    · rw [List.filter_cons_of_neg (by simp [he]), List.map_cons,
        List.filter_cons_of_neg (by simp [he]), ih]
    · rw [List.filter_cons_of_pos (by simp [he]), List.map_cons, List.map_cons,
        List.filter_cons_of_pos (by simp [he]), ih]

/-- Removing a stored cell and counting it off keeps the size invariant. -/
theorem Sheet.countersTight_erase {s : Sheet} {pos : Position} {c : Cell}
    (hc : s.cellAt pos = some c) (h : s.CountersTight) :
    (Sheet.UpdateSizeSheet (s.erase pos) pos (-1)).CountersTight := by
  obtain ⟨hnd, hrow, hcol⟩ := h
  have hmem := Sheet.mem_keys_of_cellAt hc
  refine ⟨?_, ?_, ?_⟩
  · show (s.erase pos).keys.Nodup
    rw [Sheet.keys_erase]
    exact hnd.filter _
  · apply tightCounter_dec hrow pos.row
    intro j
    show s.rowCount j = ((s.erase pos).keys.filter (fun p => decide (p.row = j))).length + _
    rw [Sheet.keys_erase]
    unfold Sheet.rowCount
    rw [filter_ne_length hnd hmem (fun p => decide (p.row = j))]
    by_cases hj : j = pos.row
    · subst hj; simp
    · have : ¬ pos.row = j := fun h => hj h.symm
      simp [hj, this]
  · apply tightCounter_dec hcol pos.col
    intro j
    show s.colCount j = ((s.erase pos).keys.filter (fun p => decide (p.col = j))).length + _
    rw [Sheet.keys_erase]
    unfold Sheet.colCount
    rw [filter_ne_length hnd hmem (fun p => decide (p.col = j))]
    by_cases hj : j = pos.col
    · subst hj; simp
    · have : ¬ pos.col = j := fun h => hj h.symm
      simp [hj, this]

theorem ClearCell_countersTight (parse : String → Option FormulaAST) {s : Sheet}
    (pos : Position) (h : s.CountersTight) : (Sheet.ClearCell parse s pos).1.CountersTight := by
  rw [ClearCell_eq]
  have h1 := Set_countersTight parse pos "" h
  split_ifs
  · cases hc : s.cellAt pos with
    | none => exact h
    | some c =>
      simp only
      cases hr : (Cell.Set parse s pos "").2 with
      | some e => exact h1
      | none =>
        simp only
        cases hc1 : (Cell.Set parse s pos "").1.cellAt pos with
        | none => exact h1
        | some cell =>
          simp only
          by_cases href : cell.IsReferenced = true
          · rw [if_pos href]; exact h1
          · rw [if_neg href]
            exact Sheet.countersTight_erase hc1 h1
  · exact h

theorem Sheet.countersTight_empty : Sheet.empty.CountersTight := by
  refine ⟨List.nodup_nil, ⟨?_, ?_⟩, ⟨?_, ?_⟩⟩ <;>
    simp [Sheet.empty, Sheet.rowCount, Sheet.colCount, Sheet.keys]

theorem reachable_countersTight {parse : String → Option FormulaAST} {s : Sheet}
    (h : Reachable parse s) : s.CountersTight := by
  induction h with
  | empty => exact Sheet.countersTight_empty
  | setCell s pos text _ ih => exact SetCell_countersTight parse pos text ih
  | clearCell s pos _ ih => exact ClearCell_countersTight parse pos ih


/-! ## Properties of the stored implementations -/

/-- The stored cells after a `Cell::Set` that went through all its stages. -/
theorem Set_success_cellAt {s s2 s3 : Sheet} {self : Position} {cell : Cell} {impl : Impl}
    (hcell : s.cellAt self = some cell)
    (h2 : Cell.RemoveReverseRef self (s.setImpl self impl) cell.GetReferencedCells = (s2, none))
    (h3 : Cell.AddReverseRefLoop self s2 impl.GetReferencedCells = (s3, none))
    (q : Position) (c : Cell) (hq : (Cell.InvalidateCache s3 self).1.cellAt q = some c) :
    (c.impl_ = .EmptyImpl ∧ s.cellAt q = none ∧ q ∈ impl.GetReferencedCells) ∨
    (q = self ∧ (c.impl_ = impl ∨ c.impl_ = impl.InvalidateCache)) ∨
    (q ≠ self ∧ ∃ c0, s.cellAt q = some c0 ∧
      (c.impl_ = c0.impl_ ∨ c.impl_ = c0.impl_.InvalidateCache)) := by
  obtain ⟨_, proc, hr, _⟩ := InvalidateCache_spec s3 self
  have e2 : (Cell.RemoveReverseRef self (s.setImpl self impl) cell.GetReferencedCells).2 = none := by
    rw [h2]
  have e3 : (Cell.AddReverseRefLoop self s2 impl.GetReferencedCells).2 = none := by rw [h3]
  have a3 := AddReverseRefLoop_cellAt self _ _ e3 q
  have a2 := RemoveReverseRef_cellAt self _ _ e2 q
  rw [h3] at a3; rw [h2] at a2
  simp only at a3 a2
  rw [Sheet.cellAt_setImpl] at a2
  have h1 : ∃ c1, s3.cellAt q = some c1 ∧
      (c.impl_ = c1.impl_ ∨ c.impl_ = c1.impl_.InvalidateCache) := by
    rw [hr q] at hq
    cases hc3 : s3.cellAt q with
    | none => rw [hc3] at hq; simp at hq
    | some c1 =>
      rw [hc3] at hq
      refine ⟨c1, rfl, ?_⟩
      split_ifs at hq
      · simp only [Option.map_some', Option.some.injEq] at hq
        right; rw [← hq]; rfl
      · simp only [Option.some.injEq] at hq
        left; rw [hq]
  obtain ⟨c1, hc1, hc⟩ := h1
  have h0 : ∀ c2, s2.cellAt q = some c2 →
      (q = self ∧ c2.impl_ = impl) ∨ (q ≠ self ∧ ∃ c0, s.cellAt q = some c0 ∧ c2.impl_ = c0.impl_) := by
    intro c2 hc2
    rw [a2] at hc2
    by_cases hqs : q = self
    · left
      refine ⟨hqs, ?_⟩
      subst hqs
      rw [if_pos rfl, hcell] at hc2
      split_ifs at hc2
      · simp only [Option.map_some', Option.some.injEq] at hc2
        rw [← hc2]; rfl
      · simp only [Option.map_some', Option.some.injEq] at hc2
        rw [← hc2]
    · right
      refine ⟨hqs, ?_⟩
      rw [if_neg hqs] at hc2
      cases hc0 : s.cellAt q with
      | none => rw [hc0] at hc2; simp at hc2
      | some c0 =>
        rw [hc0] at hc2
        refine ⟨c0, rfl, ?_⟩
        split_ifs at hc2
        · simp only [Option.map_some', Option.some.injEq] at hc2
          rw [← hc2]; rfl
        · simp only [Option.some.injEq] at hc2
          rw [hc2]
  rw [a3] at hc1
  cases hc2 : s2.cellAt q with
  | none =>
    left
    rw [hc2] at hc1
    by_cases hN : q ∈ impl.GetReferencedCells
    · rw [if_pos hN] at hc1
      simp only [Option.getD_none, Option.some.injEq] at hc1
      have himp : c1.impl_ = .EmptyImpl := by rw [← hc1]; rfl
      rw [himp] at hc
      refine ⟨by rcases hc with h | h <;> rw [h] <;> rfl, ?_, hN⟩
      rw [a2] at hc2
      by_cases hqs : q = self
      · subst hqs
        rw [if_pos rfl, hcell] at hc2
        split_ifs at hc2 <;> simp at hc2
      · rw [if_neg hqs] at hc2
        cases hc0 : s.cellAt q with
        | none => rfl
        | some c0 => rw [hc0] at hc2; split_ifs at hc2 <;> simp at hc2
    · rw [if_neg hN] at hc1; simp at hc1
  | some c2 =>
    right
    have himp : c1.impl_ = c2.impl_ := by
      rw [hc2] at hc1
      split_ifs at hc1
      · simp only [Option.getD_some, Option.some.injEq] at hc1
        rw [← hc1]; rfl
      · simp only [Option.some.injEq] at hc1
        rw [hc1]
    rw [himp] at hc
    rcases h0 c2 hc2 with ⟨hqs, hi⟩ | ⟨hqs, c0, hc0, hi⟩
    · left; rw [hi] at hc; exact ⟨hqs, hc⟩
    · right; rw [hi] at hc; exact ⟨hqs, c0, hc0, hc⟩

/-- A property of implementations that holds of the empty implementation, survives a cache
reset and holds of every implementation `Cell::Set` chooses, holds of every stored cell after
`Cell::Set`. -/
theorem Set_impl_inv (parse : String → Option FormulaAST) (Q : Impl → Prop)
    (hE : Q .EmptyImpl) (hI : ∀ i, Q i → Q i.InvalidateCache) {s : Sheet} (self : Position)
    (text : String) (hrefs : s.RefsValid)
    (hnew : ∀ impl, NewImpl parse s self text impl → Q impl)
    (hall : ∀ q c, s.cellAt q = some c → Q c.impl_) :
    ∀ q c, (Cell.Set parse s self text).1.cellAt q = some c → Q c.impl_ := by
  cases hcell : s.cellAt self with
  | none => rw [Set_absent hcell]; exact hall
  | some cell =>
    by_cases hne : text = cell.GetText
    · rw [Set_same hcell hne]; exact hall
    · have hold : ∀ p ∈ cell.GetReferencedCells, p.IsValid = true := by
        intro p hp
        exact hrefs self p ((Sheet.edge_of_cellAt hcell).2 hp)
      rcases Set_total parse hcell hne hold with
        ⟨ex, _, h1⟩ | ⟨impl, s2, s3, himpl, h2, h3, h1⟩
      · rw [h1]; exact hall
      · rw [h1]
        intro q c hq
        rcases Set_success_cellAt hcell h2 h3 q c hq with
          ⟨h, _, _⟩ | ⟨_, h | h⟩ | ⟨_, c0, hc0, h | h⟩
        · rw [h]; exact hE
        · rw [h]; exact hnew impl himpl
        · rw [h]; exact hI _ (hnew impl himpl)
        · rw [h]; exact hall q c0 hc0
        · rw [h]; exact hI _ (hall q c0 hc0)

theorem Sheet.impl_inv_materialize (Q : Impl → Prop) (hE : Q .EmptyImpl) {s : Sheet}
    (pos : Position) (hall : ∀ q c, s.cellAt q = some c → Q c.impl_) :
    ∀ q c, (s.materialize pos).cellAt q = some c → Q c.impl_ := by
  intro q c hq
  rw [Sheet.cellAt_materialize] at hq
  by_cases hqp : q = pos
  · rw [if_pos hqp] at hq
    simp only [Option.some.injEq] at hq
    cases hc : s.cellAt pos with
    | none => rw [hc] at hq; rw [← hq]; exact hE
    | some c0 => rw [hc] at hq; rw [← hq]; exact hall pos c0 hc
  · rw [if_neg hqp] at hq; exact hall q c hq

/-- A property of implementations that holds of the empty implementation, of the literal
implementations with non-empty text and of the formulas the parser returns, and survives a
cache reset, holds of every cell of every reachable state. -/
theorem reachable_impl_inv {parse : String → Option FormulaAST} (Q : Impl → Prop)
    (hE : Q .EmptyImpl) (hI : ∀ i, Q i → Q i.InvalidateCache)
    (hT : ∀ text, text ≠ "" → Q (.TextImpl text))
    (hF : ∀ e f, ParseFormula parse e = some f → Q (.FormulaImpl f none))
    {s : Sheet} (h : Reachable parse s) : ∀ q c, s.cellAt q = some c → Q c.impl_ := by
  have hnew : ∀ (s : Sheet) (self : Position) (text : String) (impl : Impl),
      NewImpl parse s self text impl → Q impl := by
    intro s self text impl himpl
    rcases himpl with ⟨rfl, _⟩ | ⟨rfl, h1, _⟩ | ⟨e, f, _, h2, rfl, _⟩
    · exact hE
    · exact hT text h1
    · exact hF e f h2
  induction h with
  | empty => intro q c hq; simp [Sheet.cellAt, Sheet.empty, mapFind] at hq
  | setCell s pos text hs ih =>
    by_cases hv : pos.IsValid = true
    · rw [SetCell_valid hv]
      exact Set_impl_inv parse Q hE hI pos text
        (Sheet.graphInv_materialize pos (reachable_graphInv hs)).1 (hnew _ pos text)
        (Sheet.impl_inv_materialize Q hE pos ih)
    · rw [SetCell_invalid hv]; exact ih
  | clearCell s pos hs ih =>
    have h1 := Set_impl_inv parse Q hE hI pos "" (reachable_graphInv hs).1 (hnew _ pos "") ih
    rw [ClearCell_eq]
    split_ifs
    · cases hc : s.cellAt pos with
      | none => exact ih
      | some c =>
        simp only
        cases hr : (Cell.Set parse s pos "").2 with
        | some e => exact h1
        | none =>
          simp only
          cases hc1 : (Cell.Set parse s pos "").1.cellAt pos with
          | none => exact h1
          | some cell =>
            simp only
            by_cases href : cell.IsReferenced = true
            · rw [if_pos href]; exact h1
            · rw [if_neg href]
              intro q c hq
              rw [Sheet.cellAt_UpdateSizeSheet, Sheet.cellAt_erase] at hq
              split_ifs at hq
              exact h1 q c hq
    · exact ih


/-! ## Clearing a cell -/

/-- In a reachable state a cell whose text is empty is an empty cell. -/
theorem reachable_text_empty {parse : String → Option FormulaAST} {s : Sheet}
    (h : Reachable parse s) {q : Position} {c : Cell} (hc : s.cellAt q = some c)
    (ht : c.GetText = "") : c.impl_ = .EmptyImpl := by
  have := reachable_impl_inv (fun i => i.GetText = "" → i = .EmptyImpl) (fun _ => rfl)
    (fun i hi ht => by
      rw [Impl.GetText_InvalidateCache] at ht
      rw [hi ht]; rfl)
    (fun text hne ht => absurd ht hne)
    (fun e f _ ht => by
      exfalso
      have h1 := congrArg String.data ht
      simp [Impl.GetText] at h1)
    h q c hc
  exact this ht

/-- What `Cell::Clear` leaves at the cell, in a state that satisfies the graph invariant:
the call returns normally, the counters and the stored positions are as before, the cell is
still stored, it has the reverse references it had, and it has no references. -/
theorem Clear_spec (parse : String → Option FormulaAST) {s : Sheet} {pos : Position} {c : Cell}
    (hinv : s.GraphInv) (hc : s.cellAt pos = some c) :
    (Cell.Set parse s pos "").2 = none ∧
    (Cell.Set parse s pos "").1.counter_in_row_ = s.counter_in_row_ ∧
    (Cell.Set parse s pos "").1.counter_in_col_ = s.counter_in_col_ ∧
    ∃ c1, (Cell.Set parse s pos "").1.cellAt pos = some c1 ∧
      (c1.impl_ = .EmptyImpl ∨ (c1.impl_ = c.impl_ ∧ c.GetText = "")) ∧
      (∀ b, b ∈ c1.reverse_ref_ ↔ b ∈ c.reverse_ref_) := by
  by_cases hne : "" = c.GetText
  · rw [Set_same hc hne]
    exact ⟨rfl, rfl, rfl, c, hc, Or.inr ⟨rfl, hne.symm⟩, fun _ => Iff.rfl⟩
  · have hold : ∀ p ∈ c.GetReferencedCells, p.IsValid = true := by
      intro p hp
      exact hinv.1 pos p ((Sheet.edge_of_cellAt hc).2 hp)
    rcases Set_total parse hc hne hold with
      ⟨ex, h0, _⟩ | ⟨impl, s2, s3, himpl, h2, h3, h1⟩
    · obtain ⟨_, e, hbody, _⟩ := SetImpl_err h0
      rw [formulaBody_empty] at hbody; simp at hbody
    · have himp : impl = .EmptyImpl := by
        rcases himpl with ⟨h, _⟩ | ⟨_, h4, _⟩ | ⟨e, f, h4, _⟩
        · exact h
        · exact absurd rfl h4
        · rw [formulaBody_empty] at h4; simp at h4
      subst himp
      have h3b : s3 = s2 := by
        simp [Impl.GetReferencedCells, Cell.AddReverseRefLoop] at h3
        exact h3.symm
      subst h3b
      obtain ⟨hok, proc, hr, _, _, _, _, _, _, hrow, hcol⟩ := InvalidateCache_spec s3 pos
      obtain ⟨_, hrow2, hcol2⟩ := RemoveReverseRef_frame pos c.GetReferencedCells
        (s.setImpl pos .EmptyImpl)
      rw [h2] at hrow2 hcol2
      rw [h1]
      refine ⟨hok, hrow.trans hrow2, hcol.trans hcol2, ?_⟩
      have hrev := (Set_success_edges hc h2 h3).2 pos
      cases hc1 : (Cell.InvalidateCache s3 pos).1.cellAt pos with
      | none =>
        exfalso
        have e2 : (Cell.RemoveReverseRef pos (s.setImpl pos .EmptyImpl)
            c.GetReferencedCells).2 = none := by rw [h2]
        have a2 := RemoveReverseRef_cellAt pos _ _ e2 pos
        rw [h2] at a2
        simp only at a2
        rw [Sheet.cellAt_setImpl, if_pos rfl, hc] at a2
        rw [hr pos, a2] at hc1
        split_ifs at hc1 <;> simp at hc1
      | some c1 =>
        refine ⟨c1, rfl, ?_, ?_⟩
        · left
          rcases Set_success_cellAt hc h2 h3 pos c1 hc1 with
            ⟨h, _, _⟩ | ⟨_, h | h⟩ | ⟨hq, _⟩
          · exact h
          · exact h
          · rw [h]; rfl
          · exact absurd rfl hq
        · intro b
          have := hrev b
          simp only [Sheet.reverseAt, hc1, hc] at this
          rw [this]
          constructor
          · rintro (⟨h, _⟩ | ⟨h, _⟩)
            · simp [Impl.GetReferencedCells] at h
            · exact h
          · intro hb
            refine Or.inr ⟨hb, ?_⟩
            rintro ⟨hself, _⟩
            exact hinv.2.1 pos (Relation.TransGen.single ((Sheet.edge_of_cellAt hc).2 hself))

theorem Sheet.rowCount_erase {s : Sheet} {pos : Position} {c : Cell}
    (hc : s.cellAt pos = some c) (hnd : s.keys.Nodup) (j : Nat) :
    s.rowCount j = (s.erase pos).rowCount j + if j = pos.row then 1 else 0 := by
  unfold Sheet.rowCount
  rw [Sheet.keys_erase,
    filter_ne_length hnd (Sheet.mem_keys_of_cellAt hc) (fun p => decide (p.row = j))]
  by_cases hj : j = pos.row
  · subst hj; simp
  · have : ¬ pos.row = j := fun h => hj h.symm
    simp [hj, this]

theorem Sheet.colCount_erase {s : Sheet} {pos : Position} {c : Cell}
    (hc : s.cellAt pos = some c) (hnd : s.keys.Nodup) (j : Nat) :
    s.colCount j = (s.erase pos).colCount j + if j = pos.col then 1 else 0 := by
  unfold Sheet.colCount
  rw [Sheet.keys_erase,
    filter_ne_length hnd (Sheet.mem_keys_of_cellAt hc) (fun p => decide (p.col = j))]
  by_cases hj : j = pos.col
  · subst hj; simp
  · have : ¬ pos.col = j := fun h => hj h.symm
    simp [hj, this]

/-- Counting one cell off a tight counter vector lowers the entry of its index by one and
leaves the others. -/
theorem getD_updateCounter_dec {v : List Int} {n n1 : Nat → Nat} (h : TightCounter v n)
    (i : Nat) (hn : ∀ j, n j = n1 j + if j = i then 1 else 0) (j : Nat) :
    (updateCounter v i (-1)).getD j 0 = v.getD j 0 - if j = i then 1 else 0 := by
  rw [(tightCounter_dec h i hn).1 j, h.1 j, hn j]
  split_ifs <;> simp


/-! ## The value semantics -/

theorem execDen_mono_answers {val val1 : Position → Option (Option Value)}
    (h : ∀ p x, val p = some x → val1 p = some x) :
    ∀ (e : Exec) (v : Value), e.den val = some v → e.den val1 = some v := by
  intro e
  induction e with
  | ret w => intro v hv; exact hv
  | ask p k ih =>
    intro v hv
    unfold Exec.den at hv ⊢
    by_cases hp : p.IsValid = true
    · rw [if_pos hp] at hv ⊢
      cases hvp : val p with
      | none => rw [hvp] at hv; simp at hv
      | some ov =>
        rw [hvp] at hv
        rw [h p ov hvp]
        exact ih ov v hv
    · rw [if_neg hp] at hv; simp at hv

theorem Sheet.den_succ (s : Sheet) (fuel : Nat) (pos : Position) :
    s.den (fuel + 1) pos =
      match s.cellAt pos with
      | none => some none
      | some c =>
        match c.impl_ with
        | .EmptyImpl => some (some (.number 0))
        | .TextImpl text_ => some (some (TextImpl_GetValue text_))
        | .FormulaImpl formula_ _ =>
          (formula_.ast_.exec.den (s.den fuel)).map (fun r => some (formulaResult r)) := rfl

theorem Sheet.den_mono_succ (s : Sheet) (fuel : Nat) :
    ∀ p x, s.den fuel p = some x → s.den (fuel + 1) p = some x := by
  induction fuel with
  | zero => intro p x h; simp [Sheet.den] at h
  | succ fuel ih =>
    intro p x h
    rw [Sheet.den_succ] at h ⊢
    cases hc : s.cellAt p with
    | none => rw [hc] at h; exact h
    | some c =>
      rw [hc] at h
      simp only at h ⊢
      cases hi : c.impl_ with
      | EmptyImpl => rw [hi] at h; exact h
      | TextImpl t => rw [hi] at h; exact h
      | FormulaImpl f cache =>
        rw [hi] at h
        simp only at h ⊢
        cases hd : f.ast_.exec.den (s.den fuel) with
        | none => rw [hd] at h; simp at h
        | some r =>
          rw [hd] at h
          rw [execDen_mono_answers ih _ r hd]
          exact h

theorem sheetDen_mono (s : Sheet) {fuel fuel1 : Nat} (hle : fuel ≤ fuel1) :
    ∀ p x, s.den fuel p = some x → s.den fuel1 p = some x := by
  induction hle with
  | refl => intro p x h; exact h
  | step _ ih => intro p x h; exact Sheet.den_mono_succ s _ p x (ih p x h)

theorem Sheet.exec_den_mono (s : Sheet) {fuel fuel1 : Nat} (hle : fuel ≤ fuel1) (e : Exec)
    (v : Value) (h : e.den (s.den fuel) = some v) : e.den (s.den fuel1) = some v :=
  execDen_mono_answers (sheetDen_mono s hle) e v h

/-- The result of an execution is determined: two depths that suffice give the same value. -/
theorem Sheet.exec_den_unique (s : Sheet) {fuel fuel1 : Nat} (e : Exec) {v v1 : Value}
    (h : e.den (s.den fuel) = some v) (h1 : e.den (s.den fuel1) = some v1) : v = v1 := by
  have a := Sheet.exec_den_mono s (Nat.le_max_left fuel fuel1) e v h
  have b := Sheet.exec_den_mono s (Nat.le_max_right fuel fuel1) e v1 h1
  rw [a] at b
  exact Option.some.inj b

/-- Locality: an execution that asks only for positions on which two answer functions agree
has the same result under both. -/
theorem execDen_congr_answers {val val1 : Position → Option (Option Value)} {R : List Position}
    (h : ∀ p ∈ R, val1 p = val p) : ∀ e : Exec, e.AsksOnly R → e.den val1 = e.den val := by
  intro e
  induction e with
  | ret w => intro _; rfl
  | ask p k ih =>
    intro hask
    unfold Exec.AsksOnly at hask
    unfold Exec.den
    rw [h p hask.1]
    by_cases hp : p.IsValid = true
    · rw [if_pos hp, if_pos hp]
      cases val p with
      | none => rfl
      | some ov => exact ih ov (hask.2 ov)
    · rw [if_neg hp, if_neg hp]

theorem sameImpl_cases {o1 o2 : Option Cell} (h : SameImpl o1 o2) :
    (o1 = none ∧ o2 = none) ∨
    ∃ c1 c2, o1 = some c1 ∧ o2 = some c2 ∧
      c1.impl_.InvalidateCache = c2.impl_.InvalidateCache := by
  unfold SameImpl at h
  cases o1 with
  | none =>
    cases o2 with
    | none => exact Or.inl ⟨rfl, rfl⟩
    | some c2 => simp at h
  | some c1 =>
    cases o2 with
    | none => simp at h
    | some c2 =>
      simp only [Option.map_some', Option.some.injEq] at h
      exact Or.inr ⟨c1, c2, rfl, rfl, h⟩

/-- Locality of the value semantics: on a set of positions closed under forward references,
on which two sheets store the same implementations up to caches and the formulas ask only for
their referenced cells, the two sheets give the same values. -/
theorem sheetDen_congr {s s1 : Sheet} (C : Position → Prop)
    (hclosed : ∀ q r, C q → s1.Edge q r → C r)
    (hsame : ∀ q, C q → SameImpl (s1.cellAt q) (s.cellAt q))
    (hasks : ∀ q c f cache, C q → s1.cellAt q = some c → c.impl_ = .FormulaImpl f cache →
      f.ast_.exec.AsksOnly f.GetReferencedCells)
    (fuel : Nat) : ∀ q, C q → s1.den fuel q = s.den fuel q := by
  induction fuel with
  | zero => intro q _; rfl
  | succ fuel ih =>
    intro q hq
    rw [Sheet.den_succ, Sheet.den_succ]
    rcases sameImpl_cases (hsame q hq) with ⟨h1, h2⟩ | ⟨c1, c2, h1, h2, himpl⟩
    · rw [h1, h2]
    · rw [h1, h2]
      simp only
      cases hi1 : c1.impl_ with
      | EmptyImpl =>
        rw [hi1] at himpl
        cases hi2 : c2.impl_ with
        | EmptyImpl => rfl
        | TextImpl t => rw [hi2] at himpl; simp [Impl.InvalidateCache] at himpl
        | FormulaImpl f cache => rw [hi2] at himpl; simp [Impl.InvalidateCache] at himpl
      | TextImpl t1 =>
        rw [hi1] at himpl
        cases hi2 : c2.impl_ with
        | EmptyImpl => rw [hi2] at himpl; simp [Impl.InvalidateCache] at himpl
        | TextImpl t =>
          rw [hi2] at himpl
          simp only [Impl.InvalidateCache, Impl.TextImpl.injEq] at himpl
          rw [himpl]
        | FormulaImpl f cache => rw [hi2] at himpl; simp [Impl.InvalidateCache] at himpl
      | FormulaImpl f1 cache1 =>
        rw [hi1] at himpl
        cases hi2 : c2.impl_ with
        | EmptyImpl => rw [hi2] at himpl; simp [Impl.InvalidateCache] at himpl
        | TextImpl t => rw [hi2] at himpl; simp [Impl.InvalidateCache] at himpl
        | FormulaImpl f cache =>
          rw [hi2] at himpl
          simp only [Impl.InvalidateCache, Impl.FormulaImpl.injEq, and_true] at himpl
          subst himpl
          simp only
          have hask := hasks q c1 f1 cache1 hq h1 hi1
          have hloc : ∀ p ∈ f1.GetReferencedCells, s1.den fuel p = s.den fuel p := by
            intro p hp
            apply ih p
            apply hclosed q p hq
            simp [Sheet.Edge, Sheet.refsAt, h1, Cell.GetReferencedCells, hi1,
              Impl.GetReferencedCells, hp]
          rw [execDen_congr_answers hloc _ hask]


/-! ## Filling caches -/

theorem cacheExt_refl (s : Sheet) : CacheExt s s :=
  ⟨rfl, rfl, rfl, fun _ => Or.inl rfl⟩

theorem cacheExt_sameImpl {s s1 : Sheet} (h : CacheExt s s1) (q : Position) :
    SameImpl (s1.cellAt q) (s.cellAt q) := by
  rcases h.2.2.2 q with h1 | ⟨c, f, v, hc, hi, hc1, _⟩
  · rw [h1]; rfl
  · unfold SameImpl
    rw [hc1, hc]
    simp [hi, Impl.InvalidateCache]

/-- The value semantics does not look at caches. -/
theorem Sheet.den_congr_all {s s1 : Sheet} (hsame : ∀ q, SameImpl (s1.cellAt q) (s.cellAt q))
    (fuel : Nat) : ∀ q, s1.den fuel q = s.den fuel q := by
  induction fuel with
  | zero => intro q; rfl
  | succ fuel ih =>
    intro q
    have hfun : s1.den fuel = s.den fuel := funext ih
    rw [Sheet.den_succ, Sheet.den_succ, hfun]
    rcases sameImpl_cases (hsame q) with ⟨h1, h2⟩ | ⟨c1, c2, h1, h2, himpl⟩
    · rw [h1, h2]
    · rw [h1, h2]
      simp only
      cases hi1 : c1.impl_ with
      | EmptyImpl =>
        rw [hi1] at himpl
        cases hi2 : c2.impl_ with
        | EmptyImpl => rfl
        | TextImpl t => rw [hi2] at himpl; simp [Impl.InvalidateCache] at himpl
        | FormulaImpl f cache => rw [hi2] at himpl; simp [Impl.InvalidateCache] at himpl
      | TextImpl t1 =>
        rw [hi1] at himpl
        cases hi2 : c2.impl_ with
        | EmptyImpl => rw [hi2] at himpl; simp [Impl.InvalidateCache] at himpl
        | TextImpl t =>
          rw [hi2] at himpl
          simp only [Impl.InvalidateCache, Impl.TextImpl.injEq] at himpl
          rw [himpl]
        | FormulaImpl f cache => rw [hi2] at himpl; simp [Impl.InvalidateCache] at himpl
      | FormulaImpl f1 cache1 =>
        rw [hi1] at himpl
        cases hi2 : c2.impl_ with
        | EmptyImpl => rw [hi2] at himpl; simp [Impl.InvalidateCache] at himpl
        | TextImpl t => rw [hi2] at himpl; simp [Impl.InvalidateCache] at himpl
        | FormulaImpl f cache =>
          rw [hi2] at himpl
          simp only [Impl.InvalidateCache, Impl.FormulaImpl.injEq, and_true] at himpl
          subst himpl
          rfl

theorem cacheExt_den {s s1 : Sheet} (h : CacheExt s s1) (fuel : Nat) :
    s1.den fuel = s.den fuel :=
  funext (Sheet.den_congr_all (cacheExt_sameImpl h) fuel)

theorem cacheExt_trans {s s1 s2 : Sheet} (h1 : CacheExt s s1) (h2 : CacheExt s1 s2) :
    CacheExt s s2 := by
  refine ⟨h2.1.trans h1.1, h2.2.1.trans h1.2.1, h2.2.2.1.trans h1.2.2.1, ?_⟩
  intro q
  rcases h2.2.2.2 q with e2 | ⟨c, f, v, hc, hi, hc2, ⟨fuel, hden⟩, hres⟩
  · rw [e2]; exact h1.2.2.2 q
  · rcases h1.2.2.2 q with e1 | ⟨c0, f0, v0, hc0, hi0, hc1, _⟩
    · right
      rw [e1] at hc
      refine ⟨c, f, v, hc, hi, hc2, ⟨fuel, ?_⟩, hres⟩
      rw [← cacheExt_den h1 fuel]; exact hden
    · rw [hc1] at hc
      simp only [Option.some.injEq] at hc
      rw [← hc] at hi
      simp at hi

theorem cacheExt_coherent {s s1 : Sheet} (hco : s.Coherent) (h : CacheExt s s1) :
    s1.Coherent := by
  intro p c1 f v hc1 hi1
  rcases h.2.2.2 p with e | ⟨c, f0, v0, hc, hi, hc1b, ⟨fuel, hden⟩, hres⟩
  · rw [e] at hc1
    obtain ⟨⟨fuel, hden⟩, hres⟩ := hco p c1 f v hc1 hi1
    refine ⟨⟨fuel, ?_⟩, hres⟩
    rw [cacheExt_den h fuel]; exact hden
  · rw [hc1b] at hc1
    simp only [Option.some.injEq] at hc1
    rw [← hc1] at hi1
    simp only [Impl.FormulaImpl.injEq, Option.some.injEq] at hi1
    obtain ⟨rfl, rfl⟩ := hi1
    refine ⟨⟨fuel, ?_⟩, hres⟩
    rw [cacheExt_den h fuel]; exact hden

/-- Storing a coherent value in the cache of a formula cell extends the caches. -/
theorem cacheExt_setCache {s s1 : Sheet} {self : Position} {c : Cell} {f : Formula} {v : Value}
    (h : CacheExt s s1) (hc : s.cellAt self = some c) (hi : c.impl_ = .FormulaImpl f none)
    (hden : ∃ fuel, f.ast_.exec.den (s.den fuel) = some v) (hres : formulaResult v = v) :
    CacheExt s (s1.setCache self v) := by
  refine ⟨(Sheet.keys_modifyCell _ _ _).trans h.1, h.2.1, h.2.2.1, ?_⟩
  intro q
  unfold Sheet.setCache
  rw [Sheet.cellAt_modifyCell]
  by_cases hq : q = self
  · subst hq
    rw [if_pos rfl]
    right
    refine ⟨c, f, v, hc, hi, ?_, hden, hres⟩
    rcases h.2.2.2 q with e | ⟨c0, f0, v0, hc0, hi0, hc1, _⟩
    · rw [e, hc]
      simp [hi]
    · rw [hc] at hc0
      simp only [Option.some.injEq] at hc0
      subst hc0
      rw [hi] at hi0
      simp only [Impl.FormulaImpl.injEq, and_true] at hi0
      subst hi0
      rw [hc1]
      simp
  · rw [if_neg hq]
    exact h.2.2.2 q

theorem GetValue_succ (fuel : Nat) (s : Sheet) (self : Position) :
    Cell.GetValue (fuel + 1) s self =
      match s.cellAt self with
      | none => (s, .ok (.number 0))
      | some cell =>
        match cell.impl_ with
        | .EmptyImpl => (s, .ok (.number 0))
        | .TextImpl text_ => (s, .ok (TextImpl_GetValue text_))
        | .FormulaImpl _ (some v) => (s, .ok v)
        | .FormulaImpl formula_ none =>
          match formula_.Evaluate (Cell.GetValue fuel) s with
          | (s1, .ok (.number d)) => (s1.setCache self (.number d), .ok (.number d))
          | (s1, .ok (.error e)) => (s1.setCache self (.error e), .ok (.error e))
          | (s1, .ok (.text _)) => (s1, .ok (.text "Not value"))
          | (s1, .error e) => (s1, .error e) := rfl

theorem Exec.run_ask (gv : Sheet → Position → Sheet × Except Exception Value) (p : Position)
    (k : Option Value → Exec) (s : Sheet) :
    (Exec.ask p k).run gv s =
      match s.GetCell p with
      | .error e => (s, .error e)
      | .ok none => (k none).run gv s
      | .ok (some _) =>
        match gv s p with
        | (s1, .ok v) => (k (some v)).run gv s1
        | (s1, .error e) => (s1, .error e) := by
  rw [Exec.run]
  all_goals
    cases s.GetCell p with
    | error e => rfl
    | ok o =>
      cases o with
      | none => rfl
      | some c =>
        simp only
        cases gv s p with
        | mk s1 r => cases r <;> rfl

/-- Soundness of an execution against the sheet: it only fills caches, and a value it returns
is the value of the execution in the value semantics. -/
theorem Exec.run_sound (gv : Sheet → Position → Sheet × Except Exception Value)
    (hgv : ∀ s p, s.Coherent → CacheExt s (gv s p).1 ∧
      ∀ v, (gv s p).2 = .ok v → s.cellAt p ≠ none → ∃ fuel, s.den fuel p = some (some v)) :
    ∀ (e : Exec) (s : Sheet), s.Coherent → CacheExt s (e.run gv s).1 ∧
      ∀ v, (e.run gv s).2 = .ok v → ∃ fuel, e.den (s.den fuel) = some v := by
  intro e
  induction e with
  | ret w =>
    intro s _
    refine ⟨cacheExt_refl s, ?_⟩
    intro v hv
    simp only [Exec.run, Except.ok.injEq] at hv
    exact ⟨0, by rw [hv]; rfl⟩
  | ask p k ih =>
    intro s hco
    rw [Exec.run_ask]
    unfold Sheet.GetCell
    by_cases hp : p.IsValid = true
    · rw [if_pos hp]
      cases hc : s.cellAt p with
      | none =>
        simp only
        obtain ⟨h1, h2⟩ := ih none s hco
        refine ⟨h1, ?_⟩
        intro v hv
        obtain ⟨fuel, hden⟩ := h2 v hv
        refine ⟨fuel + 1, ?_⟩
        unfold Exec.den
        rw [if_pos hp, Sheet.den_succ, hc]
        exact Sheet.exec_den_mono s (Nat.le_succ fuel) _ v hden
      | some c =>
        simp only
        obtain ⟨hext, hval⟩ := hgv s p hco
        cases hr : gv s p with
        | mk s1 r =>
          rw [hr] at hext hval
          cases r with
          | error ex => exact ⟨hext, fun v hv => by simp at hv⟩
          | ok w =>
            simp only
            obtain ⟨fuel0, hden0⟩ := hval w rfl (by rw [hc]; simp)
            obtain ⟨h1, h2⟩ := ih (some w) s1 (cacheExt_coherent hco hext)
            refine ⟨cacheExt_trans hext h1, ?_⟩
            intro v hv
            obtain ⟨fuel1, hden1⟩ := h2 v hv
            rw [cacheExt_den hext fuel1] at hden1
            refine ⟨max fuel0 fuel1, ?_⟩
            unfold Exec.den
            rw [if_pos hp, sheetDen_mono s (Nat.le_max_left fuel0 fuel1) p _ hden0]
            exact Sheet.exec_den_mono s (Nat.le_max_right fuel0 fuel1) _ v hden1
    · rw [if_neg hp]
      exact ⟨cacheExt_refl s, fun v hv => by simp at hv⟩

/-- Soundness of `GetValue`: it only fills caches with coherent values, and the value it
returns for a stored cell is the value of the cell in the value semantics. -/
theorem GetValue_sound (fuel : Nat) : ∀ (s : Sheet) (p : Position), s.Coherent →
    CacheExt s (Cell.GetValue fuel s p).1 ∧
    ∀ v, (Cell.GetValue fuel s p).2 = .ok v → s.cellAt p ≠ none →
      ∃ fuel1, s.den fuel1 p = some (some v) := by
  induction fuel with
  | zero =>
    intro s p _
    exact ⟨cacheExt_refl s, fun v hv => by simp [Cell.GetValue] at hv⟩
  | succ fuel ih =>
    intro s p hco
    rw [GetValue_succ]
    cases hc : s.cellAt p with
    | none => exact ⟨cacheExt_refl s, fun v _ h => absurd rfl h⟩
    | some c =>
      simp only
      cases hi : c.impl_ with
      | EmptyImpl =>
        refine ⟨cacheExt_refl s, fun v hv _ => ⟨1, ?_⟩⟩
        simp only [Except.ok.injEq] at hv
        rw [Sheet.den_succ, hc]; simp only [hi, hv]
      | TextImpl t =>
        refine ⟨cacheExt_refl s, fun v hv _ => ⟨1, ?_⟩⟩
        simp only [Except.ok.injEq] at hv
        rw [Sheet.den_succ, hc]; simp only [hi, hv]
      | FormulaImpl f cache =>
        cases cache with
        | some w =>
          refine ⟨cacheExt_refl s, fun v hv _ => ?_⟩
          simp only [Except.ok.injEq] at hv
          subst hv
          obtain ⟨⟨fuel0, hden⟩, hres⟩ := hco p c f w hc hi
          refine ⟨fuel0 + 1, ?_⟩
          rw [Sheet.den_succ, hc]
          simp only [hi, hden, Option.map_some', hres]
        | none =>
          simp only
          obtain ⟨hext, hval⟩ := Exec.run_sound (Cell.GetValue fuel) ih f.ast_.exec s hco
          unfold Formula.Evaluate
          cases hr : f.ast_.exec.run (Cell.GetValue fuel) s with
          | mk s1 r =>
            rw [hr] at hext hval
            cases r with
            | error ex => exact ⟨hext, fun v hv => by simp at hv⟩
            | ok w =>
              obtain ⟨fuel0, hden⟩ := hval w rfl
              have hcell : s.den (fuel0 + 1) p = some (some (formulaResult w)) := by
                rw [Sheet.den_succ, hc]
                simp only [hi, hden, Option.map_some']
              cases w with
              | number d =>
                refine ⟨cacheExt_setCache hext hc hi ⟨fuel0, hden⟩ rfl, fun v hv _ => ?_⟩
                simp only [Except.ok.injEq] at hv
                exact ⟨fuel0 + 1, by rw [hcell, ← hv]; rfl⟩
              | error er =>
                refine ⟨cacheExt_setCache hext hc hi ⟨fuel0, hden⟩ rfl, fun v hv _ => ?_⟩
                simp only [Except.ok.injEq] at hv
                exact ⟨fuel0 + 1, by rw [hcell, ← hv]; rfl⟩
              | text t =>
                refine ⟨hext, fun v hv _ => ?_⟩
                simp only [Except.ok.injEq] at hv
                exact ⟨fuel0 + 1, by rw [hcell, ← hv]; rfl⟩


/-! ## Evaluation returns the value of the value semantics -/

theorem Sheet.den_stored {s : Sheet} {p : Position} {c : Cell} {fuel : Nat}
    {ov : Option Value} (hc : s.cellAt p = some c) (h : s.den fuel p = some ov) :
    ∃ w, ov = some w := by
  cases fuel with
  | zero => simp [Sheet.den] at h
  | succ fuel =>
    rw [Sheet.den_succ, hc] at h
    simp only at h
    cases hi : c.impl_ with
    | EmptyImpl => rw [hi] at h; simp only [Option.some.injEq] at h; exact ⟨_, h.symm⟩
    | TextImpl t => rw [hi] at h; simp only [Option.some.injEq] at h; exact ⟨_, h.symm⟩
    | FormulaImpl f cache =>
      rw [hi] at h
      simp only at h
      cases hd : f.ast_.exec.den (s.den fuel) with
      | none => rw [hd] at h; simp at h
      | some r =>
        rw [hd] at h
        simp only [Option.map_some', Option.some.injEq] at h
        exact ⟨_, h.symm⟩

theorem Sheet.den_absent {s : Sheet} {p : Position} {fuel : Nat} {ov : Option Value}
    (hc : s.cellAt p = none) (h : s.den fuel p = some ov) : ov = none := by
  cases fuel with
  | zero => simp [Sheet.den] at h
  | succ fuel =>
    rw [Sheet.den_succ, hc] at h
    simp only [Option.some.injEq] at h
    exact h.symm

/-- Completeness of an execution against the sheet: when the value semantics gives the
execution a value at depth `fuel`, running it with a `GetValue` of that depth returns that
value. -/
theorem Exec.run_complete (gv : Sheet → Position → Sheet × Except Exception Value)
    (fuel : Nat) (hsound : ∀ s p, s.Coherent → CacheExt s (gv s p).1)
    (hgv : ∀ s p v, s.Coherent → s.cellAt p ≠ none → s.den fuel p = some (some v) →
      (gv s p).2 = .ok v) :
    ∀ (e : Exec) (s : Sheet) (v : Value), s.Coherent → e.den (s.den fuel) = some v →
      (e.run gv s).2 = .ok v := by
  intro e
  induction e with
  | ret w =>
    intro s v _ h
    simp only [Exec.den, Option.some.injEq] at h
    simp [Exec.run, h]
  | ask p k ih =>
    intro s v hco h
    unfold Exec.den at h
    by_cases hp : p.IsValid = true
    · rw [if_pos hp] at h
      rw [Exec.run_ask]
      unfold Sheet.GetCell
      rw [if_pos hp]
      cases hd : s.den fuel p with
      | none => rw [hd] at h; simp at h
      | some ov =>
        rw [hd] at h
        simp only at h
        cases hc : s.cellAt p with
        | none =>
          simp only
          rw [Sheet.den_absent hc hd] at h
          exact ih none s v hco h
        | some c =>
          simp only
          obtain ⟨w, rfl⟩ := Sheet.den_stored hc hd
          have hok := hgv s p w hco (by rw [hc]; simp) hd
          have hext := hsound s p hco
          cases hr : gv s p with
          | mk s1 r =>
            rw [hr] at hok hext
            simp only at hok
            subst hok
            simp only
            apply ih (some w) s1 v (cacheExt_coherent hco hext)
            rw [cacheExt_den hext fuel]
            exact h
    · rw [if_neg hp] at h; simp at h

/-- Completeness of `GetValue`: when the value semantics gives a stored cell a value at depth
`fuel`, `GetValue` with that depth returns it. -/
theorem GetValue_complete (fuel : Nat) : ∀ (s : Sheet) (p : Position) (v : Value),
    s.Coherent → s.cellAt p ≠ none → s.den fuel p = some (some v) →
      (Cell.GetValue fuel s p).2 = .ok v := by
  induction fuel with
  | zero => intro s p v _ _ h; simp [Sheet.den] at h
  | succ fuel ih =>
    intro s p v hco hstored h
    rw [GetValue_succ]
    rw [Sheet.den_succ] at h
    cases hc : s.cellAt p with
    | none => exact absurd hc hstored
    | some c =>
      rw [hc] at h
      simp only at h ⊢
      cases hi : c.impl_ with
      | EmptyImpl =>
        rw [hi] at h
        simp only [Option.some.injEq] at h
        simp only [h]
      | TextImpl t =>
        rw [hi] at h
        simp only [Option.some.injEq] at h
        simp only [h]
      | FormulaImpl f cache =>
        rw [hi] at h
        simp only at h
        cases hd : f.ast_.exec.den (s.den fuel) with
        | none => rw [hd] at h; simp at h
        | some r =>
          rw [hd] at h
          simp only [Option.map_some', Option.some.injEq] at h
          cases cache with
          | some w =>
            simp only
            obtain ⟨⟨fuel0, hden⟩, hres⟩ := hco p c f w hc hi
            have hrw : r = w := Sheet.exec_den_unique s _ hd hden
            rw [hrw, hres] at h
            rw [h]
          | none =>
            simp only
            have hrun := Exec.run_complete (Cell.GetValue fuel) fuel
              (fun s p hco => (GetValue_sound fuel s p hco).1) ih f.ast_.exec s r hco hd
            unfold Formula.Evaluate
            cases hr : f.ast_.exec.run (Cell.GetValue fuel) s with
            | mk s1 res =>
              rw [hr] at hrun
              simp only at hrun
              subst hrun
              cases r with
              | number d => simp only; rw [← h]; rfl
              | error er => simp only; rw [← h]; rfl
              | text t => simp only; rw [← h]; rfl

/-- In a coherent state, re-evaluating the formula of a cell whose cache holds `v` returns
`v`, for every sufficient depth of evaluation. -/
theorem coherent_evaluate {s : Sheet} (hco : s.Coherent) {p : Position} {c : Cell}
    {f : Formula} {v : Value} (hc : s.cellAt p = some c) (hi : c.impl_ = .FormulaImpl f (some v)) :
    ∃ N, ∀ fuel, N ≤ fuel → (f.Evaluate (Cell.GetValue fuel) s).2 = .ok v := by
  obtain ⟨⟨fuel0, hden⟩, _⟩ := hco p c f v hc hi
  refine ⟨fuel0, fun fuel hle => ?_⟩
  exact Exec.run_complete (Cell.GetValue fuel) fuel
    (fun s p hco => (GetValue_sound fuel s p hco).1) (GetValue_complete fuel) f.ast_.exec s v hco
    (Sheet.exec_den_mono s hle _ v hden)


/-! ## Cache coherence through the operations -/

/-- Everything reachable by forward references from a stored cell is stored. -/
theorem cone_stored {s : Sheet} (hsym : s.Sym) {p q : Position} (hp : s.cellAt p ≠ none)
    (h : Relation.ReflTransGen s.Edge p q) : s.cellAt q ≠ none := by
  induction h with
  | refl => exact hp
  | tail _ hbc _ =>
    have := (hsym _ _).1 hbc
    intro hq
    simp [Sheet.RevEdge, Sheet.reverseAt, hq] at this

theorem Sheet.asks_iff (s : Sheet) : s.Asks ↔ ∀ q c, s.cellAt q = some c → c.impl_.AsksRefs := by
  constructor
  · intro h q c hc f cache hi; exact h q c f cache hc hi
  · intro h q c f cache hc hi; exact h q c hc f cache hi

/-- Coherence carries over to a sheet in which every cached cell was cached alike before and
all cells reachable from it have the implementations they had, up to caches. -/
theorem coherent_transfer {s s1 : Sheet} (hco : s.Coherent) (hasks : s1.Asks)
    (hcache : ∀ p c1 f v, s1.cellAt p = some c1 → c1.impl_ = .FormulaImpl f (some v) →
      (∃ c, s.cellAt p = some c ∧ c.impl_ = .FormulaImpl f (some v)) ∧
      ∀ q, Relation.ReflTransGen s1.Edge p q → SameImpl (s1.cellAt q) (s.cellAt q)) :
    s1.Coherent := by
  intro p c1 f v hc1 hi1
  obtain ⟨⟨c, hc, hi⟩, hcone⟩ := hcache p c1 f v hc1 hi1
  obtain ⟨⟨fuel, hden⟩, hres⟩ := hco p c f v hc hi
  refine ⟨⟨fuel, ?_⟩, hres⟩
  rw [← hden]
  apply execDen_congr_answers _ _ (hasks p c1 f (some v) hc1 hi1)
  intro r hr
  apply sheetDen_congr (fun q => Relation.ReflTransGen s1.Edge p q)
  · intro q r1 hq hqr; exact Relation.ReflTransGen.tail hq hqr
  · intro q hq; exact hcone q hq
  · intro q c2 f2 cache2 _ hc2 hi2; exact hasks q c2 f2 cache2 hc2 hi2
  · apply Relation.ReflTransGen.single
    simp [Sheet.Edge, Sheet.refsAt, hc1, Cell.GetReferencedCells, hi1, Impl.GetReferencedCells,
      hr]

theorem sameImpl_refl (o : Option Cell) : SameImpl o o := rfl

/-- Creating a missing cell keeps coherence. -/
theorem materialize_coherent {s : Sheet} (pos : Position) (hsym : s.Sym) (hco : s.Coherent)
    (hasks : (s.materialize pos).Asks) : (s.materialize pos).Coherent := by
  cases hpos : s.cellAt pos with
  | some c => rw [Sheet.materialize_of_stored hpos]; exact hco
  | none =>
    apply coherent_transfer hco hasks
    intro p c1 f v hc1 hi1
    have hp : p ≠ pos := by
      rintro rfl
      rw [Sheet.cellAt_materialize_self, hpos] at hc1
      simp only [Option.getD_none, Option.some.injEq] at hc1
      rw [← hc1] at hi1
      simp [Cell.new] at hi1
    have hc : s.cellAt p = some c1 := by
      rw [Sheet.cellAt_materialize, if_neg hp] at hc1; exact hc1
    refine ⟨⟨c1, hc, hi1⟩, ?_⟩
    intro q hq
    rw [Sheet.edge_materialize] at hq
    have hqs := cone_stored hsym (by rw [hc]; simp) hq
    have hqp : q ≠ pos := by
      rintro rfl; exact hqs hpos
    rw [Sheet.cellAt_materialize, if_neg hqp]
    exact sameImpl_refl _

/-- After `InvalidateCache` from `self`, every cell reachable from `self` by reverse
references has an empty cache. -/
theorem InvalidateCache_resets (s3 : Sheet) (self : Position) :
    ∀ d, Relation.ReflTransGen (Cell.InvalidateCache s3 self).1.RevEdge self d →
      (Cell.InvalidateCache s3 self).1.cacheAt d = none := by
  obtain ⟨_, proc, hr, _, hself, hclos, _⟩ := InvalidateCache_spec s3 self
  have hrev : (Cell.InvalidateCache s3 self).1.RevEdge = s3.RevEdge :=
    Sheet.revEdge_congr (fun q => resetBetween_reverseAt hr q)
  rw [hrev]
  have hall : ∀ d, Relation.ReflTransGen s3.RevEdge self d → d ∈ proc := by
    intro d hd
    induction hd with
    | refl => exact hself
    | tail _ hbc ih => exact hclos _ ih (by simp) _ hbc
  intro d hd
  unfold Sheet.cacheAt
  rw [hr d]
  simp only [hall d hd, List.not_mem_nil, not_false_eq_true, and_self, if_true]
  cases s3.cellAt d with
  | none => rfl
  | some c =>
    cases c with
    | mk impl rev => cases impl <;> rfl

theorem reverse_path {s : Sheet} (hsym : s.Sym) {p q : Position}
    (h : Relation.ReflTransGen s.Edge p q) : Relation.ReflTransGen s.RevEdge q p := by
  induction h with
  | refl => exact Relation.ReflTransGen.refl
  | tail _ hbc ih => exact Relation.ReflTransGen.head ((hsym _ _).1 hbc) ih

theorem newImpl_cache_none {parse : String → Option FormulaAST} {s : Sheet} {self : Position}
    {text : String} {impl : Impl} (h : NewImpl parse s self text impl) :
    impl.cache = none ∧ impl.InvalidateCache.cache = none := by
  rcases h with ⟨rfl, _⟩ | ⟨rfl, _, _⟩ | ⟨e, f, _, _, rfl, _⟩ <;> exact ⟨rfl, rfl⟩

theorem Impl.invalidate_idem (i : Impl) : i.InvalidateCache.InvalidateCache = i.InvalidateCache := by
  cases i <;> rfl

/-- The function `Cell::Set` keeps coherence, in a state that satisfies the graph
invariant. -/
theorem Set_coherent (parse : String → Option FormulaAST) {s : Sheet} (self : Position)
    (text : String) (hinv : s.GraphInv) (hco : s.Coherent)
    (hasks : (Cell.Set parse s self text).1.Asks) :
    (Cell.Set parse s self text).1.Coherent := by
  have hinv1 := Set_graphInv parse self text hinv
  cases hcell : s.cellAt self with
  | none => rw [Set_absent hcell]; exact hco
  | some cell =>
    by_cases hne : text = cell.GetText
    · rw [Set_same hcell hne]; exact hco
    · have hold : ∀ p ∈ cell.GetReferencedCells, p.IsValid = true := by
        intro p hp
        exact hinv.1 self p ((Sheet.edge_of_cellAt hcell).2 hp)
      rcases Set_total parse hcell hne hold with
        ⟨ex, _, h1⟩ | ⟨impl, s2, s3, himpl, h2, h3, h1⟩
      · rw [h1]; exact hco
      · rw [h1] at hasks hinv1 ⊢
        apply coherent_transfer hco hasks
        intro p c1 f v hc1 hi1
        have hcases := Set_success_cellAt hcell h2 h3 p c1 hc1
        have hpc : ∃ c, s.cellAt p = some c ∧ c.impl_ = .FormulaImpl f (some v) := by
          rcases hcases with ⟨h, _, _⟩ | ⟨_, h | h⟩ | ⟨_, c0, hc0, h | h⟩
          · rw [hi1] at h; simp at h
          · have := (newImpl_cache_none himpl).1
            rw [← h, hi1] at this; simp [Impl.cache] at this
          · have := (newImpl_cache_none himpl).2
            rw [← h, hi1] at this; simp [Impl.cache] at this
          · exact ⟨c0, hc0, by rw [← h]; exact hi1⟩
          · rw [hi1] at h
            cases hi0 : c0.impl_ <;> rw [hi0] at h <;> simp [Impl.InvalidateCache] at h
        refine ⟨hpc, ?_⟩
        have hEdge : ∀ a b, a ≠ self →
            ((Cell.InvalidateCache s3 self).1.Edge a b ↔ s.Edge a b) := by
          intro a b ha
          unfold Sheet.Edge
          rw [(Set_success_edges hcell h2 h3).1 a, if_neg ha]
        have hnotself : ∀ x, Relation.ReflTransGen (Cell.InvalidateCache s3 self).1.Edge p x →
            x ≠ self := by
          rintro x hx rfl
          have := InvalidateCache_resets s3 x p (reverse_path hinv1.2.2 hx)
          simp [Sheet.cacheAt, hc1, hi1, Impl.cache] at this
        have hpath : ∀ q, Relation.ReflTransGen (Cell.InvalidateCache s3 self).1.Edge p q →
            Relation.ReflTransGen s.Edge p q := by
          intro q hq
          induction hq with
          | refl => exact Relation.ReflTransGen.refl
          | tail hab hbc ih =>
            exact Relation.ReflTransGen.tail ih ((hEdge _ _ (hnotself _ hab)).1 hbc)
        intro q hq
        have hqself := hnotself q hq
        obtain ⟨c, hc, _⟩ := hpc
        have hqs : s.cellAt q ≠ none := cone_stored hinv.2.2 (by rw [hc]; simp) (hpath q hq)
        have hq1 : (Cell.InvalidateCache s3 self).1.cellAt q ≠ none :=
          cone_stored hinv1.2.2 (by rw [hc1]; simp) hq
        cases hcq : (Cell.InvalidateCache s3 self).1.cellAt q with
        | none => exact absurd hcq hq1
        | some cq =>
          rcases Set_success_cellAt hcell h2 h3 q cq hcq with
            ⟨_, h, _⟩ | ⟨h, _⟩ | ⟨_, c0, hc0, h | h⟩
          · exact absurd h hqs
          · exact absurd h hqself
          · unfold SameImpl; rw [hc0]; simp [h]
          · unfold SameImpl; rw [hc0]; simp [h, Impl.invalidate_idem]


/-! ## The invariants over all three operations -/

theorem ClearCell_cases (parse : String → Option FormulaAST) (s : Sheet) (pos : Position) :
    (Sheet.ClearCell parse s pos).1 = s ∨
    (Sheet.ClearCell parse s pos).1 = (Cell.Set parse s pos "").1 ∨
    (Sheet.ClearCell parse s pos).1 =
      Sheet.UpdateSizeSheet ((Cell.Set parse s pos "").1.erase pos) pos (-1) := by
  rw [ClearCell_eq]
  split_ifs
  · cases s.cellAt pos with
    | none => exact Or.inl rfl
    | some c =>
      simp only
      cases (Cell.Set parse s pos "").2 with
      | some e => exact Or.inr (Or.inl rfl)
      | none =>
        simp only
        cases (Cell.Set parse s pos "").1.cellAt pos with
        | none => exact Or.inr (Or.inl rfl)
        | some cell =>
          simp only
          split_ifs
          · exact Or.inr (Or.inl rfl)
          · exact Or.inr (Or.inr rfl)
  · exact Or.inl rfl

theorem Impl.asksRefs_empty : Impl.EmptyImpl.AsksRefs := by
  intro f cache h; simp at h

theorem Impl.asksRefs_invalidate (i : Impl) (h : i.AsksRefs) : i.InvalidateCache.AsksRefs := by
  intro f cache hi
  cases i with
  | EmptyImpl => simp [Impl.InvalidateCache] at hi
  | TextImpl t => simp [Impl.InvalidateCache] at hi
  | FormulaImpl f0 c0 =>
    simp only [Impl.InvalidateCache, Impl.FormulaImpl.injEq] at hi
    exact h f c0 (by rw [hi.1])

theorem newImpl_asksRefs {parse : String → Option FormulaAST} (hmod : ModuleLocal parse)
    {s : Sheet} {self : Position} {text : String} {impl : Impl}
    (h : NewImpl parse s self text impl) : impl.AsksRefs := by
  rcases h with ⟨rfl, _⟩ | ⟨rfl, _, _⟩ | ⟨e, f, _, hpf, rfl, _⟩
  · exact Impl.asksRefs_empty
  · intro f cache h; simp at h
  · intro f1 cache h
    simp only [Impl.FormulaImpl.injEq] at h
    obtain ⟨rfl, _⟩ := h
    unfold ParseFormula at hpf
    cases hp : parse e with
    | none => rw [hp] at hpf; simp at hpf
    | some ast =>
      rw [hp] at hpf
      simp only [Option.map_some', Option.some.injEq] at hpf
      subst hpf
      exact hmod e ast hp

theorem Set_asks (parse : String → Option FormulaAST) (hmod : ModuleLocal parse) {s : Sheet}
    (self : Position) (text : String) (hinv : s.GraphInv) (h : s.Asks) :
    (Cell.Set parse s self text).1.Asks := by
  rw [Sheet.asks_iff] at h ⊢
  exact Set_impl_inv parse Impl.AsksRefs Impl.asksRefs_empty Impl.asksRefs_invalidate self text
    hinv.1 (fun impl himpl => newImpl_asksRefs hmod himpl) h

theorem materialize_asks {s : Sheet} (pos : Position) (h : s.Asks) :
    (s.materialize pos).Asks := by
  rw [Sheet.asks_iff] at h ⊢
  exact Sheet.impl_inv_materialize Impl.AsksRefs Impl.asksRefs_empty pos h

theorem SetCell_asks (parse : String → Option FormulaAST) (hmod : ModuleLocal parse) {s : Sheet}
    (pos : Position) (text : String) (hinv : s.GraphInv) (h : s.Asks) :
    (Sheet.SetCell parse s pos text).1.Asks := by
  by_cases hv : pos.IsValid = true
  · rw [SetCell_valid hv]
    exact Set_asks parse hmod pos text (Sheet.graphInv_materialize pos hinv)
      (materialize_asks pos h)
  · rw [SetCell_invalid hv]; exact h

theorem erase_asks {s : Sheet} (pos : Position) (delta : Int) (h : s.Asks) :
    (Sheet.UpdateSizeSheet (s.erase pos) pos delta).Asks := by
  intro q c f cache hc hi
  rw [Sheet.cellAt_UpdateSizeSheet, Sheet.cellAt_erase] at hc
  split_ifs at hc
  exact h q c f cache hc hi

theorem ClearCell_asks (parse : String → Option FormulaAST) (hmod : ModuleLocal parse)
    {s : Sheet} (pos : Position) (hinv : s.GraphInv) (h : s.Asks) :
    (Sheet.ClearCell parse s pos).1.Asks := by
  have h1 := Set_asks parse hmod pos "" hinv h
  rcases ClearCell_cases parse s pos with e | e | e
  · rw [e]; exact h
  · rw [e]; exact h1
  · rw [e]; exact erase_asks pos (-1) h1

theorem SetCell_coherent (parse : String → Option FormulaAST) (hmod : ModuleLocal parse)
    {s : Sheet} (pos : Position) (text : String) (hinv : s.GraphInv) (hasks : s.Asks)
    (hco : s.Coherent) : (Sheet.SetCell parse s pos text).1.Coherent := by
  have hasks1 := SetCell_asks parse hmod pos text hinv hasks
  by_cases hv : pos.IsValid = true
  · rw [SetCell_valid hv] at hasks1 ⊢
    exact Set_coherent parse pos text (Sheet.graphInv_materialize pos hinv)
      (materialize_coherent pos hinv.2.2 hco (materialize_asks pos hasks)) hasks1
  · rw [SetCell_invalid hv]; exact hco

theorem ClearCell_coherent (parse : String → Option FormulaAST) (hmod : ModuleLocal parse)
    {s : Sheet} (pos : Position) (hinv : s.GraphInv) (hasks : s.Asks) (hco : s.Coherent) :
    (Sheet.ClearCell parse s pos).1.Coherent := by
  have hasks1 := Set_asks parse hmod pos "" hinv hasks
  have hco1 := Set_coherent parse pos "" hinv hco hasks1
  have hinv2 := ClearCell_graphInv parse pos hinv
  have hasks2 := ClearCell_asks parse hmod pos hinv hasks
  rcases ClearCell_cases parse s pos with e | e | e
  · rw [e]; exact hco
  · rw [e]; exact hco1
  · rw [e] at hinv2 hasks2 ⊢
    apply coherent_transfer hco1 hasks2
    intro p c1 f v hc1 hi1
    have hcell : ∀ q c, (Sheet.UpdateSizeSheet ((Cell.Set parse s pos "").1.erase pos) pos
        (-1)).cellAt q = some c → q ≠ pos ∧ (Cell.Set parse s pos "").1.cellAt q = some c := by
      intro q c hq
      rw [Sheet.cellAt_UpdateSizeSheet, Sheet.cellAt_erase] at hq
      by_cases hqp : q = pos
      · rw [if_pos hqp] at hq; simp at hq
      · rw [if_neg hqp] at hq; exact ⟨hqp, hq⟩
    refine ⟨⟨c1, (hcell p c1 hc1).2, hi1⟩, ?_⟩
    intro q hq
    have hq1 := cone_stored hinv2.2.2 (by rw [hc1]; simp) hq
    cases hcq : (Sheet.UpdateSizeSheet ((Cell.Set parse s pos "").1.erase pos) pos
        (-1)).cellAt q with
    | none => exact absurd hcq hq1
    | some cq => rw [(hcell q cq hcq).2]; exact sameImpl_refl _

theorem cacheExt_refsAt {s s1 : Sheet} (h : CacheExt s s1) (q : Position) :
    s1.refsAt q = s.refsAt q := by
  unfold Sheet.refsAt
  rcases h.2.2.2 q with e | ⟨c, f, v, hc, hi, hc1, _⟩
  · rw [e]
  · rw [hc1, hc]
    simp [Cell.GetReferencedCells, hi, Impl.GetReferencedCells]

theorem cacheExt_reverseAt {s s1 : Sheet} (h : CacheExt s s1) (q : Position) :
    s1.reverseAt q = s.reverseAt q := by
  unfold Sheet.reverseAt
  rcases h.2.2.2 q with e | ⟨c, f, v, hc, hi, hc1, _⟩
  · rw [e]
  · rw [hc1, hc]

theorem cacheExt_asks {s s1 : Sheet} (h : CacheExt s s1) (hasks : s.Asks) : s1.Asks := by
  intro q c1 f1 cache1 hc1 hi1
  rcases h.2.2.2 q with e | ⟨c, f, v, hc, hi, hc1b, _⟩
  · rw [e] at hc1; exact hasks q c1 f1 cache1 hc1 hi1
  · rw [hc1b] at hc1
    simp only [Option.some.injEq] at hc1
    rw [← hc1] at hi1
    simp only [Impl.FormulaImpl.injEq] at hi1
    rw [← hi1.1]
    exact hasks q c f none hc hi

/-- The invariants of the states reachable by `SetCell`, `ClearCell` and `GetValue`, for a
formula module whose formulas ask only for their referenced cells. -/
theorem reachableV_inv {parse : String → Option FormulaAST} (hmod : ModuleLocal parse)
    {s : Sheet} (h : ReachableV parse s) : s.GraphInv ∧ s.Asks ∧ s.Coherent := by
  induction h with
  | empty =>
    refine ⟨Sheet.graphInv_empty, ?_, ?_⟩
    · intro q c f cache hc; simp [Sheet.cellAt, Sheet.empty, mapFind] at hc
    · intro q c f v hc; simp [Sheet.cellAt, Sheet.empty, mapFind] at hc
  | setCell s pos text _ ih =>
    exact ⟨SetCell_graphInv parse pos text ih.1, SetCell_asks parse hmod pos text ih.1 ih.2.1,
      SetCell_coherent parse hmod pos text ih.1 ih.2.1 ih.2.2⟩
  | clearCell s pos _ ih =>
    exact ⟨ClearCell_graphInv parse pos ih.1, ClearCell_asks parse hmod pos ih.1 ih.2.1,
      ClearCell_coherent parse hmod pos ih.1 ih.2.1 ih.2.2⟩
  | getValue s pos fuel _ ih =>
    have hext := (GetValue_sound fuel s pos ih.2.2).1
    exact ⟨Sheet.graphInv_congr (cacheExt_refsAt hext) (cacheExt_reverseAt hext) ih.1,
      cacheExt_asks hext ih.2.1, cacheExt_coherent ih.2.2 hext⟩


/-! ## Failed edits -/

/-- C4. Rollback: when `SetCell(P, t)` throws `FormulaException` or
`CircularDependencyException`, the text and the referenced cells of `P` are what they were
before the call (a missing `P` counting as the empty text without references), and the
`reverse_ref_` set of every other cell is unchanged. -/
theorem SetCell_rollback (parse : String → Option FormulaAST) (s : Sheet) (pos : Position)
    (text : String) (ex : Exception)
    (h : (Sheet.SetCell parse s pos text).2 = some ex)
    (hex : ex = .FormulaException ∨ ∃ what, ex = .CircularDependencyException what) :
    (Sheet.SetCell parse s pos text).1.textAt pos = s.textAt pos ∧
    (Sheet.SetCell parse s pos text).1.refsAt pos = s.refsAt pos ∧
    ∀ q, q ≠ pos →
      ((Sheet.SetCell parse s pos text).1.cellAt q).map Cell.reverse_ref_ =
        (s.cellAt q).map Cell.reverse_ref_ := by
  have hne : ex ≠ .InvalidPositionException := by
    rcases hex with rfl | ⟨what, rfl⟩ <;> simp
  rw [failed_SetCell_state h hne]
  refine ⟨Sheet.textAt_materialize _ _ _, Sheet.refsAt_materialize _ _ _, ?_⟩
  intro q hq
  rw [Sheet.cellAt_materialize, if_neg hq]

/-- A witness of C4: the cyclic edit `set(A3, "=A1")` after `set(A1, "=A2"); set(A2, "=A3")`. -/
theorem SetCell_rollback_witness :
    (Sheet.SetCell exampleParse chainSheet A3 "=A1").2 =
        some (.CircularDependencyException "Find cycle: A3->A1->A2->A3") ∧
    (Sheet.SetCell exampleParse chainSheet A3 "=A1").1.textAt A3 = chainSheet.textAt A3 ∧
    (Sheet.SetCell exampleParse chainSheet A3 "=A1").1.refsAt A3 = chainSheet.refsAt A3 ∧
    ∀ q, q ≠ A3 →
      ((Sheet.SetCell exampleParse chainSheet A3 "=A1").1.cellAt q).map Cell.reverse_ref_ =
        (chainSheet.cellAt q).map Cell.reverse_ref_ :=
  ⟨by decide, SetCell_rollback exampleParse chainSheet A3 "=A1"
    (.CircularDependencyException "Find cycle: A3->A1->A2->A3") (by decide) (Or.inr ⟨_, rfl⟩)⟩

/-- C5, as stated, fails: a failed `SetCell` on a position without a cell changes the size
counters. On the empty sheet `set(A1, "=?")` throws `FormulaException` and leaves the
printable size `(1, 1)`. -/
theorem SetCell_failure_counters_counterexample :
    (Sheet.SetCell exampleParse Sheet.empty A1 "=?").2 = some .FormulaException ∧
    (Sheet.SetCell exampleParse Sheet.empty A1 "=?").1.counter_in_row_ ≠
      Sheet.empty.counter_in_row_ ∧
    (Sheet.SetCell exampleParse Sheet.empty A1 "=?").1.counter_in_col_ ≠
      Sheet.empty.counter_in_col_ ∧
    (Sheet.SetCell exampleParse Sheet.empty A1 "=?").1.GetPrintableSize = (1, 1) ∧
    Sheet.empty.GetPrintableSize = (0, 0) := by
  decide

/-- C5, amended. When `SetCell(P, t)` throws `FormulaException` or
`CircularDependencyException`, the cached value of every cell is what it was; if a cell was
stored at `P`, both counter vectors and the printable size are unchanged; if none was stored,
a fresh empty cell is left at `P` and the counters of its row and of its column are each one
higher, all other counters being unchanged. -/
theorem SetCell_failure_frame (parse : String → Option FormulaAST) (s : Sheet) (pos : Position)
    (text : String) (ex : Exception)
    (h : (Sheet.SetCell parse s pos text).2 = some ex)
    (hex : ex = .FormulaException ∨ ∃ what, ex = .CircularDependencyException what) :
    (∀ q, (Sheet.SetCell parse s pos text).1.cacheAt q = s.cacheAt q) ∧
    (s.cellAt pos ≠ none →
      (Sheet.SetCell parse s pos text).1.counter_in_row_ = s.counter_in_row_ ∧
      (Sheet.SetCell parse s pos text).1.counter_in_col_ = s.counter_in_col_ ∧
      (Sheet.SetCell parse s pos text).1.GetPrintableSize = s.GetPrintableSize) ∧
    (s.cellAt pos = none →
      (Sheet.SetCell parse s pos text).1.textAt pos = "" ∧
      (Sheet.SetCell parse s pos text).1.cellAt pos ≠ none ∧
      (∀ r, (Sheet.SetCell parse s pos text).1.counter_in_row_.getD r 0 =
        s.counter_in_row_.getD r 0 + if r = pos.row then 1 else 0) ∧
      (∀ c, (Sheet.SetCell parse s pos text).1.counter_in_col_.getD c 0 =
        s.counter_in_col_.getD c 0 + if c = pos.col then 1 else 0)) := by
  have hne : ex ≠ .InvalidPositionException := by
    rcases hex with rfl | ⟨what, rfl⟩ <;> simp
  rw [failed_SetCell_state h hne]
  refine ⟨Sheet.cacheAt_materialize _ _, ?_, ?_⟩
  · intro hs
    cases hc : s.cellAt pos with
    | none => exact absurd hc hs
    | some c => rw [Sheet.materialize_of_stored hc]; exact ⟨rfl, rfl, rfl⟩
  · intro hs
    refine ⟨?_, ?_, ?_, ?_⟩
    · rw [Sheet.textAt_materialize]; simp [Sheet.textAt, hs]
    · rw [Sheet.cellAt_materialize]; simp
    · intro r
      rw [Sheet.materialize_of_absent hs]
      exact getD_updateCounter_one _ _ _
    · intro c
      rw [Sheet.materialize_of_absent hs]
      exact getD_updateCounter_one _ _ _

/-- A witness of C5 as amended: the failed `set(A1, "=?")` on the empty sheet. -/
theorem SetCell_failure_frame_witness :
    (Sheet.SetCell exampleParse Sheet.empty A1 "=?").2 = some .FormulaException ∧
    (∀ q, (Sheet.SetCell exampleParse Sheet.empty A1 "=?").1.cacheAt q =
      Sheet.empty.cacheAt q) :=
  ⟨by decide,
    (SetCell_failure_frame exampleParse Sheet.empty A1 "=?" .FormulaException (by decide)
      (Or.inl rfl)).1⟩

/-! ## Invalidation on a successful edit -/

/-- C7, as stated, fails: `SetCell` with the text the cell already has returns normally
without invalidating anything. After `set(A1, "2"); set(B1, "=A1"); get_value(B1)`, the call
`set(A1, "2")` returns normally, `B1` is in the reverse references of `A1`, and the cache of
`B1` still holds its value. -/
theorem SetCell_same_text_counterexample :
    (Sheet.SetCell exampleParse cachedSheet A1 "2").2 = none ∧
    B1 ∈ (Sheet.SetCell exampleParse cachedSheet A1 "2").1.reverseAt A1 ∧
    ((Sheet.SetCell exampleParse cachedSheet A1 "2").1.cellAt B1).map
      (fun c => c.impl_.isFormula) = some true ∧
    (Sheet.SetCell exampleParse cachedSheet A1 "2").1.cacheAt B1 = some (.number 2) := by
  decide

/-- C7, amended. When `SetCell(P, t)` returns normally and `t` differs from the text `P` had
before the call (a missing `P` counting as the empty text), then on return the cache of every
cell reachable from `P` by reverse references, `P` included, is empty. -/
theorem SetCell_invalidates (parse : String → Option FormulaAST) (s : Sheet) (pos : Position)
    (text : String) (h : (Sheet.SetCell parse s pos text).2 = none)
    (hne : text ≠ s.textAt pos) :
    ∀ d, Relation.ReflTransGen (Sheet.SetCell parse s pos text).1.RevEdge pos d →
      (Sheet.SetCell parse s pos text).1.cacheAt d = none := by
  by_cases hv : pos.IsValid = true
  · rw [SetCell_valid hv] at h ⊢
    have hcell : (s.materialize pos).cellAt pos = some ((s.cellAt pos).getD Cell.new) := by
      rw [Sheet.cellAt_materialize, if_pos rfl]
    have hne2 : text ≠ ((s.cellAt pos).getD Cell.new).GetText := by
      intro h1
      apply hne
      rw [h1]
      unfold Sheet.textAt
      cases s.cellAt pos <;> rfl
    rcases Set_stages parse hcell hne2 with
      ⟨ex1, _, h1⟩ | ⟨impl, _, ⟨s2, ex1, _, h1⟩ | ⟨s2, _, ⟨s3, ex1, _, h1⟩ | ⟨s3, _, h1⟩⟩⟩
    · rw [h1] at h; simp at h
    · rw [h1] at h; simp at h
    · rw [h1] at h; simp at h
    · rw [h1]
      obtain ⟨_, proc, hr, _, hself, hclos, _⟩ := InvalidateCache_spec s3 pos
      have hrev : (Cell.InvalidateCache s3 pos).1.RevEdge = s3.RevEdge :=
        Sheet.revEdge_congr (fun q => resetBetween_reverseAt hr q)
      rw [hrev]
      have hall : ∀ d, Relation.ReflTransGen s3.RevEdge pos d → d ∈ proc := by
        intro d hd
        induction hd with
        | refl => exact hself
        | tail _ hbc ih => exact hclos _ ih (by simp) _ hbc
      intro d hd
      unfold Sheet.cacheAt
      rw [hr d]
      simp only [hall d hd, List.not_mem_nil, not_false_eq_true, and_self, if_true]
      cases s3.cellAt d with
      | none => rfl
      | some c =>
        cases c with
        | mk impl rev => cases impl <;> rfl
  · rw [SetCell_invalid hv] at h; simp at h

/-- A witness of C7 as amended: `set(A1, "3")` on the sheet where `B1 = "=A1"` is cached. -/
theorem SetCell_invalidates_witness :
    (Sheet.SetCell exampleParse cachedSheet A1 "3").2 = none ∧
    "3" ≠ cachedSheet.textAt A1 ∧
    ∀ d, Relation.ReflTransGen (Sheet.SetCell exampleParse cachedSheet A1 "3").1.RevEdge A1 d →
      (Sheet.SetCell exampleParse cachedSheet A1 "3").1.cacheAt d = none :=
  ⟨by decide, by decide,
    SetCell_invalidates exampleParse cachedSheet A1 "3" (by decide) (by decide)⟩


/-! ## Acyclicity and the mirror of the references -/

/-- C2. Acyclicity is an invariant: in every state reachable from the empty sheet by `SetCell`
and `ClearCell` calls, whether they return or throw, no cell is reachable from itself by one
or more forward references. -/
theorem acyclic_invariant (parse : String → Option FormulaAST) (s : Sheet)
    (h : Reachable parse s) : ∀ a, ¬ Relation.TransGen s.Edge a a :=
  (reachable_graphInv h).2.1

/-- A witness of C2: the sheet left by `set(A1, "=A2"); set(A2, "=A3")` and the rejected
`set(A3, "=A1")`. -/
theorem acyclic_invariant_witness :
    Reachable exampleParse (Sheet.SetCell exampleParse chainSheet A3 "=A1").1 ∧
    ∀ a, ¬ Relation.TransGen (Sheet.SetCell exampleParse chainSheet A3 "=A1").1.Edge a a :=
  ⟨Reachable.setCell _ _ _ (Reachable.setCell _ _ _ (Reachable.setCell _ _ _ Reachable.empty)),
    acyclic_invariant exampleParse _
      (Reachable.setCell _ _ _
        (Reachable.setCell _ _ _ (Reachable.setCell _ _ _ Reachable.empty)))⟩

theorem forwardBacked_of_sym {s : Sheet} (h : s.Sym) : s.ForwardBacked := by
  intro a ca hca b hb
  have h1 : s.RevEdge b a := (h a b).1 ((Sheet.edge_of_cellAt hca).2 hb)
  unfold Sheet.RevEdge Sheet.reverseAt at h1
  cases hcb : s.cellAt b with
  | none => rw [hcb] at h1; simp at h1
  | some cb => rw [hcb] at h1; exact ⟨cb, rfl, h1⟩

theorem reverseBacked_of_sym {s : Sheet} (h : s.Sym) : s.ReverseBacked := by
  intro a ca hca b hb
  have h1 : s.Edge b a := (h b a).2 (by simp [Sheet.RevEdge, Sheet.reverseAt, hca, hb])
  unfold Sheet.Edge Sheet.refsAt at h1
  cases hcb : s.cellAt b with
  | none => rw [hcb] at h1; simp at h1
  | some cb =>
    rw [hcb] at h1
    refine ⟨cb, rfl, ?_, h1⟩
    cases cb with
    | mk impl rev =>
      cases impl with
      | EmptyImpl => simp [Cell.GetReferencedCells, Impl.GetReferencedCells] at h1
      | TextImpl t => simp [Cell.GetReferencedCells, Impl.GetReferencedCells] at h1
      | FormulaImpl f c => rfl

/-- C3. The reverse references mirror the forward references in every state reachable from
the empty sheet by `SetCell` and `ClearCell` calls: each referenced position of a stored cell
holds a cell whose `reverse_ref_` contains the referring cell, and each member of a stored
cell's `reverse_ref_` is a stored formula cell that references it. -/
theorem reverse_refs_invariant (parse : String → Option FormulaAST) (s : Sheet)
    (h : Reachable parse s) : s.ForwardBacked ∧ s.ReverseBacked :=
  ⟨forwardBacked_of_sym (reachable_graphInv h).2.2, reverseBacked_of_sym (reachable_graphInv h).2.2⟩

/-- A witness of C3: the sheet left by `set(A1, "=A2"); set(A2, "=A3")`. -/
theorem reverse_refs_invariant_witness :
    Reachable exampleParse chainSheet ∧ chainSheet.ForwardBacked ∧ chainSheet.ReverseBacked :=
  ⟨Reachable.setCell _ _ _ (Reachable.setCell _ _ _ Reachable.empty),
    reverse_refs_invariant exampleParse chainSheet
      (Reachable.setCell _ _ _ (Reachable.setCell _ _ _ Reachable.empty))⟩

/-! ## The reported cycle -/

/-- C10. On a sheet whose forward references are acyclic, a `SetCell(P, text)` that throws
`CircularDependencyException` was given a formula, and its message is `Find cycle: ` followed
by the positions `P, ..., P` joined by arrows: at least two positions, the first and the last
are `P`, the positions before the last are pairwise distinct, and each position is a
referenced cell of the one before it (the candidate formula giving the references of `P`).
What `StackToString` prints is the whole trace, and the suffix from the last earlier
occurrence of the top entry, which the spec describes, is the same list. -/
theorem SetCell_cycle_path (parse : String → Option FormulaAST) (s : Sheet) (pos : Position)
    (text what : String) (hacyc : s.Acyclic)
    (h : (Sheet.SetCell parse s pos text).2 = some (.CircularDependencyException what)) :
    ∃ (e : String) (f : Formula) (mid : List Position),
      formulaBody text = some e ∧ ParseFormula parse e = some f ∧
      what = "Find cycle: " ++ "->".intercalate ((pos :: mid ++ [pos]).map Position.ToString) ∧
      2 ≤ (pos :: mid ++ [pos]).length ∧
      (pos :: mid).Nodup ∧
      List.Chain' (fun a b => if a = pos then b ∈ f.GetReferencedCells else s.Edge a b)
        (pos :: mid ++ [pos]) ∧
      codeCycle (pos :: mid ++ [pos]) = pos :: mid ++ [pos] ∧
      specCycle (pos :: mid ++ [pos]) = codeCycle (pos :: mid ++ [pos]) := by
  by_cases hv : pos.IsValid = true
  · rw [SetCell_valid hv] at h
    obtain ⟨cell, hcell, _, himpl⟩ := Set_err_early parse h (by simp)
    obtain ⟨_, e, hbody, hcase⟩ := SetImpl_err himpl
    rcases hcase with ⟨_, hex⟩ | ⟨f, hpf, hd⟩
    · simp at hex
    · obtain ⟨mid, hwhat, hnodup, hchain⟩ :=
        circular_trace hcell (Sheet.acyclic_materialize pos hacyc) hd
      refine ⟨e, f, mid, hbody, hpf, ?_, by simp, hnodup, ?_, codeCycle_cycle pos mid, ?_⟩
      · rw [hwhat, StackToString_cycle]
      · have hrel : ((s.materialize pos).setImpl pos (.FormulaImpl f none)).Edge =
            fun a b => if a = pos then b ∈ f.GetReferencedCells else s.Edge a b := by
          funext a b
          rw [Sheet.edge_setImpl _ hcell, Sheet.edge_materialize]
          rfl
        rw [← hrel]; exact hchain
      · rw [codeCycle_cycle, specCycle_cycle pos mid (List.nodup_cons.1 hnodup).1]
  · rw [SetCell_invalid hv] at h; simp at h

/-- A witness of C10, the example of the claim: after `set(A1, "=A2"); set(A2, "=A3")` the
call `set(A3, "=A1")` reports the path `A3->A1->A2->A3`. -/
theorem SetCell_cycle_path_witness :
    chainSheet.Acyclic ∧
    (Sheet.SetCell exampleParse chainSheet A3 "=A1").2 =
      some (.CircularDependencyException "Find cycle: A3->A1->A2->A3") ∧
    ∃ (e : String) (f : Formula) (mid : List Position),
      formulaBody "=A1" = some e ∧ ParseFormula exampleParse e = some f ∧
      "Find cycle: A3->A1->A2->A3" =
        "Find cycle: " ++ "->".intercalate ((A3 :: mid ++ [A3]).map Position.ToString) ∧
      2 ≤ (A3 :: mid ++ [A3]).length ∧
      (A3 :: mid).Nodup ∧
      List.Chain' (fun a b => if a = A3 then b ∈ f.GetReferencedCells else chainSheet.Edge a b)
        (A3 :: mid ++ [A3]) ∧
      codeCycle (A3 :: mid ++ [A3]) = A3 :: mid ++ [A3] ∧
      specCycle (A3 :: mid ++ [A3]) = codeCycle (A3 :: mid ++ [A3]) :=
  ⟨(reachable_graphInv
      (Reachable.setCell _ _ _ (Reachable.setCell _ _ _ Reachable.empty))).2.1,
    by decide,
    SetCell_cycle_path exampleParse chainSheet A3 "=A1" "Find cycle: A3->A1->A2->A3"
      (reachable_graphInv
        (Reachable.setCell _ _ _ (Reachable.setCell _ _ _ Reachable.empty))).2.1
      (by decide)⟩


/-! ## When a formula is rejected as circular -/

/-- The candidate formula puts the cell on a cycle exactly when the cell is reachable, by the
references the sheet had, from one of the referenced cells of the candidate. -/
theorem candidate_cycle_iff {s : Sheet} {self : Position} {cell : Cell} (impl : Impl)
    (hcell : s.cellAt self = some cell) :
    Relation.TransGen (s.setImpl self impl).Edge self self ↔
      ∃ r ∈ impl.GetReferencedCells, Relation.ReflTransGen s.Edge r self := by
  constructor
  · intro h
    obtain ⟨r, hr, hpath⟩ := Relation.TransGen.head'_iff.1 h
    rw [Sheet.edge_setImpl impl hcell, if_pos rfl] at hr
    refine ⟨r, hr, reflTransGen_cut ?_ hpath⟩
    intro a b ha hab
    rw [Sheet.edge_setImpl impl hcell, if_neg ha] at hab
    exact hab
  · rintro ⟨r, hr, hpath⟩
    have h1 : Relation.ReflTransGen (s.setImpl self impl).Edge r self := by
      refine reflTransGen_cut ?_ hpath
      intro a b ha hab
      rw [Sheet.edge_setImpl impl hcell, if_neg ha]
      exact hab
    refine Relation.TransGen.head' ?_ h1
    rw [Sheet.edge_setImpl impl hcell, if_pos rfl]
    exact hr

/-- The verdict of the cycle search on a candidate formula, on a sheet that is acyclic and
whose references are valid: it throws `CircularDependencyException` when the cell is reachable
from the candidate's references, and returns otherwise. -/
theorem candidate_verdict {s : Sheet} {self : Position} {cell : Cell} (f : Formula)
    (hcell : s.cellAt self = some cell) (hacyc : s.Acyclic) (hrefs : s.RefsValid)
    (hself : self.IsValid = true) (hvalid : ∀ p ∈ f.GetReferencedCells, p.IsValid = true) :
    ((∃ r ∈ f.GetReferencedCells, Relation.ReflTransGen s.Edge r self) ∧
      ∃ what, Cell.FindCircularDependency (s.setImpl self (.FormulaImpl f none)) self =
        some (.CircularDependencyException what)) ∨
    ((¬ ∃ r ∈ f.GetReferencedCells, Relation.ReflTransGen s.Edge r self) ∧
      Cell.FindCircularDependency (s.setImpl self (.FormulaImpl f none)) self = none) := by
  have hiff := candidate_cycle_iff (.FormulaImpl f none) hcell
  have hrefs1 : (s.setImpl self (.FormulaImpl f none)).RefsValid := by
    intro a b hab
    rw [Sheet.edge_setImpl _ hcell] at hab
    by_cases ha : a = self
    · rw [if_pos ha] at hab; exact hvalid b hab
    · rw [if_neg ha] at hab; exact hrefs a b hab
  cases hd : Cell.FindCircularDependency (s.setImpl self (.FormulaImpl f none)) self with
  | none =>
    right
    exact ⟨fun hr => (FindCircularDependency_none hd).1 (hiff.2 hr), rfl⟩
  | some ex =>
    cases ex with
    | InvalidPositionException =>
      obtain ⟨x, hx, hxv⟩ := FindCircularDependency_invalid hd
      rw [reachable_valid hrefs1 hself hx] at hxv
      simp at hxv
    | FormulaException => exact absurd hd (FindCircularDependency_ne_formula _ _)
    | CircularDependencyException what =>
      left
      exact ⟨hiff.1 (circular_cycle hcell hacyc hd), what, rfl⟩
    | Diverged => exact absurd hd (FindCircularDependency_ne_diverged _ _)

/-- C1. On a sheet whose forward references are acyclic and lead to valid positions, for a
valid position `P` and an expression `e` that parses to a formula with valid referenced
positions: `SetCell(P, "=" + e)` throws `CircularDependencyException` exactly when `P` is
reachable from one of the formula's referenced cells by the current forward references (`P`
being one of them counts); otherwise it returns normally and the referenced cells of `P` are
those of the formula. The formula module is assumed to reject the empty expression and, when
`P` already shows the text `"=" + e`, to have given its formula the same referenced cells. -/
theorem SetCell_circular_iff (parse : String → Option FormulaAST) (s : Sheet) (pos : Position)
    (e : String) (ast : FormulaAST)
    (hacyc : s.Acyclic) (hrefs : s.RefsValid) (hpos : pos.IsValid = true)
    (hparse : parse e = some ast) (hempty : parse "" = none)
    (hvalid : ∀ p ∈ (Formula.mk ast).GetReferencedCells, p.IsValid = true)
    (hstable : ∀ c, s.cellAt pos = some c → c.GetText = "=" ++ e →
      c.GetReferencedCells = (Formula.mk ast).GetReferencedCells) :
    ((∃ what, (Sheet.SetCell parse s pos ("=" ++ e)).2 =
        some (.CircularDependencyException what)) ↔
      ∃ r ∈ (Formula.mk ast).GetReferencedCells, Relation.ReflTransGen s.Edge r pos) ∧
    ((¬ ∃ r ∈ (Formula.mk ast).GetReferencedCells, Relation.ReflTransGen s.Edge r pos) →
      (Sheet.SetCell parse s pos ("=" ++ e)).2 = none ∧
      (Sheet.SetCell parse s pos ("=" ++ e)).1.refsAt pos =
        (Formula.mk ast).GetReferencedCells) := by
  have he : e ≠ "" := by
    rintro rfl
    rw [hempty] at hparse
    simp at hparse
  have hpf : ParseFormula parse e = some (Formula.mk ast) := by
    simp [ParseFormula, hparse]
  have hbody : formulaBody ("=" ++ e) = some e := formulaBody_formula e he
  have hcell := Sheet.cellAt_materialize_self s pos
  have hacyc0 := Sheet.acyclic_materialize pos hacyc
  have hrefs0 : (s.materialize pos).RefsValid := by
    unfold Sheet.RefsValid
    rw [Sheet.edge_materialize]
    exact hrefs
  have hverdict := candidate_verdict (Formula.mk ast) hcell hacyc0 hrefs0 hpos hvalid
  rw [Sheet.edge_materialize] at hverdict
  rw [SetCell_valid hpos]
  by_cases hsame : "=" ++ e = ((s.cellAt pos).getD Cell.new).GetText
  · rw [Set_same hcell hsame]
    have hno : ¬ ∃ r ∈ (Formula.mk ast).GetReferencedCells,
        Relation.ReflTransGen s.Edge r pos := by
      rintro ⟨r, hr, hpath⟩
      cases hc : s.cellAt pos with
      | none =>
        rw [hc] at hsame
        exact absurd (congrArg String.data hsame) (by simp [Cell.new, Cell.GetText, Impl.GetText])
      | some c =>
        rw [hc] at hsame
        rw [← hstable c hc hsame.symm] at hr
        exact hacyc pos (Relation.TransGen.head' ((Sheet.edge_of_cellAt hc).2 hr) hpath)
    refine ⟨⟨fun ⟨what, h⟩ => by simp at h, fun h => absurd h hno⟩, fun _ => ⟨rfl, ?_⟩⟩
    simp only [Sheet.refsAt, hcell]
    cases hc : s.cellAt pos with
    | none =>
      rw [hc] at hsame
      exact absurd (congrArg String.data hsame) (by simp [Cell.new, Cell.GetText, Impl.GetText])
    | some c =>
      rw [hc] at hsame
      exact hstable c hc hsame.symm
  · have hold : ∀ p ∈ ((s.cellAt pos).getD Cell.new).GetReferencedCells, p.IsValid = true := by
      intro p hp
      exact hrefs0 pos p ((Sheet.edge_of_cellAt hcell).2 hp)
    rcases Set_total parse hcell hsame hold with
      ⟨ex, h0, h1⟩ | ⟨impl, s2, s3, himpl, h2, h3, h1⟩
    · obtain ⟨_, e1, hbody1, hcase⟩ := SetImpl_err h0
      rw [hbody] at hbody1
      simp only [Option.some.injEq] at hbody1
      subst hbody1
      rcases hcase with ⟨hnone, _⟩ | ⟨f, hpf1, hd⟩
      · rw [hpf] at hnone; simp at hnone
      · rw [hpf] at hpf1
        simp only [Option.some.injEq] at hpf1
        subst hpf1
        rcases hverdict with ⟨hreach, what, hw⟩ | ⟨_, hnone⟩
        · rw [hd] at hw
          simp only [Option.some.injEq] at hw
          subst hw
          rw [h1]
          exact ⟨⟨fun _ => hreach, fun _ => ⟨what, rfl⟩⟩, fun hno => absurd hreach hno⟩
        · rw [hd] at hnone; simp at hnone
    · have himpl1 : impl = .FormulaImpl (Formula.mk ast) none ∧
          Cell.FindCircularDependency ((s.materialize pos).setImpl pos impl) pos = none := by
        rcases himpl with ⟨_, h4⟩ | ⟨_, _, h4⟩ | ⟨e1, f, h4, hpf1, himp, hd⟩
        · exact absurd (congrArg String.data h4) (by simp)
        · rw [hbody] at h4; simp at h4
        · rw [hbody] at h4
          simp only [Option.some.injEq] at h4
          subst h4
          rw [hpf] at hpf1
          simp only [Option.some.injEq] at hpf1
          subst hpf1
          exact ⟨himp, hd⟩
      obtain ⟨rfl, hd⟩ := himpl1
      have hno : ¬ ∃ r ∈ (Formula.mk ast).GetReferencedCells,
          Relation.ReflTransGen s.Edge r pos := by
        rcases hverdict with ⟨_, what, hw⟩ | ⟨hno, _⟩
        · rw [hd] at hw; simp at hw
        · exact hno
      rw [h1]
      have hok := (InvalidateCache_spec s3 pos).1
      refine ⟨⟨fun ⟨what, h⟩ => by rw [hok] at h; simp at h, fun h => absurd h hno⟩,
        fun _ => ⟨hok, ?_⟩⟩
      rw [(Set_success_edges hcell h2 h3).1 pos, if_pos rfl]
      rfl

/-- A witness of C1: `set(A3, "=A1")` on the sheet left by `set(A1, "=A2"); set(A2, "=A3")`,
where `A3` is reachable from `A1`. -/
theorem SetCell_circular_iff_witness :
    ((∃ what, (Sheet.SetCell exampleParse chainSheet A3 ("=" ++ "A1")).2 =
        some (.CircularDependencyException what)) ↔
      ∃ r ∈ (Formula.mk ⟨[A1], "A1", exampleExec [A1] 0⟩).GetReferencedCells,
        Relation.ReflTransGen chainSheet.Edge r A3) ∧
    ((¬ ∃ r ∈ (Formula.mk ⟨[A1], "A1", exampleExec [A1] 0⟩).GetReferencedCells,
        Relation.ReflTransGen chainSheet.Edge r A3) →
      (Sheet.SetCell exampleParse chainSheet A3 ("=" ++ "A1")).2 = none ∧
      (Sheet.SetCell exampleParse chainSheet A3 ("=" ++ "A1")).1.refsAt A3 =
        (Formula.mk ⟨[A1], "A1", exampleExec [A1] 0⟩).GetReferencedCells) :=
  SetCell_circular_iff exampleParse chainSheet A3 "A1" ⟨[A1], "A1", exampleExec [A1] 0⟩
    (reachable_graphInv (Reachable.setCell _ _ _ (Reachable.setCell _ _ _ Reachable.empty))).2.1
    (reachable_graphInv (Reachable.setCell _ _ _ (Reachable.setCell _ _ _ Reachable.empty))).1
    (by decide) rfl rfl (by decide) (by decide)


/-! ## Printable size -/

/-- C8. Size tightness: in every state reachable from the empty sheet by `SetCell` and
`ClearCell` calls every position is stored once, `counter_in_row_[r]` is the number of cells
stored in row `r` and `counter_in_col_[c]` the number stored in column `c` (entries beyond
the end counting as zero), neither vector ends in a zero, and `GetPrintableSize()` is one more
than the largest stored row and column, or `(0, 0)` when nothing is stored. -/
theorem size_tightness (parse : String → Option FormulaAST) (s : Sheet)
    (h : Reachable parse s) :
    s.keys.Nodup ∧
    (∀ r, s.counter_in_row_.getD r 0 = (s.rowCount r : Int)) ∧
    (∀ c, s.counter_in_col_.getD c 0 = (s.colCount c : Int)) ∧
    (∀ x, s.counter_in_row_.getLast? = some x → x ≠ 0) ∧
    (∀ x, s.counter_in_col_.getLast? = some x → x ≠ 0) ∧
    s.GetPrintableSize = (s.rowBound, s.colBound) ∧
    (s.sheet_ = [] → s.GetPrintableSize = (0, 0)) := by
  obtain ⟨hnd, hrow, hcol⟩ := reachable_countersTight h
  have hsize : s.GetPrintableSize = (s.rowBound, s.colBound) := by
    unfold Sheet.GetPrintableSize Sheet.rowBound Sheet.colBound
    rw [tightCounter_length_eq Position.row hrow, tightCounter_length_eq Position.col hcol]
  refine ⟨hnd, hrow.1, hcol.1, hrow.2, hcol.2, hsize, ?_⟩
  intro hempty
  rw [hsize]
  simp [Sheet.rowBound, Sheet.colBound, Sheet.keys, hempty]

/-- A witness of C8, the example of the claim: after `set(C3, "x"); clear(C3)` the printable
size is `(0, 0)`. -/
theorem size_tightness_witness :
    (Sheet.ClearCell exampleParse (Sheet.SetCell exampleParse Sheet.empty C3 "x").1 C3).1.GetPrintableSize
      = (0, 0) ∧
    (Sheet.SetCell exampleParse Sheet.empty C3 "x").1.GetPrintableSize = (3, 3) ∧
    (Sheet.SetCell exampleParse Sheet.empty C3 "x").1.GetPrintableSize =
      ((Sheet.SetCell exampleParse Sheet.empty C3 "x").1.rowBound,
        (Sheet.SetCell exampleParse Sheet.empty C3 "x").1.colBound) :=
  ⟨by decide, by decide,
    (size_tightness exampleParse (Sheet.SetCell exampleParse Sheet.empty C3 "x").1
      (Reachable.setCell _ _ _ Reachable.empty)).2.2.2.2.2.1⟩


/-! ## Cache coherence -/

theorem mem_stdUnique (p : Position) : ∀ l : List Position, p ∈ stdUnique l ↔ p ∈ l := by
  intro l
  induction l with
  | nil => simp [stdUnique]
  | cons a rest ih =>
    cases rest with
    | nil => simp [stdUnique]
    | cons b rest2 =>
      unfold stdUnique
      by_cases hab : a = b
      · rw [if_pos hab, ih]
        subst hab
        simp
      · rw [if_neg hab, List.mem_cons, ih]
        simp

/-- The referenced cells of a formula are the cells its syntax tree mentions. -/
theorem Formula.mem_GetReferencedCells (f : Formula) (p : Position) :
    p ∈ f.GetReferencedCells ↔ p ∈ f.ast_.cells := by
  unfold Formula.GetReferencedCells
  rw [mem_stdUnique]
  exact (List.perm_insertionSort _ _).mem_iff

theorem exampleExec_asksOnly (R : List Position) : ∀ (cells : List Position) (acc : Int),
    (∀ p ∈ cells, p ∈ R) → (exampleExec cells acc).AsksOnly R := by
  intro cells
  induction cells with
  | nil => intro acc _; simp [exampleExec, Exec.AsksOnly]
  | cons p rest ih =>
    intro acc h
    unfold exampleExec Exec.AsksOnly
    refine ⟨h p (by simp), ?_⟩
    intro ov
    dsimp only
    split
    · exact ih _ (fun q hq => h q (List.mem_cons_of_mem _ hq))
    · simp [Exec.AsksOnly]

/-- The example formula module asks only for the referenced cells. -/
theorem exampleParse_local : ModuleLocal exampleParse := by
  intro e ast h
  unfold exampleParse at h
  cases hc : exampleCells (exampleSplit e.data) with
  | none => rw [hc] at h; simp at h
  | some cells =>
    rw [hc] at h
    simp only [Option.some.injEq] at h
    subst h
    apply exampleExec_asksOnly
    intro p hp
    exact (Formula.mem_GetReferencedCells _ p).2 hp

/-- C6. Cache coherence is an invariant. Assume that evaluating a formula asks the sheet only
for the values of the cells the formula references. Then in every state reachable from the
empty sheet by `SetCell`, `ClearCell` and `GetValue` calls, whenever the cache of a formula
cell holds a value `v`, re-evaluating the formula of that cell against the current sheet
returns `v` (for every sufficient depth of the evaluation). -/
theorem cache_coherence (parse : String → Option FormulaAST) (hmod : ModuleLocal parse)
    (s : Sheet) (h : ReachableV parse s) :
    ∀ pos c f v, s.cellAt pos = some c → c.impl_ = .FormulaImpl f (some v) →
      ∃ N, ∀ fuel, N ≤ fuel → (f.Evaluate (Cell.GetValue fuel) s).2 = .ok v :=
  fun _ _ _ _ hc hi => coherent_evaluate (reachableV_inv hmod h).2.2 hc hi

/-- A witness of C6, the example of the claim: after `set(A1, "2"); set(A2, "3");
set(A3, "=A1+A2")` the value of `A3` is 5; after `set(A1, "10")` it is 13, and that is what
the cache of `A3` then holds. -/
theorem cache_coherence_witness :
    (Sheet.GetValue sumSheet A3).2 = .ok (.number 5) ∧
    (Sheet.GetValue (Sheet.SetCell exampleParse (Sheet.GetValue sumSheet A3).1 A1 "10").1 A3).2
      = .ok (.number 13) ∧
    sumSheetAgain.cacheAt A3 = some (.number 13) ∧
    ∀ c f v, sumSheetAgain.cellAt A3 = some c → c.impl_ = .FormulaImpl f (some v) →
      ∃ N, ∀ fuel, N ≤ fuel → (f.Evaluate (Cell.GetValue fuel) sumSheetAgain).2 = .ok v :=
  ⟨rfl, rfl, by decide,
    cache_coherence exampleParse exampleParse_local sumSheetAgain
      (ReachableV.getValue _ A3 _ (ReachableV.setCell _ A1 "10"
        (ReachableV.getValue _ A3 _ (ReachableV.setCell _ A3 "=A1+A2"
          (ReachableV.setCell _ A2 "3" (ReachableV.setCell _ A1 "2" ReachableV.empty))))))
      A3⟩


/-! ## Reading values changes caches only -/

theorem cacheFill_refl (s : Sheet) : CacheFill s s :=
  ⟨rfl, rfl, rfl, fun _ => Or.inl rfl⟩

theorem cacheFill_trans {s s1 s2 : Sheet} (h1 : CacheFill s s1) (h2 : CacheFill s1 s2) :
    CacheFill s s2 := by
  refine ⟨h2.1.trans h1.1, h2.2.1.trans h1.2.1, h2.2.2.1.trans h1.2.2.1, ?_⟩
  intro q
  rcases h2.2.2.2 q with e2 | ⟨c, f, v, hc, hi, hc2⟩
  · rw [e2]; exact h1.2.2.2 q
  · rcases h1.2.2.2 q with e1 | ⟨c0, f0, v0, hc0, hi0, hc1⟩
    · right
      rw [e1] at hc
      exact ⟨c, f, v, hc, hi, hc2⟩
    · rw [hc1] at hc
      simp only [Option.some.injEq] at hc
      rw [← hc] at hi
      simp at hi

/-- Storing a value in the cache of a formula cell whose cache was empty fills a cache. -/
theorem cacheFill_setCache {s s1 : Sheet} {self : Position} {c : Cell} {f : Formula}
    (v : Value) (h : CacheFill s s1) (hc : s.cellAt self = some c)
    (hi : c.impl_ = .FormulaImpl f none) : CacheFill s (s1.setCache self v) := by
  refine ⟨(Sheet.keys_modifyCell _ _ _).trans h.1, h.2.1, h.2.2.1, ?_⟩
  intro q
  unfold Sheet.setCache
  rw [Sheet.cellAt_modifyCell]
  by_cases hq : q = self
  · subst hq
    rw [if_pos rfl]
    right
    refine ⟨c, f, v, hc, hi, ?_⟩
    rcases h.2.2.2 q with e | ⟨c0, f0, v0, hc0, hi0, hc1⟩
    · rw [e, hc]
      simp [hi]
    · rw [hc] at hc0
      simp only [Option.some.injEq] at hc0
      subst hc0
      rw [hi] at hi0
      simp only [Impl.FormulaImpl.injEq, and_true] at hi0
      subst hi0
      rw [hc1]
      simp
  · rw [if_neg hq]
    exact h.2.2.2 q

theorem Exec.run_cacheFill (gv : Sheet → Position → Sheet × Except Exception Value)
    (hgv : ∀ s p, CacheFill s (gv s p).1) :
    ∀ (e : Exec) (s : Sheet), CacheFill s (e.run gv s).1 := by
  intro e
  induction e with
  | ret w => intro s; exact cacheFill_refl s
  | ask p k ih =>
    intro s
    rw [Exec.run_ask]
    cases hg : s.GetCell p with
    | error ex => exact cacheFill_refl s
    | ok o =>
      cases o with
      | none => exact ih none s
      | some c =>
        simp only
        have hext := hgv s p
        cases hr : gv s p with
        | mk s1 r =>
          rw [hr] at hext
          cases r with
          | error ex => exact hext
          | ok w => exact cacheFill_trans hext (ih (some w) s1)

/-- Whatever the state and the depth, `GetValue` only fills empty caches. -/
theorem GetValue_cacheFill (fuel : Nat) :
    ∀ (s : Sheet) (p : Position), CacheFill s (Cell.GetValue fuel s p).1 := by
  induction fuel with
  | zero => intro s p; exact cacheFill_refl s
  | succ fuel ih =>
    intro s p
    rw [GetValue_succ]
    cases hc : s.cellAt p with
    | none => exact cacheFill_refl s
    | some c =>
      simp only
      cases hi : c.impl_ with
      | EmptyImpl => exact cacheFill_refl s
      | TextImpl t => exact cacheFill_refl s
      | FormulaImpl f cache =>
        cases cache with
        | some w => exact cacheFill_refl s
        | none =>
          simp only
          have hext := Exec.run_cacheFill (Cell.GetValue fuel) ih f.ast_.exec s
          unfold Formula.Evaluate
          cases hr : f.ast_.exec.run (Cell.GetValue fuel) s with
          | mk s1 r =>
            rw [hr] at hext
            cases r with
            | error ex => exact hext
            | ok w =>
              cases w with
              | number d => exact cacheFill_setCache _ hext hc hi
              | error er => exact cacheFill_setCache _ hext hc hi
              | text t => exact hext

theorem reads_cacheFill {s s1 : Sheet} (h : Reads s s1) : CacheFill s s1 := by
  induction h with
  | refl => exact cacheFill_refl s
  | getValue s1 pos fuel _ ih => exact cacheFill_trans ih (GetValue_cacheFill fuel s1 pos)

theorem cacheFill_sameImpl {s s1 : Sheet} (h : CacheFill s s1) (q : Position) :
    SameImpl (s1.cellAt q) (s.cellAt q) := by
  rcases h.2.2.2 q with h1 | ⟨c, f, v, hc, hi, hc1⟩
  · rw [h1]; rfl
  · unfold SameImpl
    rw [hc1, hc]
    simp [hi, Impl.InvalidateCache]

theorem cacheFill_refsAt {s s1 : Sheet} (h : CacheFill s s1) (q : Position) :
    s1.refsAt q = s.refsAt q := by
  unfold Sheet.refsAt
  rcases h.2.2.2 q with h1 | ⟨c, f, v, hc, hi, hc1⟩
  · rw [h1]
  · rw [hc1, hc]; simp [Cell.GetReferencedCells, Impl.GetReferencedCells, hi]

theorem cacheFill_reverseAt {s s1 : Sheet} (h : CacheFill s s1) (q : Position) :
    s1.reverseAt q = s.reverseAt q := by
  unfold Sheet.reverseAt
  rcases h.2.2.2 q with h1 | ⟨c, f, v, hc, hi, hc1⟩
  · rw [h1]
  · rw [hc1, hc]

theorem cacheFill_textAt {s s1 : Sheet} (h : CacheFill s s1) (q : Position) :
    s1.textAt q = s.textAt q := by
  unfold Sheet.textAt
  rcases h.2.2.2 q with h1 | ⟨c, f, v, hc, hi, hc1⟩
  · rw [h1]
  · rw [hc1, hc]; simp [Cell.GetText, Impl.GetText, hi]

theorem cacheFill_stored {s s1 : Sheet} (h : CacheFill s s1) (q : Position) :
    s1.cellAt q = none ↔ s.cellAt q = none := by
  rcases h.2.2.2 q with h1 | ⟨c, f, v, hc, hi, hc1⟩
  · rw [h1]
  · rw [hc1, hc]; simp

theorem cacheFill_graphInv {s s1 : Sheet} (h : CacheFill s s1) (hinv : s.GraphInv) :
    s1.GraphInv :=
  Sheet.graphInv_congr (cacheFill_refsAt h) (cacheFill_reverseAt h) hinv

theorem cacheFill_countersTight {s s1 : Sheet} (h : CacheFill s s1) (hinv : s.CountersTight) :
    s1.CountersTight :=
  Sheet.countersTight_congr h.1 h.2.1 h.2.2.1 hinv

/-- The graph invariant holds in every state reachable by edits and reads, whatever the
formula module. -/
theorem reachableV_graphInv {parse : String → Option FormulaAST} {s : Sheet}
    (h : ReachableV parse s) : s.GraphInv := by
  induction h with
  | empty => exact Sheet.graphInv_empty
  | setCell s pos text _ ih => exact SetCell_graphInv parse pos text ih
  | clearCell s pos _ ih => exact ClearCell_graphInv parse pos ih
  | getValue s pos fuel _ ih => exact cacheFill_graphInv (GetValue_cacheFill fuel s pos) ih

/-- The size invariant holds in every state reachable by edits and reads. -/
theorem reachableV_countersTight {parse : String → Option FormulaAST} {s : Sheet}
    (h : ReachableV parse s) : s.CountersTight := by
  induction h with
  | empty => exact Sheet.countersTight_empty
  | setCell s pos text _ ih => exact SetCell_countersTight parse pos text ih
  | clearCell s pos _ ih => exact ClearCell_countersTight parse pos ih
  | getValue s pos fuel _ ih =>
    exact cacheFill_countersTight (GetValue_cacheFill fuel s pos) ih


/-! ## Invalid positions, unchanged text, transitive invalidation -/

/-- C11: an invalid position is rejected with the state untouched. For every sheet state,
every text and every position that is not valid, `SetCell`, `GetCell` and `ClearCell` each
raise `InvalidPositionException`, and the state they leave (the map with every cell, and both
counter vectors) is the state they were called on. -/
theorem invalid_position_rejected (parse : String → Option FormulaAST) (s : Sheet)
    (pos : Position) (text : String) (h : pos.IsValid = false) :
    Sheet.SetCell parse s pos text = (s, some .InvalidPositionException) ∧
    s.GetCell pos = .error .InvalidPositionException ∧
    Sheet.ClearCell parse s pos = (s, some .InvalidPositionException) := by
  refine ⟨?_, ?_, ?_⟩
  · unfold Sheet.SetCell; rw [h]; rfl
  · unfold Sheet.GetCell; rw [h]; rfl
  · unfold Sheet.ClearCell; rw [h]; rfl

/-- A witness of C11: the position `(16384, 0)` on the sheet left by
`set(A1, "=A2"); set(A2, "=A3")`. -/
theorem invalid_position_rejected_witness :
    beyondRows.IsValid = false ∧
    Sheet.SetCell exampleParse chainSheet beyondRows "x" =
      (chainSheet, some .InvalidPositionException) ∧
    chainSheet.GetCell beyondRows = .error .InvalidPositionException ∧
    Sheet.ClearCell exampleParse chainSheet beyondRows =
      (chainSheet, some .InvalidPositionException) :=
  ⟨by decide, invalid_position_rejected exampleParse chainSheet beyondRows "x" (by decide)⟩

/-- C12: `Cell::Set` is a no-op on unchanged text. For every stored cell and every text equal
to the text the cell shows, `Cell::Set` returns normally and leaves the whole state as it
was (the representation and the cache of the cell, every `reverse_ref_` set, every other
cache), and it does so whatever the parser is: the parser is not consulted. -/
theorem Set_unchanged_text (s : Sheet) (self : Position) (cell : Cell) (text : String)
    (hcell : s.cellAt self = some cell) (h : text = cell.GetText) :
    ∀ parse : String → Option FormulaAST, Cell.Set parse s self text = (s, none) := by
  intro parse
  unfold Cell.Set
  rw [hcell]
  simp only
  rw [if_pos h]

/-- A witness of C12: `Set("=A1")` on the cell `B1` that shows `=A1` and holds a cached
value. -/
theorem Set_unchanged_text_witness :
    cachedSheet.cacheAt B1 = some (.number 2) ∧
    ∀ parse : String → Option FormulaAST,
      Cell.Set parse cachedSheet B1 "=A1" = (cachedSheet, none) :=
  ⟨by decide,
    Set_unchanged_text cachedSheet B1 ((cachedSheet.cellAt B1).getD Cell.new) "=A1" rfl
      (by decide)⟩

/-- C19: transitive invalidation terminates on every finite reverse-reference graph, cyclic
ones included, and does no repeated work. For every sheet, whatever its `reverse_ref_` sets,
and every start position, `Cell::InvalidateCache` returns within its recursion budget; the
cells it enters, in the order of entry, are without repetition and are exactly the positions
reachable from the start by reverse references (the start included); each of them has its
cache reset and is otherwise as before; every other cell, the stored positions and the
counters are unchanged. -/
theorem InvalidateCache_transitive (s : Sheet) (self : Position) :
    ∃ s1 proc, Cell.InvalidateCacheRec (s.sheet_.length + 1) s [] self = some (s1, proc) ∧
      Cell.InvalidateCache s self = (s1, none) ∧
      proc.Nodup ∧
      (∀ q, q ∈ proc ↔ Relation.ReflTransGen s.RevEdge self q) ∧
      (∀ q, Relation.ReflTransGen s.RevEdge self q →
        s1.cellAt q = (s.cellAt q).map Cell.resetCache ∧ s1.cacheAt q = none) ∧
      (∀ q, ¬ Relation.ReflTransGen s.RevEdge self q → s1.cellAt q = s.cellAt q) ∧
      s1.keys = s.keys ∧ s1.counter_in_row_ = s.counter_in_row_ ∧
      s1.counter_in_col_ = s.counter_in_col_ := by
  cases hrec : Cell.InvalidateCacheRec (s.sheet_.length + 1) s [] self with
  | none =>
    have h1 := InvalidateCacheRec_fuel (s.sheet_.length + 1) s [] self (by simp) hrec
    have h2 := unprocessed_le_length s []
    omega
  | some r =>
    obtain ⟨s1, proc⟩ := r
    obtain ⟨hreset, _, hself, hclosed, hreach, hnd, hk, hr, hc⟩ :=
      InvalidateCacheRec_spec (s.sheet_.length + 1) s [] self s1 proc (by simp) hrec
    have hmem : ∀ q, q ∈ proc ↔ Relation.ReflTransGen s.RevEdge self q := by
      intro q
      constructor
      · intro hq
        rcases hreach q hq with h | h
        · simp at h
        · exact h
      · intro hq
        induction hq with
        | refl => exact hself
        | tail _ hxy ih => exact hclosed _ ih (by simp) _ hxy
    have hcell : ∀ q, q ∈ proc → s1.cellAt q = (s.cellAt q).map Cell.resetCache := by
      intro q hq
      rw [hreset q, if_pos ⟨hq, by simp⟩]
    refine ⟨s1, proc, rfl, ?_, hnd List.nodup_nil, hmem, ?_, ?_, hk, hr, hc⟩
    · unfold Cell.InvalidateCache
      rw [hrec]
    · intro q hq
      have h1 := hcell q ((hmem q).2 hq)
      refine ⟨h1, ?_⟩
      unfold Sheet.cacheAt
      rw [h1]
      cases s.cellAt q with
      | none => rfl
      | some c =>
        simp only [Option.map_some', Cell.resetCache]
        cases c.impl_ <;> rfl
    · intro q hq
      rw [hreset q, if_neg]
      intro h
      exact hq ((hmem q).1 h.1)


/-! ## What a successful edit leaves at the cell -/

theorem InvalidateCache_cellAt_self (s : Sheet) (self : Position) :
    (Cell.InvalidateCache s self).1.cellAt self = (s.cellAt self).map Cell.resetCache := by
  obtain ⟨_, proc, hreset, _, hself, _⟩ := InvalidateCache_spec s self
  rw [hreset self, if_pos ⟨hself, by simp⟩]

theorem InvalidateCache_cellAt (s : Sheet) (self q : Position) :
    (Cell.InvalidateCache s self).1.cellAt q = s.cellAt q ∨
    (Cell.InvalidateCache s self).1.cellAt q = (s.cellAt q).map Cell.resetCache := by
  obtain ⟨_, proc, hreset, _⟩ := InvalidateCache_spec s self
  rw [hreset q]
  split_ifs
  · exact Or.inr rfl
  · exact Or.inl rfl

/-- Invalidation changes nothing in a sheet without filled caches. -/
theorem InvalidateCache_fixed {s : Sheet} (self : Position)
    (h : ∀ q c, s.cellAt q = some c → c.impl_.InvalidateCache = c.impl_) :
    ∀ q, (Cell.InvalidateCache s self).1.cellAt q = s.cellAt q := by
  intro q
  rcases InvalidateCache_cellAt s self q with h1 | h1
  · exact h1
  · rw [h1]
    cases hc : s.cellAt q with
    | none => rfl
    | some c =>
      simp only [Option.map_some', Cell.resetCache, h q c hc]

theorem newImpl_invalidate {parse : String → Option FormulaAST} {s : Sheet} {self : Position}
    {text : String} {impl : Impl} (h : NewImpl parse s self text impl) :
    impl.InvalidateCache = impl := by
  rcases h with ⟨rfl, _⟩ | ⟨rfl, _⟩ | ⟨e, f, _, _, rfl, _⟩ <;> rfl

/-- The text of the implementation `Cell::Set` chooses, when the formula module prints a
parsed expression as it was written. -/
theorem newImpl_text {parse : String → Option FormulaAST} {s : Sheet} {self : Position}
    {text : String} {impl : Impl} (h : NewImpl parse s self text impl)
    (hcanon : ∀ e ast, formulaBody text = some e → parse e = some ast → ast.printed = e) :
    impl.GetText = text := by
  rcases h with ⟨rfl, rfl⟩ | ⟨rfl, _⟩ | ⟨e, f, hbody, hparse, rfl, _⟩
  · rfl
  · rfl
  · unfold ParseFormula at hparse
    cases hp : parse e with
    | none => rw [hp] at hparse; simp at hparse
    | some ast =>
      rw [hp] at hparse
      simp only [Option.map_some', Option.some.injEq] at hparse
      subst hparse
      simp only [Impl.GetText, Formula.GetExpression, hcanon e ast hbody hp]
      exact (formulaBody_eq_some hbody).1.symm

theorem Set_success_self {s s2 s3 : Sheet} {self : Position} {cell : Cell} {impl : Impl}
    (hcell : s.cellAt self = some cell)
    (h2 : Cell.RemoveReverseRef self (s.setImpl self impl) cell.GetReferencedCells = (s2, none))
    (h3 : Cell.AddReverseRefLoop self s2 impl.GetReferencedCells = (s3, none)) :
    ∃ c1, (Cell.InvalidateCache s3 self).1.cellAt self = some c1 ∧
      c1.impl_ = impl.InvalidateCache := by
  have e2 := RemoveReverseRef_cellAt self cell.GetReferencedCells (s.setImpl self impl)
    (by rw [h2]) self
  rw [h2] at e2
  have e3 := AddReverseRefLoop_cellAt self impl.GetReferencedCells s2 (by rw [h3]) self
  rw [h3] at e3
  simp only at e2 e3
  rw [Sheet.cellAt_setImpl, if_pos rfl, hcell] at e2
  rw [InvalidateCache_cellAt_self, e3, e2]
  split_ifs <;> simp [Cell.resetCache, Cell.insertReverse, Cell.eraseReverse]

/-- A `Cell::Set` with a new text that returns normally has installed an implementation of
its choice at the cell. -/
theorem Set_ok_self (parse : String → Option FormulaAST) {s : Sheet} {self : Position}
    {text : String} {cell : Cell} (hcell : s.cellAt self = some cell)
    (hne : text ≠ cell.GetText) (hold : ∀ p ∈ cell.GetReferencedCells, p.IsValid = true)
    (hok : (Cell.Set parse s self text).2 = none) :
    ∃ impl c1, NewImpl parse s self text impl ∧
      (Cell.Set parse s self text).1.cellAt self = some c1 ∧ c1.impl_ = impl := by
  rcases Set_total parse hcell hne hold with ⟨ex, _, h1⟩ | ⟨impl, s2, s3, himpl, h2, h3, h1⟩
  · rw [h1] at hok; simp at hok
  · obtain ⟨c1, hc1, hi1⟩ := Set_success_self hcell h2 h3
    rw [newImpl_invalidate himpl] at hi1
    exact ⟨impl, c1, himpl, by rw [h1]; exact hc1, hi1⟩

/-- A `Cell::Set` with a new text that is not handed to the parser returns normally. -/
theorem Set_literal_ok (parse : String → Option FormulaAST) {s : Sheet} {self : Position}
    {text : String} {cell : Cell} (hcell : s.cellAt self = some cell)
    (hne : text ≠ cell.GetText) (hold : ∀ p ∈ cell.GetReferencedCells, p.IsValid = true)
    (hbody : formulaBody text = none) : (Cell.Set parse s self text).2 = none := by
  rcases Set_total parse hcell hne hold with ⟨ex, h0, _⟩ | ⟨impl, s2, s3, himpl, h2, h3, h1⟩
  · obtain ⟨_, e, he, _⟩ := SetImpl_err h0
    rw [hbody] at he; simp at he
  · rw [h1]; exact (InvalidateCache_spec s3 self).1

/-! ## Stored positions are valid -/

theorem Set_stored_valid (parse : String → Option FormulaAST) {s : Sheet} (self : Position)
    (text : String) (hrefs : s.RefsValid)
    (hall : ∀ q c, s.cellAt q = some c → q.IsValid = true) :
    ∀ q c, (Cell.Set parse s self text).1.cellAt q = some c → q.IsValid = true := by
  cases hcell : s.cellAt self with
  | none => rw [Set_absent hcell]; exact hall
  | some cell =>
    by_cases hne : text = cell.GetText
    · rw [Set_same hcell hne]; exact hall
    · have hold : ∀ p ∈ cell.GetReferencedCells, p.IsValid = true := by
        intro p hp
        exact hrefs self p ((Sheet.edge_of_cellAt hcell).2 hp)
      rcases Set_total parse hcell hne hold with
        ⟨ex, _, h1⟩ | ⟨impl, s2, s3, himpl, h2, h3, h1⟩
      · rw [h1]; exact hall
      · rw [h1]
        intro q c hq
        rcases Set_success_cellAt hcell h2 h3 q c hq with
          ⟨_, _, h⟩ | ⟨h, _⟩ | ⟨_, c0, hc0, _⟩
        · exact (newImpl_sound hcell himpl).2 q h
        · rw [h]; exact hall self cell hcell
        · exact hall q c0 hc0

theorem materialize_stored_valid {s : Sheet} {pos : Position} (hv : pos.IsValid = true)
    (hall : ∀ q c, s.cellAt q = some c → q.IsValid = true) :
    ∀ q c, (s.materialize pos).cellAt q = some c → q.IsValid = true := by
  intro q c hq
  rw [Sheet.cellAt_materialize] at hq
  by_cases hqp : q = pos
  · rw [hqp]; exact hv
  · rw [if_neg hqp] at hq; exact hall q c hq

theorem ClearCell_stored_valid (parse : String → Option FormulaAST) {s : Sheet}
    (pos : Position) (hrefs : s.RefsValid)
    (hall : ∀ q c, s.cellAt q = some c → q.IsValid = true) :
    ∀ q c, (Sheet.ClearCell parse s pos).1.cellAt q = some c → q.IsValid = true := by
  have h1 := Set_stored_valid parse pos "" hrefs hall
  rcases ClearCell_cases parse s pos with h | h | h
  · rw [h]; exact hall
  · rw [h]; exact h1
  · rw [h]
    intro q c hq
    rw [Sheet.cellAt_UpdateSizeSheet, Sheet.cellAt_erase] at hq
    split_ifs at hq
    exact h1 q c hq

/-- In every state reachable by edits and reads, a cell is stored at valid positions only. -/
theorem reachableV_stored_valid {parse : String → Option FormulaAST} {s : Sheet}
    (h : ReachableV parse s) : ∀ q c, s.cellAt q = some c → q.IsValid = true := by
  induction h with
  | empty => intro q c hq; simp [Sheet.cellAt, Sheet.empty, mapFind] at hq
  | setCell s pos text hs ih =>
    by_cases hv : pos.IsValid = true
    · rw [SetCell_valid hv]
      exact Set_stored_valid parse pos text
        (Sheet.graphInv_materialize pos (reachableV_graphInv hs)).1
        (materialize_stored_valid hv ih)
    · rw [SetCell_invalid hv]; exact ih
  | clearCell s pos hs ih => exact ClearCell_stored_valid parse pos (reachableV_graphInv hs).1 ih
  | getValue s pos fuel _ ih =>
    intro q c hq
    cases hc : s.cellAt q with
    | none =>
      have := (cacheFill_stored (GetValue_cacheFill fuel s pos) q).2 hc
      rw [this] at hq; simp at hq
    | some c0 => exact ih q c0 hc


/-! ## Kinds of cells in the states reachable by edits and reads -/

theorem SetCell_impl_inv (parse : String → Option FormulaAST) (Q : Impl → Prop)
    (hE : Q .EmptyImpl) (hI : ∀ i, Q i → Q i.InvalidateCache)
    (hnew : ∀ (s : Sheet) (self : Position) (text : String) (impl : Impl),
      NewImpl parse s self text impl → Q impl)
    {s : Sheet} (pos : Position) (text : String) (hinv : s.GraphInv)
    (hall : ∀ q c, s.cellAt q = some c → Q c.impl_) :
    ∀ q c, (Sheet.SetCell parse s pos text).1.cellAt q = some c → Q c.impl_ := by
  by_cases hv : pos.IsValid = true
  · rw [SetCell_valid hv]
    exact Set_impl_inv parse Q hE hI pos text (Sheet.graphInv_materialize pos hinv).1
      (hnew _ pos text) (Sheet.impl_inv_materialize Q hE pos hall)
  · rw [SetCell_invalid hv]; exact hall

theorem ClearCell_impl_inv (parse : String → Option FormulaAST) (Q : Impl → Prop)
    (hE : Q .EmptyImpl) (hI : ∀ i, Q i → Q i.InvalidateCache)
    (hnew : ∀ (s : Sheet) (self : Position) (text : String) (impl : Impl),
      NewImpl parse s self text impl → Q impl)
    {s : Sheet} (pos : Position) (hinv : s.GraphInv)
    (hall : ∀ q c, s.cellAt q = some c → Q c.impl_) :
    ∀ q c, (Sheet.ClearCell parse s pos).1.cellAt q = some c → Q c.impl_ := by
  have h1 := Set_impl_inv parse Q hE hI pos "" hinv.1 (hnew _ pos "") hall
  rcases ClearCell_cases parse s pos with h | h | h
  · rw [h]; exact hall
  · rw [h]; exact h1
  · rw [h]
    intro q c hq
    rw [Sheet.cellAt_UpdateSizeSheet, Sheet.cellAt_erase] at hq
    split_ifs at hq
    exact h1 q c hq

/-- A property of implementations that holds of the empty implementation, of the literal
implementations with non-empty text and of the formulas the parser returns, and survives a
cache reset and a cache fill, holds of every cell of every state reachable by edits and
reads. -/
theorem reachableV_impl_inv {parse : String → Option FormulaAST} (Q : Impl → Prop)
    (hE : Q .EmptyImpl) (hI : ∀ i, Q i → Q i.InvalidateCache)
    (hT : ∀ text, text ≠ "" → Q (.TextImpl text))
    (hF : ∀ e f, ParseFormula parse e = some f → Q (.FormulaImpl f none))
    (hC : ∀ f v, Q (.FormulaImpl f none) → Q (.FormulaImpl f (some v)))
    {s : Sheet} (h : ReachableV parse s) : ∀ q c, s.cellAt q = some c → Q c.impl_ := by
  have hnew : ∀ (s : Sheet) (self : Position) (text : String) (impl : Impl),
      NewImpl parse s self text impl → Q impl := by
    intro s self text impl himpl
    rcases himpl with ⟨rfl, _⟩ | ⟨rfl, h1, _⟩ | ⟨e, f, _, h2, rfl, _⟩
    · exact hE
    · exact hT text h1
    · exact hF e f h2
  induction h with
  | empty => intro q c hq; simp [Sheet.cellAt, Sheet.empty, mapFind] at hq
  | setCell s pos text hs ih =>
    exact SetCell_impl_inv parse Q hE hI hnew pos text (reachableV_graphInv hs) ih
  | clearCell s pos hs ih =>
    exact ClearCell_impl_inv parse Q hE hI hnew pos (reachableV_graphInv hs) ih
  | getValue s pos fuel _ ih =>
    intro q c hq
    rcases (GetValue_cacheFill fuel s pos).2.2.2 q with e | ⟨c0, f, v, hc0, hi0, hc1⟩
    · rw [e] at hq; exact ih q c hq
    · rw [hc1] at hq
      simp only [Option.some.injEq] at hq
      rw [← hq]
      have := ih q c0 hc0
      rw [hi0] at this
      exact hC f v this

/-! ## Escaped texts -/

theorem escape_data (str : String) : ("'" ++ str).data = ESCAPE_SIGN :: str.data := rfl

theorem formulaBody_escape (str : String) : formulaBody ("'" ++ str) = none := by
  unfold formulaBody
  rw [escape_data]
  simp only
  rw [if_neg]
  intro h
  exact absurd h.1 (by decide)

theorem escape_ne_empty (str : String) : "'" ++ str ≠ "" := by
  intro h
  have := congrArg String.data h
  rw [escape_data] at this
  simp at this

theorem TextImpl_GetValue_escape (str : String) :
    TextImpl_GetValue ("'" ++ str) = .text str := by
  unfold TextImpl_GetValue
  rw [escape_data]
  simp

/-- In a state reachable by edits and reads, a cell that shows an escaped text is a literal
cell. -/
theorem reachableV_escape {parse : String → Option FormulaAST} {s : Sheet}
    (h : ReachableV parse s) {q : Position} {c : Cell} (hc : s.cellAt q = some c)
    (str : String) (ht : c.GetText = "'" ++ str) : c.impl_ = .TextImpl ("'" ++ str) := by
  have hform : ∀ (f : Formula) (cache : Option Value),
      (Impl.FormulaImpl f cache).GetText = "'" ++ str →
        Impl.FormulaImpl f cache = .TextImpl ("'" ++ str) := by
    intro f cache ht
    exfalso
    have h1 := congrArg String.data ht
    rw [escape_data] at h1
    simp only [Impl.GetText, String.data_append] at h1
    simp only [List.singleton_append, List.cons.injEq] at h1
    exact absurd h1.1 (by decide)
  have := reachableV_impl_inv (fun i => i.GetText = "'" ++ str → i = .TextImpl ("'" ++ str))
    (fun ht => absurd ht.symm (escape_ne_empty str))
    (fun i hi ht => by
      rw [Impl.GetText_InvalidateCache] at ht
      rw [hi ht]; rfl)
    (fun text _ ht => by
      simp only [Impl.GetText] at ht
      rw [ht])
    (fun e f _ => hform f none)
    (fun f v _ => hform f (some v))
    h q c hc
  exact this ht


/-! ## Escape round trip and repeated edits -/

/-- C14: escape round trip. In every state reachable by edits and reads, for every string
`str` (the empty string and strings that begin with the formula sign or with another
apostrophe included) and every valid position, `SetCell` with the apostrophe followed by
`str` returns normally, and afterwards the cell at the position is a literal cell whose text
is the apostrophe followed by `str`, whose value is the text `str`, and which references no
cells. -/
theorem escape_round_trip (parse : String → Option FormulaAST) (s : Sheet) (pos : Position)
    (str : String) (h : ReachableV parse s) (hv : pos.IsValid = true) :
    (Sheet.SetCell parse s pos ("'" ++ str)).2 = none ∧
    ∃ c, (Sheet.SetCell parse s pos ("'" ++ str)).1.cellAt pos = some c ∧
      c.impl_ = .TextImpl ("'" ++ str) ∧
      c.GetText = "'" ++ str ∧
      c.GetReferencedCells = [] ∧
      (∀ fuel, Cell.GetValue (fuel + 1) (Sheet.SetCell parse s pos ("'" ++ str)).1 pos =
        ((Sheet.SetCell parse s pos ("'" ++ str)).1, .ok (.text str))) ∧
      Sheet.GetValue (Sheet.SetCell parse s pos ("'" ++ str)).1 pos =
        ((Sheet.SetCell parse s pos ("'" ++ str)).1, .ok (.text str)) := by
  have key : (Sheet.SetCell parse s pos ("'" ++ str)).2 = none ∧
      ∃ c, (Sheet.SetCell parse s pos ("'" ++ str)).1.cellAt pos = some c ∧
        c.impl_ = .TextImpl ("'" ++ str) := by
    have hr : ReachableV parse (Sheet.SetCell parse s pos ("'" ++ str)).1 :=
      ReachableV.setCell s pos _ h
    rw [SetCell_valid hv] at hr ⊢
    have hm := Sheet.cellAt_materialize_self s pos
    by_cases hne : "'" ++ str = ((s.cellAt pos).getD Cell.new).GetText
    · rw [Set_same hm hne] at hr ⊢
      exact ⟨rfl, _, hm, reachableV_escape hr hm str hne.symm⟩
    · have hold : ∀ p ∈ ((s.cellAt pos).getD Cell.new).GetReferencedCells,
          p.IsValid = true := by
        intro p hp
        exact (Sheet.graphInv_materialize pos (reachableV_graphInv h)).1 pos p
          ((Sheet.edge_of_cellAt hm).2 hp)
      have hok := Set_literal_ok parse hm hne hold (formulaBody_escape str)
      obtain ⟨impl, c1, himpl, hc1, hi1⟩ := Set_ok_self parse hm hne hold hok
      refine ⟨hok, c1, hc1, ?_⟩
      rcases himpl with ⟨_, h1⟩ | ⟨h1, _⟩ | ⟨e, f, h1, _⟩
      · exact absurd h1 (escape_ne_empty str)
      · rw [hi1, h1]
      · rw [formulaBody_escape] at h1; simp at h1
  obtain ⟨hok, c, hc, hi⟩ := key
  have hval : ∀ fuel, Cell.GetValue (fuel + 1) (Sheet.SetCell parse s pos ("'" ++ str)).1 pos =
      ((Sheet.SetCell parse s pos ("'" ++ str)).1, .ok (.text str)) := by
    intro fuel
    rw [GetValue_succ, hc]
    simp only [hi, TextImpl_GetValue_escape]
  refine ⟨hok, c, hc, hi, ?_, ?_, hval, hval _⟩
  · simp only [Cell.GetText, hi, Impl.GetText]
  · simp only [Cell.GetReferencedCells, hi, Impl.GetReferencedCells]

/-- A witness of C14: the escaped text of `=A1` set over the formula cell `A2`. -/
theorem escape_round_trip_witness :
    ReachableV exampleParse chainSheet ∧ A2.IsValid = true ∧
    (Sheet.SetCell exampleParse chainSheet A2 ("'" ++ "=A1")).2 = none ∧
    ∃ c, (Sheet.SetCell exampleParse chainSheet A2 ("'" ++ "=A1")).1.cellAt A2 = some c ∧
      c.impl_ = .TextImpl ("'" ++ "=A1") ∧
      c.GetText = "'" ++ "=A1" ∧
      c.GetReferencedCells = [] ∧
      (∀ fuel,
        Cell.GetValue (fuel + 1) (Sheet.SetCell exampleParse chainSheet A2 ("'" ++ "=A1")).1 A2 =
          ((Sheet.SetCell exampleParse chainSheet A2 ("'" ++ "=A1")).1, .ok (.text "=A1"))) ∧
      Sheet.GetValue (Sheet.SetCell exampleParse chainSheet A2 ("'" ++ "=A1")).1 A2 =
        ((Sheet.SetCell exampleParse chainSheet A2 ("'" ++ "=A1")).1, .ok (.text "=A1")) :=
  ⟨ReachableV.setCell _ A2 "=A3" (ReachableV.setCell _ A1 "=A2" ReachableV.empty), by decide,
    escape_round_trip exampleParse chainSheet A2 "=A1"
      (ReachableV.setCell _ A2 "=A3" (ReachableV.setCell _ A1 "=A2" ReachableV.empty))
      (by decide)⟩

/-- C13, as stated, fails: with a formula module whose canonical text drops blanks, the
text `= A1` is shown back as `=A1`, so a second `SetCell` with `= A1` is not recognised as
unchanged: it parses again and resets the cache that the read in between had filled. -/
theorem repeated_SetCell_counterexample :
    (Sheet.SetCell echoParse Sheet.empty B1 "= A1").2 = none ∧
    echoSheet = (Sheet.GetValue (Sheet.SetCell echoParse Sheet.empty B1 "= A1").1 B1).1 ∧
    echoSheet.textAt B1 = "=A1" ∧
    echoSheet.cacheAt B1 = some (.number 0) ∧
    (Sheet.SetCell echoParse echoSheet B1 "= A1").2 = none ∧
    (Sheet.SetCell echoParse echoSheet B1 "= A1").1.cacheAt B1 = none := by
  refine ⟨by decide, rfl, by decide, by decide, by decide, by decide⟩

/-- C13, amended: repeating a set does not reparse or invalidate when the text is the text
the cell shows. In every state reachable by edits and reads, if `SetCell(P, t)` returned
normally, `t` is not a formula text or the formula module prints its expression as it was
written, and since then only values were read, then a second `SetCell(P, t)` returns normally
and leaves the whole state as it was; in particular every cache is as it was. -/
theorem SetCell_repeat (parse : String → Option FormulaAST) (s s2 : Sheet) (pos : Position)
    (text : String) (h : ReachableV parse s)
    (hok : (Sheet.SetCell parse s pos text).2 = none)
    (hcanon : ∀ e ast, formulaBody text = some e → parse e = some ast → ast.printed = e)
    (hreads : Reads (Sheet.SetCell parse s pos text).1 s2) :
    Sheet.SetCell parse s2 pos text = (s2, none) ∧
    ∀ q, (Sheet.SetCell parse s2 pos text).1.cacheAt q = s2.cacheAt q := by
  have hv : pos.IsValid = true := by
    by_contra hv
    rw [SetCell_invalid hv] at hok
    simp at hok
  have hfill := reads_cacheFill hreads
  have htext : ∃ c1, (Sheet.SetCell parse s pos text).1.cellAt pos = some c1 ∧
      c1.GetText = text := by
    rw [SetCell_valid hv] at hok ⊢
    have hm := Sheet.cellAt_materialize_self s pos
    by_cases hne : text = ((s.cellAt pos).getD Cell.new).GetText
    · rw [Set_same hm hne]
      exact ⟨_, hm, hne.symm⟩
    · have hold : ∀ p ∈ ((s.cellAt pos).getD Cell.new).GetReferencedCells,
          p.IsValid = true := by
        intro p hp
        exact (Sheet.graphInv_materialize pos (reachableV_graphInv h)).1 pos p
          ((Sheet.edge_of_cellAt hm).2 hp)
      obtain ⟨impl, c1, himpl, hc1, hi1⟩ := Set_ok_self parse hm hne hold hok
      refine ⟨c1, hc1, ?_⟩
      unfold Cell.GetText
      rw [hi1]
      exact newImpl_text himpl hcanon
  obtain ⟨c1, hc1, ht1⟩ := htext
  have ht2 : s2.textAt pos = text := by
    rw [cacheFill_textAt hfill pos]
    unfold Sheet.textAt
    rw [hc1]
    exact ht1
  have hsame : Sheet.SetCell parse s2 pos text = (s2, none) := by
    cases hc2 : s2.cellAt pos with
    | none =>
      have := (cacheFill_stored hfill pos).1 hc2
      rw [hc1] at this
      simp at this
    | some c2 =>
      rw [SetCell_valid hv, Sheet.materialize_of_stored hc2]
      refine Set_same hc2 ?_
      unfold Sheet.textAt at ht2
      rw [hc2] at ht2
      exact ht2.symm
  refine ⟨hsame, ?_⟩
  intro q
  rw [hsame]

/-- A witness of C13 as amended: `set(B1, "=A1")`, a read of `B1`, and `set(B1, "=A1")`
again, with the module whose canonical text is the expression itself. -/
theorem SetCell_repeat_witness :
    (Sheet.SetCell exampleParse (Sheet.SetCell exampleParse Sheet.empty A1 "2").1 B1 "=A1").2
      = none ∧
    cachedSheet.cacheAt B1 = some (.number 2) ∧
    Sheet.SetCell exampleParse cachedSheet B1 "=A1" = (cachedSheet, none) ∧
    ∀ q, (Sheet.SetCell exampleParse cachedSheet B1 "=A1").1.cacheAt q = cachedSheet.cacheAt q :=
  ⟨by decide, by decide,
    SetCell_repeat exampleParse (Sheet.SetCell exampleParse Sheet.empty A1 "2").1 cachedSheet
      B1 "=A1" (ReachableV.setCell _ A1 "2" ReachableV.empty) (by decide)
      (fun e ast _ hp => by
        unfold exampleParse at hp
        split at hp
        · simp only [Option.some.injEq] at hp
          rw [← hp]
        · simp at hp)
      (Reads.getValue _ _ B1 _ (Reads.refl _))⟩


/-! ## Classification of a new text -/

theorem formulaBody_of_data {text : String} {rest : List Char}
    (h : text.data = FORMULA_SIGN :: rest) (hrest : rest ≠ []) :
    formulaBody text = some (String.mk rest) := by
  unfold formulaBody
  rw [h]
  simp [hrest]

theorem formulaBody_none_of_data {text : String}
    (h : ∀ rest, text.data = FORMULA_SIGN :: rest → rest = []) : formulaBody text = none := by
  unfold formulaBody
  cases hd : text.data with
  | nil => rfl
  | cons c r =>
    simp only
    rw [if_neg]
    rintro ⟨hc, hr⟩
    rw [hc] at hd
    exact hr (h r hd)

/-- C15: classification of a new text by `Cell::Set`, in every state reachable by edits and
reads, for a stored cell and a text other than the one it shows. The empty text yields an
empty cell (text empty, value the number zero). A text that begins with the formula sign and
is longer than that sign is handed, without its first character, to the parser: a parse
failure is the `FormulaException` of the call, and a call that returns normally leaves a
formula cell holding the parsed formula, whose text is the formula sign followed by the
expression the formula prints. Every other text, the bare formula sign included, yields a
literal cell whose text is that text, whose value is the text (without its first character
when that is the apostrophe) and which has no references; the call returns normally and its
result is the same whatever the parser is. -/
theorem Set_classification (parse : String → Option FormulaAST) (s : Sheet) (self : Position)
    (cell : Cell) (text : String) (h : ReachableV parse s)
    (hcell : s.cellAt self = some cell) (hne : text ≠ cell.GetText) :
    (text = "" →
      (Cell.Set parse s self text).2 = none ∧
      ∃ c1, (Cell.Set parse s self text).1.cellAt self = some c1 ∧
        c1.impl_ = .EmptyImpl ∧ c1.GetText = "" ∧
        ∀ fuel, (Cell.GetValue (fuel + 1) (Cell.Set parse s self text).1 self).2 =
          .ok (.number 0)) ∧
    (∀ rest, text.data = FORMULA_SIGN :: rest → rest ≠ [] →
      (parse (String.mk rest) = none →
        Cell.Set parse s self text = (s, some .FormulaException)) ∧
      (∀ ast, parse (String.mk rest) = some ast → (Cell.Set parse s self text).2 = none →
        ∃ c1, (Cell.Set parse s self text).1.cellAt self = some c1 ∧
          c1.impl_ = .FormulaImpl ⟨ast⟩ none ∧
          c1.GetText = "=" ++ (Formula.mk ast).GetExpression)) ∧
    (text ≠ "" → (∀ rest, text.data = FORMULA_SIGN :: rest → rest = []) →
      (Cell.Set parse s self text).2 = none ∧
      (∀ parse2 : String → Option FormulaAST,
        Cell.Set parse2 s self text = Cell.Set parse s self text) ∧
      ∃ c1, (Cell.Set parse s self text).1.cellAt self = some c1 ∧
        c1.impl_ = .TextImpl text ∧ c1.GetText = text ∧ c1.GetReferencedCells = [] ∧
        (∀ fuel, (Cell.GetValue (fuel + 1) (Cell.Set parse s self text).1 self).2 =
          .ok (TextImpl_GetValue text)) ∧
        (∀ rest, text.data = ESCAPE_SIGN :: rest →
          TextImpl_GetValue text = .text (String.mk rest)) ∧
        ((∀ rest, text.data ≠ ESCAPE_SIGN :: rest) → TextImpl_GetValue text = .text text)) := by
  have hold : ∀ p ∈ cell.GetReferencedCells, p.IsValid = true := by
    intro p hp
    exact (reachableV_graphInv h).1 self p ((Sheet.edge_of_cellAt hcell).2 hp)
  refine ⟨?_, ?_, ?_⟩
  · intro ht
    subst ht
    have hok := Set_literal_ok parse hcell hne hold formulaBody_empty
    obtain ⟨impl, c1, himpl, hc1, hi1⟩ := Set_ok_self parse hcell hne hold hok
    have hE : impl = .EmptyImpl := by
      rcases himpl with ⟨h1, _⟩ | ⟨_, h1, _⟩ | ⟨e, f, h1, _⟩
      · exact h1
      · exact absurd rfl h1
      · rw [formulaBody_empty] at h1; simp at h1
    rw [hE] at hi1
    refine ⟨hok, c1, hc1, hi1, ?_, ?_⟩
    · simp only [Cell.GetText, hi1, Impl.GetText]
    · intro fuel
      rw [GetValue_succ, hc1]
      simp only [hi1]
  · intro rest hd hrest
    have hb := formulaBody_of_data hd hrest
    constructor
    · intro hp
      rcases Set_total parse hcell hne hold with
        ⟨ex, h0, h1⟩ | ⟨impl, s2, s3, himpl, _, _, _⟩
      · obtain ⟨_, e, he, hcase⟩ := SetImpl_err h0
        rw [hb] at he
        simp only [Option.some.injEq] at he
        subst he
        rcases hcase with ⟨_, hex⟩ | ⟨f, hf, _⟩
        · rw [h1, hex]
        · simp [ParseFormula, hp] at hf
      · exfalso
        rcases himpl with ⟨_, h1⟩ | ⟨_, _, h1⟩ | ⟨e, f, h1, hf, _⟩
        · rw [h1, formulaBody_empty] at hb; simp at hb
        · rw [hb] at h1; simp at h1
        · rw [hb] at h1
          simp only [Option.some.injEq] at h1
          subst h1
          simp [ParseFormula, hp] at hf
    · intro ast hp hok
      obtain ⟨impl, c1, himpl, hc1, hi1⟩ := Set_ok_self parse hcell hne hold hok
      have hF : impl = .FormulaImpl ⟨ast⟩ none := by
        rcases himpl with ⟨_, h1⟩ | ⟨_, _, h1⟩ | ⟨e, f, h1, hf, hi, _⟩
        · rw [h1, formulaBody_empty] at hb; simp at hb
        · rw [hb] at h1; simp at h1
        · rw [hb] at h1
          simp only [Option.some.injEq] at h1
          subst h1
          simp only [ParseFormula, hp, Option.map_some', Option.some.injEq] at hf
          rw [hi, ← hf]
      rw [hF] at hi1
      refine ⟨c1, hc1, hi1, ?_⟩
      simp only [Cell.GetText, hi1, Impl.GetText]
  · intro ht hd
    have hb := formulaBody_none_of_data hd
    have hok := Set_literal_ok parse hcell hne hold hb
    obtain ⟨impl, c1, himpl, hc1, hi1⟩ := Set_ok_self parse hcell hne hold hok
    have hT : impl = .TextImpl text := by
      rcases himpl with ⟨_, h1⟩ | ⟨h1, _⟩ | ⟨e, f, h1, _⟩
      · exact absurd h1 ht
      · exact h1
      · rw [hb] at h1; simp at h1
    rw [hT] at hi1
    refine ⟨hok, ?_, c1, hc1, hi1, ?_, ?_, ?_, ?_, ?_⟩
    · intro parse2
      unfold Cell.Set
      rw [hcell]
      simp only [if_neg hne, SetImpl_eq, if_neg ht, hb]
    · simp only [Cell.GetText, hi1, Impl.GetText]
    · simp only [Cell.GetReferencedCells, hi1, Impl.GetReferencedCells]
    · intro fuel
      rw [GetValue_succ, hc1]
      simp only [hi1]
    · intro rest hr
      unfold TextImpl_GetValue
      rw [hr]
      simp
    · intro hr
      unfold TextImpl_GetValue
      cases hdd : text.data with
      | nil => rfl
      | cons c r =>
        simp only
        rw [if_neg]
        intro hc
        rw [hc] at hdd
        exact hr r hdd

/-- A witness of C15: the bare formula sign set on the empty cell `A3` yields a literal. -/
theorem Set_classification_witness :
    ReachableV exampleParse chainSheet ∧
    (Cell.Set exampleParse chainSheet A3 "=").2 = none ∧
    (∀ parse2 : String → Option FormulaAST,
      Cell.Set parse2 chainSheet A3 "=" = Cell.Set exampleParse chainSheet A3 "=") ∧
    ∃ c1, (Cell.Set exampleParse chainSheet A3 "=").1.cellAt A3 = some c1 ∧
      c1.impl_ = .TextImpl "=" ∧ c1.GetText = "=" ∧ c1.GetReferencedCells = [] ∧
      (∀ fuel, (Cell.GetValue (fuel + 1) (Cell.Set exampleParse chainSheet A3 "=").1 A3).2 =
        .ok (TextImpl_GetValue "=")) ∧
      (∀ rest, "=".data = ESCAPE_SIGN :: rest →
        TextImpl_GetValue "=" = .text (String.mk rest)) ∧
      ((∀ rest, "=".data ≠ ESCAPE_SIGN :: rest) → TextImpl_GetValue "=" = .text "=") :=
  ⟨ReachableV.setCell _ A2 "=A3" (ReachableV.setCell _ A1 "=A2" ReachableV.empty),
    (Set_classification exampleParse chainSheet A3 ((chainSheet.cellAt A3).getD Cell.new) "="
      (ReachableV.setCell _ A2 "=A3" (ReachableV.setCell _ A1 "=A2" ReachableV.empty))
      rfl (by decide)).2.2 (by decide)
      (fun rest hr => by
        have h2 : "=".data = [FORMULA_SIGN] := rfl
        rw [h2] at hr
        simp only [List.cons.injEq, true_and] at hr
        exact hr.symm)⟩


/-! ## The printable size from the stored cells -/

theorem countersTight_size {s : Sheet} (h : s.CountersTight) :
    s.GetPrintableSize = (s.rowBound, s.colBound) := by
  unfold Sheet.GetPrintableSize Sheet.rowBound Sheet.colBound
  rw [tightCounter_length_eq Position.row h.2.1, tightCounter_length_eq Position.col h.2.2]

theorem Sheet.stored_of_mem_keys {s : Sheet} {p : Position} (h : p ∈ s.keys) :
    ∃ c, s.cellAt p = some c :=
  mapFind_some_of_mem h

/-- The bound of a coordinate over the stored cells, from an upper bound that a stored cell
attains. -/
theorem bound_eq {s : Sheet} (g : Position → Nat) {B : Nat}
    (hle : ∀ q c, s.cellAt q = some c → g q + 1 ≤ B)
    (hex : ∃ q c, s.cellAt q = some c ∧ g q + 1 = B) :
    (s.keys.map (fun p => g p + 1)).foldr max 0 = B := by
  apply le_antisymm
  · apply foldr_max_le
    intro x hx
    obtain ⟨c, hc⟩ := Sheet.stored_of_mem_keys hx
    exact hle x c hc
  · obtain ⟨q, c, hc, hq⟩ := hex
    rw [← hq]
    exact le_foldr_max (fun p => g p + 1) s.keys q (Sheet.mem_keys_of_cellAt hc)

theorem bound_zero {s : Sheet} (g : Position → Nat) (h : ∀ q, s.cellAt q = none) :
    (s.keys.map (fun p => g p + 1)).foldr max 0 = 0 := by
  apply Nat.eq_zero_of_le_zero
  apply foldr_max_le
  intro x hx
  obtain ⟨c, hc⟩ := Sheet.stored_of_mem_keys hx
  rw [h x] at hc
  simp at hc

/-- `ClearCell` on a stored cell that `Cell::Clear` leaves without reverse references erases
the cell and counts it off. -/
theorem ClearCell_erases (parse : String → Option FormulaAST) {s : Sheet} {pos : Position}
    {c c1 : Cell} (hv : pos.IsValid = true) (hc : s.cellAt pos = some c)
    (hok : (Cell.Set parse s pos "").2 = none)
    (hc1 : (Cell.Set parse s pos "").1.cellAt pos = some c1) (href : c1.reverse_ref_ = []) :
    Sheet.ClearCell parse s pos =
      (Sheet.UpdateSizeSheet ((Cell.Set parse s pos "").1.erase pos) pos (-1), none) := by
  rw [ClearCell_eq, if_pos hv, hc]
  simp only [hok, hc1]
  rw [if_neg]
  simp [Cell.IsReferenced, href]

/-! ## One formula with one referent on the empty sheet -/

theorem materialize_empty_cellAt (P q : Position) :
    (Sheet.empty.materialize P).cellAt q = if q = P then some Cell.new else none := by
  rw [Sheet.cellAt_materialize]
  rfl

/-- The state after `SetCell(P, text)` on the empty sheet, for a formula text whose formula
references exactly `Q`: the formula cell at `P`, an empty cell at `Q` that records `P` as its
dependent, and nothing else. -/
theorem SetCell_single_ref (parse : String → Option FormulaAST) (P Q : Position)
    (text e : String) (ast : FormulaAST) (hP : P.IsValid = true) (hQ : Q.IsValid = true)
    (hPQ : P ≠ Q) (hb : formulaBody text = some e) (hp : parse e = some ast)
    (href : (Formula.mk ast).GetReferencedCells = [Q]) :
    (Sheet.SetCell parse Sheet.empty P text).2 = none ∧
    ∀ q, (Sheet.SetCell parse Sheet.empty P text).1.cellAt q =
      if q = Q then some ⟨.EmptyImpl, [P]⟩
      else if q = P then some ⟨.FormulaImpl ⟨ast⟩ none, []⟩ else none := by
  rw [SetCell_valid hP]
  have hm : (Sheet.empty.materialize P).cellAt P = some Cell.new := by
    rw [materialize_empty_cellAt, if_pos rfl]
  have hinv := Sheet.graphInv_materialize P Sheet.graphInv_empty
  have hne : text ≠ Cell.new.GetText := by
    intro ht
    rw [ht] at hb
    exact absurd hb (by simp [Cell.new, Cell.GetText, Impl.GetText, formulaBody_empty])
  have hold : ∀ p ∈ Cell.new.GetReferencedCells, p.IsValid = true := by
    intro p hp; simp [Cell.new, Cell.GetReferencedCells, Impl.GetReferencedCells] at hp
  have hpf : ParseFormula parse e = some ⟨ast⟩ := by simp [ParseFormula, hp]
  have hnocycle : Cell.FindCircularDependency
      ((Sheet.empty.materialize P).setImpl P (.FormulaImpl ⟨ast⟩ none)) P = none := by
    rcases candidate_verdict ⟨ast⟩ hm hinv.2.1 hinv.1 hP
        (by intro p hp; rw [href] at hp; simp at hp; rw [hp]; exact hQ) with
      ⟨⟨r, hr, hreach⟩, _⟩ | ⟨_, hnone⟩
    · exfalso
      rw [href] at hr
      simp only [List.mem_singleton] at hr
      subst hr
      rcases Relation.ReflTransGen.cases_head hreach with h1 | ⟨c, hc, _⟩
      · exact hPQ h1.symm
      · unfold Sheet.Edge Sheet.refsAt at hc
        rw [materialize_empty_cellAt, if_neg (Ne.symm hPQ)] at hc
        simp at hc
    · exact hnone
  rcases Set_total parse hm hne hold with ⟨ex, h0, _⟩ | ⟨impl, s2, s3, himpl, h2, h3, h1⟩
  · exfalso
    obtain ⟨_, e1, he1, hcase⟩ := SetImpl_err h0
    rw [hb] at he1
    simp only [Option.some.injEq] at he1
    subst he1
    rcases hcase with ⟨hnone, _⟩ | ⟨f, hf, hfind⟩
    · rw [hpf] at hnone; simp at hnone
    · rw [hpf] at hf
      simp only [Option.some.injEq] at hf
      subst hf
      rw [hnocycle] at hfind
      simp at hfind
  · have hF : impl = .FormulaImpl ⟨ast⟩ none := by
      rcases himpl with ⟨_, h4⟩ | ⟨_, _, h4⟩ | ⟨e1, f, h4, hf, hi, _⟩
      · rw [h4, formulaBody_empty] at hb; simp at hb
      · rw [hb] at h4; simp at h4
      · rw [hb] at h4
        simp only [Option.some.injEq] at h4
        subst h4
        rw [hpf] at hf
        simp only [Option.some.injEq] at hf
        rw [hi, ← hf]
    subst hF
    have hs2 : s2 = (Sheet.empty.materialize P).setImpl P (.FormulaImpl ⟨ast⟩ none) := by
      have : Cell.new.GetReferencedCells = [] := rfl
      rw [this] at h2
      simp only [Cell.RemoveReverseRef, Prod.mk.injEq, and_true] at h2
      exact h2.symm
    have hrefs3 : (Impl.FormulaImpl ⟨ast⟩ none).GetReferencedCells = [Q] := href
    rw [hrefs3] at h3
    have e3 := AddReverseRefLoop_cellAt P [Q] s2 (by rw [h3])
    rw [h3] at e3
    simp only at e3
    have hs3 : ∀ q, s3.cellAt q =
        if q = Q then some ⟨.EmptyImpl, [P]⟩
        else if q = P then some ⟨.FormulaImpl ⟨ast⟩ none, []⟩ else none := by
      intro q
      rw [e3 q, hs2, Sheet.cellAt_setImpl, materialize_empty_cellAt]
      by_cases hqQ : q = Q
      · subst hqQ
        simp only [List.mem_singleton, if_true, if_neg (Ne.symm hPQ)]
        rfl
      · simp only [List.mem_singleton, hqQ, if_false]
        by_cases hqP : q = P
        · simp only [hqP, if_true]
          rfl
        · simp only [hqP, if_false]
    rw [h1]
    refine ⟨(InvalidateCache_spec s3 P).1, ?_⟩
    intro q
    rw [InvalidateCache_fixed P ?_ q, hs3 q]
    intro q c hc
    rw [hs3 q] at hc
    split_ifs at hc <;> simp only [Option.some.injEq] at hc <;> rw [← hc] <;> rfl


/-! ## Clearing the formula and then its referent -/

/-- Clearing the only formula of such a sheet erases its cell and leaves the referent as an
empty cell without dependents. -/
theorem ClearCell_single_ref (parse : String → Option FormulaAST) {s1 : Sheet} (P Q : Position)
    (ast : FormulaAST) (hP : P.IsValid = true) (hQ : Q.IsValid = true) (hPQ : P ≠ Q)
    (href : (Formula.mk ast).GetReferencedCells = [Q])
    (hcell1 : ∀ q, s1.cellAt q =
      if q = Q then some ⟨.EmptyImpl, [P]⟩
      else if q = P then some ⟨.FormulaImpl ⟨ast⟩ none, []⟩ else none) :
    (Sheet.ClearCell parse s1 P).2 = none ∧
    ∀ q, (Sheet.ClearCell parse s1 P).1.cellAt q =
      if q = Q then some ⟨.EmptyImpl, []⟩ else none := by
  have hcP : s1.cellAt P = some ⟨.FormulaImpl ⟨ast⟩ none, []⟩ := by
    rw [hcell1 P, if_neg hPQ, if_pos rfl]
  have hcQ : s1.cellAt Q = some ⟨.EmptyImpl, [P]⟩ := by
    rw [hcell1 Q, if_pos rfl]
  have hne : "" ≠ (⟨.FormulaImpl ⟨ast⟩ none, []⟩ : Cell).GetText := by
    intro h
    have := congrArg String.data h
    simp [Cell.GetText, Impl.GetText] at this
  have hold : ∀ p ∈ (⟨.FormulaImpl ⟨ast⟩ none, []⟩ : Cell).GetReferencedCells,
      p.IsValid = true := by
    intro p hp
    have hp1 : p ∈ (Formula.mk ast).GetReferencedCells := hp
    rw [href] at hp1
    simp only [List.mem_singleton] at hp1
    rw [hp1]; exact hQ
  have hset : (Cell.Set parse s1 P "").2 = none ∧
      ∀ q, (Cell.Set parse s1 P "").1.cellAt q =
        if q = Q then some ⟨.EmptyImpl, []⟩
        else if q = P then some ⟨.EmptyImpl, []⟩ else none := by
    rcases Set_total parse hcP hne hold with ⟨ex, h0, _⟩ | ⟨impl, s2, s3, himpl, h2, h3, h1⟩
    · exfalso
      obtain ⟨_, e1, he1, _⟩ := SetImpl_err h0
      rw [formulaBody_empty] at he1; simp at he1
    · have hE : impl = .EmptyImpl := by
        rcases himpl with ⟨h4, _⟩ | ⟨_, h4, _⟩ | ⟨e1, f, h4, _⟩
        · exact h4
        · exact absurd rfl h4
        · rw [formulaBody_empty] at h4; simp at h4
      subst hE
      have hrefs : (⟨.FormulaImpl ⟨ast⟩ none, []⟩ : Cell).GetReferencedCells = [Q] := href
      rw [hrefs] at h2
      have e2 := RemoveReverseRef_cellAt P [Q] (s1.setImpl P .EmptyImpl) (by rw [h2])
      rw [h2] at e2
      simp only at e2
      have hs3 : s3 = s2 := by
        have : Impl.EmptyImpl.GetReferencedCells = [] := rfl
        rw [this] at h3
        simp only [Cell.AddReverseRefLoop, Prod.mk.injEq, and_true] at h3
        exact h3.symm
      subst hs3
      have hs3c : ∀ q, s3.cellAt q =
          if q = Q then some ⟨.EmptyImpl, []⟩
          else if q = P then some ⟨.EmptyImpl, []⟩ else none := by
        intro q
        rw [e2 q, Sheet.cellAt_setImpl, hcell1 q]
        by_cases hqQ : q = Q
        · subst hqQ
          simp [if_neg (Ne.symm hPQ), Cell.eraseReverse]
        · simp only [List.mem_singleton, hqQ, if_false]
          by_cases hqP : q = P
          · simp only [hqP, if_true]
            rfl
          · simp only [hqP, if_false]
      rw [h1]
      refine ⟨(InvalidateCache_spec s3 P).1, ?_⟩
      intro q
      rw [InvalidateCache_fixed P ?_ q, hs3c q]
      intro q c hc
      rw [hs3c q] at hc
      split_ifs at hc <;> simp only [Option.some.injEq] at hc <;> rw [← hc] <;> rfl
  obtain ⟨hok, hsc⟩ := hset
  have hc1 : (Cell.Set parse s1 P "").1.cellAt P = some ⟨.EmptyImpl, []⟩ := by
    rw [hsc P, if_neg hPQ, if_pos rfl]
  rw [ClearCell_erases parse hP hcP hok hc1 rfl]
  refine ⟨rfl, ?_⟩
  intro q
  simp only
  rw [Sheet.cellAt_UpdateSizeSheet, Sheet.cellAt_erase, hsc q]
  by_cases hqQ : q = Q
  · subst hqQ
    simp [Ne.symm hPQ]
  · by_cases hqP : q = P
    · simp [hqP, hPQ]
    · simp [hqQ, hqP]

/-- Clearing the only cell of a sheet, an empty cell without dependents, leaves no cell. -/
theorem ClearCell_last (parse : String → Option FormulaAST) {s : Sheet} (Q : Position)
    (hQ : Q.IsValid = true)
    (hcell : ∀ q, s.cellAt q = if q = Q then some ⟨.EmptyImpl, []⟩ else none) :
    (Sheet.ClearCell parse s Q).2 = none ∧ ∀ q, (Sheet.ClearCell parse s Q).1.cellAt q = none := by
  have hcQ : s.cellAt Q = some ⟨.EmptyImpl, []⟩ := by rw [hcell Q, if_pos rfl]
  have hsame : Cell.Set parse s Q "" = (s, none) := Set_same hcQ rfl
  have hok : (Cell.Set parse s Q "").2 = none := by rw [hsame]
  have hc1 : (Cell.Set parse s Q "").1.cellAt Q = some ⟨.EmptyImpl, []⟩ := by
    rw [hsame]; exact hcQ
  rw [ClearCell_erases parse hQ hcQ hok hc1 rfl, hsame]
  refine ⟨rfl, ?_⟩
  intro q
  simp only
  rw [Sheet.cellAt_UpdateSizeSheet, Sheet.cellAt_erase, hcell q]
  by_cases hqQ : q = Q <;> simp [hqQ]


/-! ## Materialized referents -/

/-- C16, as stated, fails: after `set(A1, "=B5")` on the empty sheet, with `B5` the position
of row 4 and column 1 and the formula referencing exactly `B5`, the printable size is not
`(5, 1)`: it is `(5, 2)`. -/
theorem materialization_size_counterexample :
    B5 = ⟨4, 1⟩ ∧
    (Sheet.SetCell exampleParse Sheet.empty A1 "=B5").2 = none ∧
    (Sheet.SetCell exampleParse Sheet.empty A1 "=B5").1.refsAt A1 = [B5] ∧
    (Sheet.SetCell exampleParse Sheet.empty A1 "=B5").1.GetPrintableSize ≠ (5, 1) ∧
    (Sheet.SetCell exampleParse Sheet.empty A1 "=B5").1.GetPrintableSize = (5, 2) := by
  decide

/-- C16, amended: materialization on reference. Starting from the empty sheet, after
`SetCell(A1, "=B5")`, for every formula module that parses `B5` to a formula referencing
exactly the position `B5` (row 4, column 1), the call has returned normally, a cell is stored
at `B5`, it is an empty cell (text empty, no references) that records `A1` as its dependent,
and `GetPrintableSize()` is `(5, 2)`. -/
theorem materialization_on_reference (parse : String → Option FormulaAST) (ast : FormulaAST)
    (hp : parse "B5" = some ast) (href : (Formula.mk ast).GetReferencedCells = [B5]) :
    (Sheet.SetCell parse Sheet.empty A1 "=B5").2 = none ∧
    (Sheet.SetCell parse Sheet.empty A1 "=B5").1.cellAt B5 = some ⟨.EmptyImpl, [A1]⟩ ∧
    (Sheet.SetCell parse Sheet.empty A1 "=B5").1.textAt B5 = "" ∧
    (Sheet.SetCell parse Sheet.empty A1 "=B5").1.refsAt B5 = [] ∧
    (Sheet.SetCell parse Sheet.empty A1 "=B5").1.refsAt A1 = [B5] ∧
    (Sheet.SetCell parse Sheet.empty A1 "=B5").1.GetPrintableSize = (5, 2) := by
  obtain ⟨hok, hcell⟩ := SetCell_single_ref parse A1 B5 "=B5" "B5" ast (by decide) (by decide)
    (by decide) (by decide) hp href
  have hr : Reachable parse (Sheet.SetCell parse Sheet.empty A1 "=B5").1 :=
    Reachable.setCell _ _ _ Reachable.empty
  have hB : (Sheet.SetCell parse Sheet.empty A1 "=B5").1.cellAt B5 = some ⟨.EmptyImpl, [A1]⟩ := by
    rw [hcell B5, if_pos rfl]
  have hA : (Sheet.SetCell parse Sheet.empty A1 "=B5").1.cellAt A1 =
      some ⟨.FormulaImpl ⟨ast⟩ none, []⟩ := by
    rw [hcell A1, if_neg (by decide), if_pos rfl]
  refine ⟨hok, hB, ?_, ?_, ?_, ?_⟩
  · unfold Sheet.textAt; rw [hB]; rfl
  · unfold Sheet.refsAt; rw [hB]; rfl
  · unfold Sheet.refsAt; rw [hA]; exact href
  · rw [countersTight_size (reachable_countersTight hr)]
    have hle : ∀ q c, (Sheet.SetCell parse Sheet.empty A1 "=B5").1.cellAt q = some c →
        q = B5 ∨ q = A1 := by
      intro q c hc
      rw [hcell q] at hc
      by_cases h1 : q = B5
      · exact Or.inl h1
      · by_cases h2 : q = A1
        · exact Or.inr h2
        · simp [h1, h2] at hc
    have h1 : (Sheet.SetCell parse Sheet.empty A1 "=B5").1.rowBound = 5 :=
      bound_eq Position.row
        (fun q c hc => by rcases hle q c hc with h | h <;> rw [h] <;> decide)
        ⟨B5, _, hB, rfl⟩
    have h2 : (Sheet.SetCell parse Sheet.empty A1 "=B5").1.colBound = 2 :=
      bound_eq Position.col
        (fun q c hc => by rcases hle q c hc with h | h <;> rw [h] <;> decide)
        ⟨B5, _, hB, rfl⟩
    rw [h1, h2]

/-- A witness of C16 as amended, with the example formula module. -/
theorem materialization_on_reference_witness :
    (Sheet.SetCell exampleParse Sheet.empty A1 "=B5").2 = none ∧
    (Sheet.SetCell exampleParse Sheet.empty A1 "=B5").1.cellAt B5 = some ⟨.EmptyImpl, [A1]⟩ ∧
    (Sheet.SetCell exampleParse Sheet.empty A1 "=B5").1.textAt B5 = "" ∧
    (Sheet.SetCell exampleParse Sheet.empty A1 "=B5").1.refsAt B5 = [] ∧
    (Sheet.SetCell exampleParse Sheet.empty A1 "=B5").1.refsAt A1 = [B5] ∧
    (Sheet.SetCell exampleParse Sheet.empty A1 "=B5").1.GetPrintableSize = (5, 2) :=
  materialization_on_reference exampleParse ⟨[B5], "B5", exampleExec [B5] 0⟩ rfl (by decide)

/-- C20: referents materialized by a formula are not collected when the formula goes away.
For every valid, distinct positions `P` and `Q`, starting from the empty sheet, after
`SetCell(P, text)` with a formula text whose formula references exactly `Q`, followed by
`ClearCell(P)`: both calls return normally, no cell is stored at `P`, an empty cell with an
empty `reverse_ref_` is still stored at `Q`, and `GetPrintableSize()` is
`(Q.row + 1, Q.col + 1)`, not `(0, 0)`; a further `ClearCell(Q)` returns normally, leaves no
cell and brings the size to `(0, 0)`. -/
theorem referent_not_collected (parse : String → Option FormulaAST) (P Q : Position)
    (text e : String) (ast : FormulaAST) (hP : P.IsValid = true) (hQ : Q.IsValid = true)
    (hPQ : P ≠ Q) (hb : formulaBody text = some e) (hp : parse e = some ast)
    (href : (Formula.mk ast).GetReferencedCells = [Q]) :
    (Sheet.SetCell parse Sheet.empty P text).2 = none ∧
    (Sheet.ClearCell parse (Sheet.SetCell parse Sheet.empty P text).1 P).2 = none ∧
    (Sheet.ClearCell parse (Sheet.SetCell parse Sheet.empty P text).1 P).1.cellAt P = none ∧
    (Sheet.ClearCell parse (Sheet.SetCell parse Sheet.empty P text).1 P).1.cellAt Q =
      some ⟨.EmptyImpl, []⟩ ∧
    (Sheet.ClearCell parse (Sheet.SetCell parse Sheet.empty P text).1 P).1.GetPrintableSize =
      (Q.row + 1, Q.col + 1) ∧
    (Sheet.ClearCell parse (Sheet.SetCell parse Sheet.empty P text).1 P).1.GetPrintableSize ≠
      (0, 0) ∧
    (Sheet.ClearCell parse
      (Sheet.ClearCell parse (Sheet.SetCell parse Sheet.empty P text).1 P).1 Q).2 = none ∧
    (∀ q, (Sheet.ClearCell parse
      (Sheet.ClearCell parse (Sheet.SetCell parse Sheet.empty P text).1 P).1 Q).1.cellAt q
        = none) ∧
    (Sheet.ClearCell parse
      (Sheet.ClearCell parse (Sheet.SetCell parse Sheet.empty P text).1 P).1
        Q).1.GetPrintableSize = (0, 0) := by
  obtain ⟨hok1, hcell1⟩ := SetCell_single_ref parse P Q text e ast hP hQ hPQ hb hp href
  have hr1 : Reachable parse (Sheet.SetCell parse Sheet.empty P text).1 :=
    Reachable.setCell _ _ _ Reachable.empty
  generalize (Sheet.SetCell parse Sheet.empty P text).1 = s1 at hcell1 hr1 ⊢
  obtain ⟨hok2, hcell2⟩ := ClearCell_single_ref parse P Q ast hP hQ hPQ href hcell1
  have hr2 : Reachable parse (Sheet.ClearCell parse s1 P).1 := Reachable.clearCell _ _ hr1
  generalize (Sheet.ClearCell parse s1 P).1 = s2 at hcell2 hr2 ⊢
  obtain ⟨hok3, hcell3⟩ := ClearCell_last parse Q hQ hcell2
  have hr3 : Reachable parse (Sheet.ClearCell parse s2 Q).1 := Reachable.clearCell _ _ hr2
  have hQ2 : s2.cellAt Q = some ⟨.EmptyImpl, []⟩ := by rw [hcell2 Q, if_pos rfl]
  have hsize2 : s2.GetPrintableSize = (Q.row + 1, Q.col + 1) := by
    rw [countersTight_size (reachable_countersTight hr2)]
    have hle : ∀ q c, s2.cellAt q = some c → q = Q := by
      intro q c hc
      rw [hcell2 q] at hc
      by_contra h1
      simp [h1] at hc
    have h1 : s2.rowBound = Q.row + 1 :=
      bound_eq Position.row (fun q c hc => by rw [hle q c hc]) ⟨Q, _, hQ2, rfl⟩
    have h2 : s2.colBound = Q.col + 1 :=
      bound_eq Position.col (fun q c hc => by rw [hle q c hc]) ⟨Q, _, hQ2, rfl⟩
    rw [h1, h2]
  refine ⟨hok1, hok2, ?_, hQ2, hsize2, ?_, hok3, hcell3, ?_⟩
  · rw [hcell2 P, if_neg hPQ]
  · rw [hsize2]
    simp
  · rw [countersTight_size (reachable_countersTight hr3)]
    have h1 : (Sheet.ClearCell parse s2 Q).1.rowBound = 0 := bound_zero Position.row hcell3
    have h2 : (Sheet.ClearCell parse s2 Q).1.colBound = 0 := bound_zero Position.col hcell3
    rw [h1, h2]

/-- A witness of C20: `set(A1, "=C3"); clear(A1); clear(C3)` on the empty sheet. -/
theorem referent_not_collected_witness :
    (Sheet.SetCell exampleParse Sheet.empty A1 "=C3").2 = none ∧
    (Sheet.ClearCell exampleParse (Sheet.SetCell exampleParse Sheet.empty A1 "=C3").1 A1).2
      = none ∧
    (Sheet.ClearCell exampleParse (Sheet.SetCell exampleParse Sheet.empty A1 "=C3").1
      A1).1.cellAt A1 = none ∧
    (Sheet.ClearCell exampleParse (Sheet.SetCell exampleParse Sheet.empty A1 "=C3").1
      A1).1.cellAt C3 = some ⟨.EmptyImpl, []⟩ ∧
    (Sheet.ClearCell exampleParse (Sheet.SetCell exampleParse Sheet.empty A1 "=C3").1
      A1).1.GetPrintableSize = (C3.row + 1, C3.col + 1) ∧
    (Sheet.ClearCell exampleParse (Sheet.SetCell exampleParse Sheet.empty A1 "=C3").1
      A1).1.GetPrintableSize ≠ (0, 0) ∧
    (Sheet.ClearCell exampleParse
      (Sheet.ClearCell exampleParse (Sheet.SetCell exampleParse Sheet.empty A1 "=C3").1 A1).1
        C3).2 = none ∧
    (∀ q, (Sheet.ClearCell exampleParse
      (Sheet.ClearCell exampleParse (Sheet.SetCell exampleParse Sheet.empty A1 "=C3").1 A1).1
        C3).1.cellAt q = none) ∧
    (Sheet.ClearCell exampleParse
      (Sheet.ClearCell exampleParse (Sheet.SetCell exampleParse Sheet.empty A1 "=C3").1 A1).1
        C3).1.GetPrintableSize = (0, 0) :=
  referent_not_collected exampleParse A1 C3 "=C3" "C3" ⟨[C3], "C3", exampleExec [C3] 0⟩
    (by decide) (by decide) (by decide) (by decide) rfl (by decide)


/-! ## The cache after an evaluation -/

theorem cacheExt_fill {s s1 : Sheet} (h : CacheExt s s1) : CacheFill s s1 := by
  refine ⟨h.1, h.2.1, h.2.2.1, ?_⟩
  intro q
  rcases h.2.2.2 q with e | ⟨c, f, v, hc, hi, hc1, _⟩
  · exact Or.inl e
  · exact Or.inr ⟨c, f, v, hc, hi, hc1⟩

/-- After the assignment `cache_ = v` in a formula cell, the cache of the cell holds `v`. -/
theorem setCache_cacheAt {s s1 : Sheet} {self : Position} {c : Cell} {f : Formula}
    (h : CacheFill s s1) (hc : s.cellAt self = some c) (hi : c.impl_ = .FormulaImpl f none)
    (v : Value) : (s1.setCache self v).cacheAt self = some v := by
  unfold Sheet.cacheAt Sheet.setCache
  rw [Sheet.cellAt_modifyCell, if_pos rfl]
  rcases h.2.2.2 self with e | ⟨c0, f0, v0, hc0, hi0, hc1⟩
  · rw [e, hc]
    simp [hi, Impl.cache]
  · rw [hc1]
    simp [Impl.cache]

theorem Evaluate_cacheFill (fuel : Nat) (f : Formula) (s : Sheet) :
    CacheFill s (f.Evaluate (Cell.GetValue fuel) s).1 :=
  Exec.run_cacheFill (Cell.GetValue fuel) (GetValue_cacheFill fuel) f.ast_.exec s

/-- In a coherent state, a value that `GetValue` has returned for a stored cell is returned
again by every later call of sufficient depth on the state the first call left. -/
theorem GetValue_again {s : Sheet} (hco : s.Coherent) {self : Position} {c : Cell}
    (hc : s.cellAt self = some c) (fuel : Nat) (v : Value)
    (hv : (Cell.GetValue fuel s self).2 = .ok v) :
    ∃ N, ∀ fuel2, N ≤ fuel2 →
      (Cell.GetValue fuel2 (Cell.GetValue fuel s self).1 self).2 = .ok v := by
  obtain ⟨hext, hval⟩ := GetValue_sound fuel s self hco
  obtain ⟨fuel1, hden⟩ := hval v hv (by rw [hc]; simp)
  refine ⟨fuel1, fun fuel2 hle => ?_⟩
  apply GetValue_complete fuel2 _ self v (cacheExt_coherent hco hext)
  · intro hnone
    have := (cacheFill_stored (cacheExt_fill hext) self).1 hnone
    rw [hc] at this
    simp at this
  · rw [cacheExt_den hext fuel2]
    exact sheetDen_mono s hle self _ hden


/-! ## Printing the texts -/

theorem foldl_append_eq (l : List String) : ∀ acc : String,
    l.foldl (fun r s => r ++ s) acc = acc ++ String.join l := by
  induction l with
  | nil => intro acc; simp [String.join]
  | cons a l ih =>
    intro acc
    unfold String.join
    rw [List.foldl_cons, List.foldl_cons, ih (acc ++ a), ih ("" ++ a)]
    simp [String.append_assoc]

theorem join_cons (a : String) (l : List String) : String.join (a :: l) = a ++ String.join l := by
  unfold String.join
  rw [List.foldl_cons, foldl_append_eq]
  simp [String.join]

theorem intercalate_go (sep : String) (l : List String) : ∀ acc : String,
    String.intercalate.go acc sep l = acc ++ String.join (l.map (fun x => sep ++ x)) := by
  induction l with
  | nil => intro acc; simp [String.intercalate.go, String.join]
  | cons a l ih =>
    intro acc
    rw [String.intercalate.go, ih, List.map_cons, join_cons]
    simp [String.append_assoc]

theorem intercalate_cons (sep a : String) (l : List String) :
    sep.intercalate (a :: l) = a ++ String.join (l.map (fun x => sep ++ x)) := by
  rw [String.intercalate, intercalate_go]

/-- A row of `n + 1` fields joined by tabs: the first field, then each further field behind
one tab. -/
theorem row_fields (t : Nat → String) (n : Nat) :
    "\t".intercalate ((List.range (n + 1)).map t) =
      t 0 ++ String.join ((List.range n).map (fun c => "\t" ++ t (c + 1))) := by
  rw [List.range_succ_eq_map, List.map_cons, intercalate_cons, List.map_map, List.map_map]
  rfl

/-- What the column loop writes for a row is the fields of the row joined by tabs. -/
theorem cols_join_eq (t : Nat → String) (n : Nat) :
    String.join ((List.range n).map (fun col => (if col = 0 then "" else "\t") ++ t col)) =
      "\t".intercalate ((List.range n).map t) := by
  cases n with
  | zero => rfl
  | succ n =>
    rw [row_fields, List.range_succ_eq_map, List.map_cons, join_cons, List.map_map]
    simp only [if_true, String.empty_append]
    congr 2

theorem Position.row_lt_of_valid {p : Position} (h : p.IsValid = true) :
    p.row < Position.MAX_ROWS ∧ p.col < Position.MAX_COLS := by
  unfold Position.IsValid at h
  simpa using h

theorem printTextsCols_eq (s : Sheet) (row : Nat) (hrow : row < Position.MAX_ROWS) :
    ∀ (l : List Nat) (output : String), (∀ col ∈ l, col < Position.MAX_COLS) →
      s.printTextsCols row l output =
        (output ++ String.join
          (l.map (fun col => (if col = 0 then "" else "\t") ++ s.textAt ⟨row, col⟩)), none) := by
  intro l
  induction l with
  | nil => intro output _; simp [Sheet.printTextsCols, String.join]
  | cons col rest ih =>
    intro output hl
    have hv : (Position.mk row col).IsValid = true := by
      unfold Position.IsValid
      simp [hrow, hl col (List.mem_cons_self _ _)]
    have hrest : ∀ c ∈ rest, c < Position.MAX_COLS :=
      fun c hc => hl c (List.mem_cons_of_mem _ hc)
    unfold Sheet.printTextsCols
    unfold Sheet.GetCell
    rw [if_pos hv, List.map_cons, join_cons]
    cases hc : s.cellAt ⟨row, col⟩ with
    | none =>
      have ht : s.textAt ⟨row, col⟩ = "" := by unfold Sheet.textAt; rw [hc]
      simp only
      rw [ih _ hrest, ht]
      simp [String.append_assoc]
    | some cell =>
      have ht : s.textAt ⟨row, col⟩ = cell.GetText := by unfold Sheet.textAt; rw [hc]
      simp only
      rw [ih _ hrest, ht]
      simp [String.append_assoc]

theorem printTextsRows_eq (s : Sheet) (cols : Nat) (hcols : cols ≤ Position.MAX_COLS) :
    ∀ (rows : List Nat) (output : String), (∀ r ∈ rows, r < Position.MAX_ROWS) →
      s.printTextsRows cols rows output =
        (output ++ String.join (rows.map (fun r =>
          "\t".intercalate ((List.range cols).map (fun c => s.textAt ⟨r, c⟩)) ++ "\n")),
          none) := by
  intro rows
  induction rows with
  | nil => intro output _; simp [Sheet.printTextsRows, String.join]
  | cons r rest ih =>
    intro output hl
    have hrest : ∀ c ∈ rest, c < Position.MAX_ROWS :=
      fun c hc => hl c (List.mem_cons_of_mem _ hc)
    unfold Sheet.printTextsRows
    rw [printTextsCols_eq s r (hl r (List.mem_cons_self _ _)) (List.range cols) output
      (fun c hc => lt_of_lt_of_le (List.mem_range.1 hc) hcols)]
    simp only
    rw [ih _ hrest, cols_join_eq (fun c => s.textAt ⟨r, c⟩), List.map_cons, join_cons]
    simp [String.append_assoc]

/-- Within the bounds of valid positions, `PrintTexts` writes the text of the print format
and throws nothing. -/
theorem PrintTexts_eq (s : Sheet) (hr : s.GetPrintableSize.1 ≤ Position.MAX_ROWS)
    (hc : s.GetPrintableSize.2 ≤ Position.MAX_COLS) : s.PrintTexts = (s.specTexts, none) := by
  unfold Sheet.PrintTexts Sheet.specTexts
  rw [printTextsRows_eq s _ hc _ ""
    (fun r hrr => lt_of_lt_of_le (List.mem_range.1 hrr) hr)]
  simp

/-- In every state reachable by edits and reads the printable size is within the bounds of
valid positions. -/
theorem reachableV_size_le {parse : String → Option FormulaAST} {s : Sheet}
    (h : ReachableV parse s) :
    s.GetPrintableSize.1 ≤ Position.MAX_ROWS ∧ s.GetPrintableSize.2 ≤ Position.MAX_COLS := by
  rw [countersTight_size (reachableV_countersTight h)]
  have hvalid := reachableV_stored_valid h
  constructor
  · apply foldr_max_le
    intro x hx
    obtain ⟨c, hc⟩ := Sheet.stored_of_mem_keys hx
    exact (Position.row_lt_of_valid (hvalid x c hc)).1
  · apply foldr_max_le
    intro x hx
    obtain ⟨c, hc⟩ := Sheet.stored_of_mem_keys hx
    exact (Position.row_lt_of_valid (hvalid x c hc)).2


/-- C18: the output format of `PrintTexts`. In every state reachable by edits and reads,
with `GetPrintableSize() = (rows, cols)`, `PrintTexts` throws nothing and writes the
concatenation, for the rows `0 .. rows-1` in order, of the texts of the positions
`(r, 0) .. (r, cols-1)` joined by a single tab and followed by one newline, a position
without a stored cell contributing the empty text. In particular nothing is written when the
size is `(0, 0)`, and a row of `cols = n + 1` fields is its first field followed by each of
the `n` further fields behind one tab. -/
theorem PrintTexts_format (parse : String → Option FormulaAST) (s : Sheet)
    (h : ReachableV parse s) :
    s.PrintTexts = (s.specTexts, none) ∧
    (s.GetPrintableSize = (0, 0) → s.PrintTexts = ("", none)) ∧
    (∀ n, s.GetPrintableSize.2 = n + 1 → ∀ r,
      "\t".intercalate ((List.range s.GetPrintableSize.2).map (fun c => s.textAt ⟨r, c⟩)) =
        s.textAt ⟨r, 0⟩ ++
          String.join ((List.range n).map (fun c => "\t" ++ s.textAt ⟨r, c + 1⟩))) := by
  have hmain : s.PrintTexts = (s.specTexts, none) :=
    PrintTexts_eq s (reachableV_size_le h).1 (reachableV_size_le h).2
  refine ⟨hmain, ?_, ?_⟩
  · intro hsize
    rw [hmain]
    unfold Sheet.specTexts
    rw [hsize]
    rfl
  · intro n hn r
    rw [hn]
    exact row_fields (fun c => s.textAt ⟨r, c⟩) n

/-- A witness of C18: the texts of the sheet left by `set(A1, "=B5")`, five rows of two
fields. -/
theorem PrintTexts_format_witness :
    (Sheet.SetCell exampleParse Sheet.empty A1 "=B5").1.GetPrintableSize = (5, 2) ∧
    (Sheet.SetCell exampleParse Sheet.empty A1 "=B5").1.PrintTexts =
      ((Sheet.SetCell exampleParse Sheet.empty A1 "=B5").1.specTexts, none) ∧
    (Sheet.SetCell exampleParse Sheet.empty A1 "=B5").1.specTexts =
      "=B5\t\n\t\n\t\n\t\n\t\n" :=
  ⟨by decide,
    (PrintTexts_format exampleParse (Sheet.SetCell exampleParse Sheet.empty A1 "=B5").1
      (ReachableV.setCell _ A1 "=B5" ReachableV.empty)).1,
    by decide⟩


/-! ## Typed executions -/

/-- A typed execution never returns a text. -/
theorem Exec.run_typed (gv : Sheet → Position → Sheet × Except Exception Value) :
    ∀ (e : Exec) (s : Sheet) (v : Value), e.Typed → (e.run gv s).2 = .ok v →
      ∀ t, v ≠ .text t := by
  intro e
  induction e with
  | ret w =>
    intro s v ht hv
    simp only [Exec.run, Except.ok.injEq] at hv
    rw [← hv]
    exact ht
  | ask p k ih =>
    intro s v ht hv
    have ht2 : ∀ ov, (k ov).Typed := ht
    rw [Exec.run_ask] at hv
    cases hg : s.GetCell p with
    | error ex => rw [hg] at hv; simp at hv
    | ok o =>
      rw [hg] at hv
      cases o with
      | none => exact ih none s v (ht2 none) hv
      | some c =>
        simp only at hv
        cases hr : gv s p with
        | mk s1 r =>
          rw [hr] at hv
          cases r with
          | error ex => simp at hv
          | ok w => exact ih (some w) s1 v (ht2 (some w)) hv

theorem exampleExec_typed : ∀ (cells : List Position) (acc : Int),
    (exampleExec cells acc).Typed := by
  intro cells
  induction cells with
  | nil => intro acc; simp [exampleExec, Exec.Typed]
  | cons p rest ih =>
    intro acc
    unfold exampleExec Exec.Typed
    intro ov
    dsimp only
    split
    · exact ih _
    · simp [Exec.Typed]

/-- The example formula module yields numbers and errors only. -/
theorem exampleParse_typed : ModuleTyped exampleParse := by
  intro e ast h
  unfold exampleParse at h
  cases hc : exampleCells (exampleSplit e.data) with
  | none => rw [hc] at h; simp at h
  | some cells =>
    rw [hc] at h
    simp only [Option.some.injEq] at h
    subst h
    exact exampleExec_typed cells 0

/-- With a typed formula module, every formula stored in a state reachable by edits and
reads is typed. -/
theorem reachableV_typed {parse : String → Option FormulaAST} (htyped : ModuleTyped parse)
    {s : Sheet} (h : ReachableV parse s) {q : Position} {c : Cell} {f : Formula}
    {cache : Option Value} (hc : s.cellAt q = some c) (hi : c.impl_ = .FormulaImpl f cache) :
    f.ast_.exec.Typed := by
  have := reachableV_impl_inv
    (fun i => ∀ f cache, i = .FormulaImpl f cache → f.ast_.exec.Typed)
    (fun f cache hf => by simp at hf)
    (fun i hi f cache hf => by
      cases i with
      | EmptyImpl => simp [Impl.InvalidateCache] at hf
      | TextImpl t => simp [Impl.InvalidateCache] at hf
      | FormulaImpl f0 c0 =>
        simp only [Impl.InvalidateCache, Impl.FormulaImpl.injEq] at hf
        rw [← hf.1]
        exact hi f0 c0 rfl)
    (fun text _ f cache hf => by simp at hf)
    (fun e f0 hp f cache hf => by
      simp only [Impl.FormulaImpl.injEq] at hf
      rw [← hf.1]
      unfold ParseFormula at hp
      cases hpe : parse e with
      | none => rw [hpe] at hp; simp at hp
      | some ast =>
        rw [hpe] at hp
        simp only [Option.map_some', Option.some.injEq] at hp
        rw [← hp]
        exact htyped e ast hpe)
    (fun f0 v hq f cache hf => by
      simp only [Impl.FormulaImpl.injEq] at hf
      rw [← hf.1]
      exact hq f0 none rfl)
    h q c hc
  exact this f cache hi

/-! ## Empty texts in the states reachable by edits and reads -/

/-- In a state reachable by edits and reads a cell whose text is empty is an empty cell. -/
theorem reachableV_text_empty {parse : String → Option FormulaAST} {s : Sheet}
    (h : ReachableV parse s) {q : Position} {c : Cell} (hc : s.cellAt q = some c)
    (ht : c.GetText = "") : c.impl_ = .EmptyImpl := by
  have hform : ∀ (f : Formula) (cache : Option Value),
      (Impl.FormulaImpl f cache).GetText = "" → Impl.FormulaImpl f cache = .EmptyImpl := by
    intro f cache ht
    exfalso
    have h1 := congrArg String.data ht
    simp [Impl.GetText] at h1
  have := reachableV_impl_inv (fun i => i.GetText = "" → i = .EmptyImpl) (fun _ => rfl)
    (fun i hi ht => by
      rw [Impl.GetText_InvalidateCache] at ht
      rw [hi ht]; rfl)
    (fun text hne ht => absurd ht hne)
    (fun e f _ => hform f none)
    (fun f v _ => hform f (some v))
    h q c hc
  exact this ht


/-! ## The value of a formula cell -/

/-- C17: the value of a formula cell is what the formula module returned. In every state
reachable by edits and reads, with a formula module whose evaluations yield a number or a
`FormulaError`: for every formula cell whose cache is empty, when `Evaluate` returns `v`,
`GetValue` returns exactly `v` and stores `v` in the cache of the cell, in the state the
evaluation left; for every formula cell whose cache holds `v`, `GetValue` returns `v` and
leaves the state as it is, at every depth, so without evaluating; and a value that `GetValue`
has returned is returned again by a second call with no mutation in between, at every
sufficient depth. -/
theorem GetValue_formula (parse : String → Option FormulaAST) (hmod : ModuleLocal parse)
    (htyped : ModuleTyped parse) (s : Sheet) (h : ReachableV parse s) (self : Position)
    (c : Cell) (f : Formula) (cache : Option Value) (hc : s.cellAt self = some c)
    (hi : c.impl_ = .FormulaImpl f cache) :
    (cache = none → ∀ fuel v, (f.Evaluate (Cell.GetValue fuel) s).2 = .ok v →
      Cell.GetValue (fuel + 1) s self =
        ((f.Evaluate (Cell.GetValue fuel) s).1.setCache self v, .ok v) ∧
      (Cell.GetValue (fuel + 1) s self).1.cacheAt self = some v) ∧
    (∀ v, cache = some v → ∀ fuel, Cell.GetValue (fuel + 1) s self = (s, .ok v)) ∧
    (∀ fuel v, (Cell.GetValue fuel s self).2 = .ok v →
      ∃ N, ∀ fuel2, N ≤ fuel2 →
        (Cell.GetValue fuel2 (Cell.GetValue fuel s self).1 self).2 = .ok v) := by
  refine ⟨?_, ?_, ?_⟩
  · intro hcache fuel v hv
    subst hcache
    have hnt : ∀ t, v ≠ .text t :=
      Exec.run_typed (Cell.GetValue fuel) f.ast_.exec s v (reachableV_typed htyped h hc hi) hv
    have hfill := Evaluate_cacheFill fuel f s
    rw [GetValue_succ, hc]
    simp only [hi]
    cases hr : f.Evaluate (Cell.GetValue fuel) s with
    | mk s1 r =>
      rw [hr] at hv hfill
      simp only at hv hfill
      subst hv
      cases v with
      | number d => exact ⟨rfl, setCache_cacheAt hfill hc hi _⟩
      | error er => exact ⟨rfl, setCache_cacheAt hfill hc hi _⟩
      | text t => exact absurd rfl (hnt t)
  · intro v hcache fuel
    subst hcache
    rw [GetValue_succ, hc]
    simp only [hi]
  · intro fuel v hv
    exact GetValue_again (reachableV_inv hmod h).2.2 hc fuel v hv

/-- A witness of C17: `B1 = "=A1"` over `A1 = "hello"`; the formula module returns an error,
which `GetValue` returns and stores, and a second read returns it again. -/
theorem GetValue_formula_witness :
    ((Formula.mk ⟨[A1], "A1", exampleExec [A1] 0⟩).Evaluate (Cell.GetValue 2) helloSheet).2 =
      .ok (.error ⟨1⟩) ∧
    (Cell.GetValue 3 helloSheet B1 =
        (((Formula.mk ⟨[A1], "A1", exampleExec [A1] 0⟩).Evaluate
          (Cell.GetValue 2) helloSheet).1.setCache B1 (.error ⟨1⟩), .ok (.error ⟨1⟩)) ∧
      (Cell.GetValue 3 helloSheet B1).1.cacheAt B1 = some (.error ⟨1⟩)) ∧
    ∃ N, ∀ fuel2, N ≤ fuel2 →
      (Cell.GetValue fuel2 (Cell.GetValue 3 helloSheet B1).1 B1).2 = .ok (.error ⟨1⟩) :=
  ⟨rfl,
    (GetValue_formula exampleParse exampleParse_local exampleParse_typed helloSheet
      (ReachableV.setCell _ B1 "=A1" (ReachableV.setCell _ A1 "hello" ReachableV.empty))
      B1 ((helloSheet.cellAt B1).getD Cell.new) ⟨⟨[A1], "A1", exampleExec [A1] 0⟩⟩ none
      rfl rfl).1 rfl 2 (.error ⟨1⟩) rfl,
    (GetValue_formula exampleParse exampleParse_local exampleParse_typed helloSheet
      (ReachableV.setCell _ B1 "=A1" (ReachableV.setCell _ A1 "hello" ReachableV.empty))
      B1 ((helloSheet.cellAt B1).getD Cell.new) ⟨⟨[A1], "A1", exampleExec [A1] 0⟩⟩ none
      rfl rfl).2.2 3 (.error ⟨1⟩) rfl⟩


/-! ## `ClearCell` -/

/-- C9. In every state reachable by `SetCell`, `ClearCell` and `GetValue` calls,
`ClearCell(P)` on a valid position at which a cell is stored returns normally; the cell is still stored afterwards exactly when its `reverse_ref_` is not
empty, and then it is an empty cell (text `""`, value `Number 0`, no references); when its
`reverse_ref_` is empty, `GetCell(P)` returns the null pointer afterwards and the counters of
the row and of the column of `P` are one lower, the other counters unchanged. `ClearCell` on
a valid position without a stored cell changes nothing. -/
theorem ClearCell_spec (parse : String → Option FormulaAST) (s : Sheet) (pos : Position)
    (h : ReachableV parse s) (hv : pos.IsValid = true) :
    (∀ c, s.cellAt pos = some c →
      (Sheet.ClearCell parse s pos).2 = none ∧
      ((Sheet.ClearCell parse s pos).1.cellAt pos ≠ none ↔ c.reverse_ref_ ≠ []) ∧
      (c.reverse_ref_ ≠ [] →
        ∃ c1, (Sheet.ClearCell parse s pos).1.cellAt pos = some c1 ∧
          c1.impl_ = .EmptyImpl ∧ c1.GetText = "" ∧ c1.GetReferencedCells = [] ∧
          ((Sheet.ClearCell parse s pos).1.GetValue pos).2 = .ok (.number 0)) ∧
      (c.reverse_ref_ = [] →
        (Sheet.ClearCell parse s pos).1.GetCell pos = .ok none ∧
        (∀ r, (Sheet.ClearCell parse s pos).1.counter_in_row_.getD r 0 =
          s.counter_in_row_.getD r 0 - if r = pos.row then 1 else 0) ∧
        (∀ k, (Sheet.ClearCell parse s pos).1.counter_in_col_.getD k 0 =
          s.counter_in_col_.getD k 0 - if k = pos.col then 1 else 0))) ∧
    (s.cellAt pos = none → Sheet.ClearCell parse s pos = (s, none)) := by
  constructor
  · intro c hc
    obtain ⟨hok, hrow, hcol, c1, hc1, himpl, hrev⟩ := Clear_spec parse (reachableV_graphInv h) hc
    have hempty : c1.impl_ = .EmptyImpl := by
      rcases himpl with h1 | ⟨h1, h2⟩
      · exact h1
      · rw [h1]; exact reachableV_text_empty h hc h2
    have hnil : c1.reverse_ref_ = [] ↔ c.reverse_ref_ = [] := by
      constructor
      · intro h1
        apply List.eq_nil_iff_forall_not_mem.2
        intro b hb
        have := (hrev b).2 hb
        rw [h1] at this; simp at this
      · intro h1
        apply List.eq_nil_iff_forall_not_mem.2
        intro b hb
        have := (hrev b).1 hb
        rw [h1] at this; simp at this
    have htight : (Cell.Set parse s pos "").1.CountersTight :=
      Set_countersTight parse pos "" (reachableV_countersTight h)
    rw [ClearCell_eq, if_pos hv, hc]
    simp only [hok, hc1]
    by_cases href : c.reverse_ref_ = []
    · have hnot : ¬ c1.IsReferenced = true := by
        simp [Cell.IsReferenced, hnil.2 href]
      rw [if_neg hnot]
      simp only
      refine ⟨trivial, ?_, fun h1 => absurd href h1, fun _ => ⟨?_, ?_, ?_⟩⟩
      · rw [Sheet.cellAt_UpdateSizeSheet, Sheet.cellAt_erase, if_pos rfl]
        simp [href]
      · unfold Sheet.GetCell
        rw [if_pos hv, Sheet.cellAt_UpdateSizeSheet, Sheet.cellAt_erase, if_pos rfl]
      · intro r
        rw [← hrow]
        exact getD_updateCounter_dec htight.2.1 pos.row
          (Sheet.rowCount_erase hc1 htight.1) r
      · intro k
        rw [← hcol]
        exact getD_updateCounter_dec htight.2.2 pos.col
          (Sheet.colCount_erase hc1 htight.1) k
    · have hyes : c1.IsReferenced = true := by
        have : c1.reverse_ref_ ≠ [] := fun h1 => href (hnil.1 h1)
        cases hl : c1.reverse_ref_ with
        | nil => exact absurd hl this
        | cons a l => simp [Cell.IsReferenced, hl]
      rw [if_pos hyes]
      simp only
      refine ⟨trivial, ?_, fun _ => ⟨c1, hc1, hempty, ?_, ?_, ?_⟩, fun h1 => absurd h1 href⟩
      · rw [hc1]; simp [href]
      · simp [Cell.GetText, hempty, Impl.GetText]
      · simp [Cell.GetReferencedCells, hempty, Impl.GetReferencedCells]
      · simp [Sheet.GetValue, Cell.GetValue, hc1, hempty]
  · intro hc
    rw [ClearCell_eq, if_pos hv, hc]

/-- A witness of C9, the example of the spec after a read: with `A1 = "2"`, `B1 = "=A1"` and
the value of `B1` read and cached, the call `clear(A1)` keeps `A1` stored, as an empty cell,
because `B1` references it. -/
theorem ClearCell_spec_witness :
    cachedSheet.reverseAt A1 = [B1] ∧
    cachedSheet.cacheAt B1 = some (.number 2) ∧
    ((Sheet.ClearCell exampleParse cachedSheet A1).1.cellAt A1).map Cell.GetText = some "" ∧
    ((∀ c, cachedSheet.cellAt A1 = some c →
      (Sheet.ClearCell exampleParse cachedSheet A1).2 = none) ∧
    (cachedSheet.cellAt A1 = none →
      Sheet.ClearCell exampleParse cachedSheet A1 = (cachedSheet, none))) :=
  ⟨by decide, by decide, by decide,
    ⟨fun c hc => ((ClearCell_spec exampleParse cachedSheet A1
        (ReachableV.getValue _ B1 _
          (ReachableV.setCell _ B1 "=A1" (ReachableV.setCell _ A1 "2" ReachableV.empty)))
        (by decide)).1 c hc).1,
      (ClearCell_spec exampleParse cachedSheet A1
        (ReachableV.getValue _ B1 _
          (ReachableV.setCell _ B1 "=A1" (ReachableV.setCell _ A1 "2" ReachableV.empty)))
        (by decide)).2⟩⟩
